import Mathlib

/-!
Shallow embedding of the `@ggoodman/channels` library.

The core implementation lives in `src/queue.ts` (class `Queue`),
`src/channelImpl.ts` (class `ChannelImpl`) and `src/channel.ts`
(functions `channel` and `select`).  A second, rewritten implementation of
`ChannelImpl` appears in `src/unnamed/part_002`; it is embedded further
below with an `R` prefix.

Modelling conventions:
* JS arrays that back a `Queue` keep the source orientation: `push` calls
  `Array.prototype.unshift`, so index 0 is the NEWEST item and the last
  element is the OLDEST; `pop`/`peek` act on the last element.
* Promises are identified by numeric ids allocated from a counter.  A
  promise can be resolved at most once; resolving an already resolved
  promise is a no-op.  Observable behaviour is recorded as a list of
  events (promise resolutions and synchronously thrown errors).
* A put promise id is allocated for every `put` call, including the
  branches where the source returns the shared pre-resolved
  `resolvedTrue` promise; in those branches the model resolves the fresh
  promise immediately, which is observationally the same.
* The single-threaded JS semantics makes every operation a synchronous
  state transformer; the resolution callbacks stored in the queues are
  represented by first-order data (`Reader` values) and their invocation
  is interpreted by `invokeReader`.
-/

namespace Channels

/-- JS `Number.MAX_SAFE_INTEGER`, the default `maxSize` of `Queue`. -/
def MAX_SAFE_INTEGER : Nat := 2 ^ 53 - 1

/-- Embedding of `Queue` from `src/queue.ts`: a JS array (`items`, index 0
is the newest element because `push` uses `unshift`) plus the capacity
ceiling `maxSize` (constructor default `Number.MAX_SAFE_INTEGER`). -/
structure Queue (α : Type) where
  items : List α := []
  maxSize : Nat := MAX_SAFE_INTEGER

namespace Queue

/-- `get size()` from `src/queue.ts`. -/
def size (q : Queue α) : Nat := q.items.length

/-- `peek()` from `src/queue.ts`: the oldest item (`items[items.length - 1]`)
or `undefined`. -/
def peek (q : Queue α) : Option α := q.items.getLast?

/-- The removal half of `pop()` from `src/queue.ts` (`Array.prototype.pop`
removes the last, i.e. oldest, element); the returned value is `peek`. -/
def dropOldest (q : Queue α) : Queue α := { q with items := q.items.dropLast }

/-- `push(item)` from `src/queue.ts`: `false` (here `none`) when
`size >= maxSize`, otherwise `unshift` the item.  The withdrawal closure
returned by the source on success is modelled at the call sites
(withdrawal removes the pushed item by identity). -/
def push (q : Queue α) (x : α) : Option (Queue α) :=
  if q.size ≥ q.maxSize then none else some { q with items := x :: q.items }

end Queue

/-- Observable events of a run: promise resolutions/rejections and
synchronously thrown errors, in the order they happen. -/
inductive Event (α : Type) where
  /-- a `put` promise resolved with the given boolean -/
  | putResolved (p : Nat) (ok : Bool)
  /-- a `take` promise resolved; `none` is the `closed` sentinel -/
  | takeResolved (p : Nat) (v : Option α)
  /-- a `take` promise rejected with `ChannelOverflowError` -/
  | takeOverflow (p : Nat)
  /-- a `select` promise resolved with `{key, value}`; `none` is `closed` -/
  | selectResolved (p : Nat) (key : Nat) (v : Option α)
  /-- a `select` promise rejected with `ChannelOverflowError` -/
  | selectOverflow (p : Nat)
  /-- a `ChannelClosedError` was thrown synchronously -/
  | threwClosed
  /-- a `TypeError` was thrown synchronously -/
  | threwType
  deriving DecidableEq, Repr

/-- An entry of `ChannelImpl[kReadQueue]` (`src/channelImpl.ts`): either the
`resolve` callback pushed by `ChannelImpl[kTake]`, or a callback pushed by
the registration phase of `ChannelImpl[kSelect]` (which carries the key it
was registered under and the identity of its select call so that the other
registrations of the same select can be withdrawn).  `rid` is the identity
of the pushed item, standing in for JS object identity used by
`indexOf`-based withdrawal. -/
inductive Reader where
  | takeR (p : Nat) (rid : Nat)
  | selectR (p : Nat) (key : Nat) (selId : Nat) (rid : Nat)
  deriving DecidableEq, Repr

namespace Reader

/-- The identity of the queue entry. -/
def rid : Reader → Nat
  | takeR _ r => r
  | selectR _ _ _ r => r

/-- The select call a registration belongs to, if any. -/
def selId? : Reader → Option Nat
  | takeR _ _ => none
  | selectR _ _ s _ => some s

end Reader

/-- An entry of `ChannelImpl[kMessageQueue]` (`src/channelImpl.ts`):
`{ msg, putCb?, ts }`.  `putCb` stores the id of the promise whose
`resolve` the source stores there. -/
structure Env (α : Type) where
  msg : α
  putCb : Option Nat
  ts : Nat
  deriving DecidableEq, Repr

/-- The mutable state of one `ChannelImpl` from `src/channelImpl.ts`:
`[kBufferSize]`, `[kClosed]`, `[kMessageQueue]`, `[kReadQueue]`. -/
structure Chan (α : Type) where
  bufferSize : Nat
  closed : Bool := false
  messages : Queue (Env α) := {}
  readers : Queue Reader := {}

/-- A system of channels together with the module-level `totalOrder`
counter of `src/channelImpl.ts` and the bookkeeping for promises:
`nextP`/`nextReg`/`nextSel` allocate promise/registration/select ids,
`resolved` is the set of already-resolved promise ids, `events` the
observable history. -/
structure Sys (α : Type) where
  chans : List (Chan α)
  totalOrder : Nat := 0
  nextP : Nat := 0
  nextReg : Nat := 0
  nextSel : Nat := 0
  resolved : List Nat := []
  events : List (Event α) := []

/-- Replace channel `i`. -/
def setChan (s : Sys α) (i : Nat) (ch : Chan α) : Sys α :=
  { s with chans := s.chans.set i ch }

/-- Resolve promise `p`, emitting `ev`; a no-op when `p` was already
resolved (JS promises settle at most once). -/
def resolveP (s : Sys α) (p : Nat) (ev : Event α) : Sys α :=
  if p ∈ s.resolved then s
  else { s with resolved := p :: s.resolved, events := s.events ++ [ev] }

/-- Invocation of an envelope's completion callback when present:
`if (putCb) putCb(b)` as it appears in `ChannelImpl[kRead]`,
`ChannelImpl.close` and `ChannelImpl[kSelect]`. -/
def resolvePutCb (s : Sys α) (cb : Option Nat) (ok : Bool) : Sys α :=
  match cb with
  | some p => resolveP s p (.putResolved p ok)
  | none => s

/-- The withdrawal loop in the select callback of `ChannelImpl[kSelect]`
(`src/channelImpl.ts`): every registration of select call `selId` other
than the fired one (`rid`) is removed from its reader queue via its
dispose closure (`indexOf` + `splice` on the identical item). -/
def withdrawOthers (s : Sys α) (selId rid : Nat) : Sys α :=
  { s with chans := s.chans.map (fun ch =>
      { ch with readers := { ch.readers with
          items := ch.readers.items.filter
            (fun r => ¬ (r.selId? = some selId ∧ r.rid ≠ rid)) } }) }

/-- Invoking a popped reader callback with a value (`some v`) or with the
`closed` sentinel (`none`).  A `kTake` reader resolves its take promise;
a select registration first withdraws its sibling registrations and then
resolves the select promise (the callback body in `ChannelImpl[kSelect]`). -/
def invokeReader (s : Sys α) (r : Reader) (v : Option α) : Sys α :=
  match r with
  | .takeR p _ => resolveP s p (.takeResolved p v)
  | .selectR p key selId rid =>
      resolveP (withdrawOthers s selId rid) p (.selectResolved p key v)

/-- `ChannelImpl.put` from `src/channelImpl.ts`. -/
def putOp (s : Sys α) (i : Nat) (v : α) : Sys α :=
  match s.chans[i]? with
  | none => s
  | some ch =>
    if ch.closed then { s with events := s.events ++ [.threwClosed] }
    else
      let ts := s.totalOrder
      let p := s.nextP
      let s1 : Sys α := { s with totalOrder := ts + 1, nextP := p + 1 }
      match ch.readers.peek with
      | some r =>
          let s2 := setChan s1 i { ch with readers := ch.readers.dropOldest }
          let s3 := invokeReader s2 r (some v)
          resolveP s3 p (.putResolved p true)
      | none =>
          match ch.messages.push { msg := v, putCb := some p, ts := ts } with
          | none => resolveP s1 p (.putResolved p false)
          | some mq =>
              let s2 := setChan s1 i { ch with messages := mq }
              if mq.size ≤ ch.bufferSize then resolveP s2 p (.putResolved p true)
              else s2

/-- `ChannelImpl[kRead]` from `src/channelImpl.ts`: returns the popped
value (or `none`) next to the successor state. -/
def readOp (s : Sys α) (i : Nat) : Sys α × Option α :=
  match s.chans[i]? with
  | none => (s, none)
  | some ch =>
    if ch.closed then (s, none)
    else
      match ch.messages.peek with
      | none => (s, none)
      | some env =>
          let s1 := setChan s i { ch with messages := ch.messages.dropOldest }
          (resolvePutCb s1 env.putCb true, some env.msg)

/-- `ChannelImpl[kTake]` from `src/channelImpl.ts`. -/
def takeOp (s : Sys α) (i : Nat) : Sys α :=
  match s.chans[i]? with
  | none => s
  | some ch =>
    let p := s.nextP
    let s1 : Sys α := { s with nextP := p + 1 }
    if ch.closed then resolveP s1 p (.takeResolved p none)
    else if ch.messages.size ≠ 0 then
      let r := readOp s1 i
      resolveP r.1 p (.takeResolved p r.2)
    else
      let rid := s1.nextReg
      let s2 : Sys α := { s1 with nextReg := rid + 1 }
      match ch.readers.push (.takeR p rid) with
      | none => resolveP s2 p (.takeOverflow p)
      | some rq => setChan s2 i { ch with readers := rq }

/-- Size of channel `i`'s reader queue, the termination measure of the
reader drain loop in `ChannelImpl.close`. -/
def chanReadersN (s : Sys α) (i : Nat) : Nat :=
  match s.chans[i]? with
  | some ch => ch.readers.size
  | none => 0

/-- Size of channel `i`'s message queue. -/
def chanMessagesN (s : Sys α) (i : Nat) : Nat :=
  match s.chans[i]? with
  | some ch => ch.messages.size
  | none => 0

theorem resolveP_chans (s : Sys α) (p : Nat) (ev : Event α) :
    (resolveP s p ev).chans = s.chans := by
  unfold resolveP; split <;> rfl

theorem chanReadersN_withdrawOthers (s : Sys α) (selId rid i : Nat) :
    chanReadersN (withdrawOthers s selId rid) i ≤ chanReadersN s i := by
  unfold chanReadersN withdrawOthers
  simp only [List.getElem?_map]
  cases s.chans[i]? with
  | none => simp
  | some ch => simpa [Queue.size] using List.length_filter_le _ ch.readers.items

theorem chanReadersN_invokeReader (s : Sys α) (r : Reader) (v : Option α) (i : Nat) :
    chanReadersN (invokeReader s r v) i ≤ chanReadersN s i := by
  cases r with
  | takeR p rid =>
      unfold invokeReader chanReadersN
      rw [resolveP_chans]
  | selectR p key selId rid =>
      unfold invokeReader
      have h1 : chanReadersN (resolveP (withdrawOthers s selId rid) p
          (Event.selectResolved p key v)) i = chanReadersN (withdrawOthers s selId rid) i := by
        unfold chanReadersN
        rw [resolveP_chans]
      rw [h1]
      exact chanReadersN_withdrawOthers s selId rid i

theorem chanReadersN_setChan (s : Sys α) (i : Nat) (ch0 ch : Chan α)
    (h : s.chans[i]? = some ch0) :
    chanReadersN (setChan s i ch) i = ch.readers.size := by
  have hi : i < s.chans.length := by
    by_contra hc
    rw [List.getElem?_eq_none (Nat.le_of_not_lt hc)] at h
    exact Option.noConfusion h
  unfold chanReadersN setChan
  simp [List.getElem?_set_self, hi]

theorem dropOldest_size_lt (q : Queue β) (r : β) (h : q.peek = some r) :
    q.dropOldest.size < q.size := by
  have hpos : 0 < q.items.length := by
    cases hq : q.items with
    | nil => rw [Queue.peek, hq] at h; simp at h
    | cons a t => simp [hq]
  simp only [Queue.dropOldest, Queue.size, List.length_dropLast]
  omega

/-- The first `while` loop of `ChannelImpl.close` (`src/channelImpl.ts`):
pop every pending reader of channel `i` and invoke it with the `closed`
sentinel.  Invoking a select registration can itself withdraw readers
(including later readers of channel `i`), so the loop is modelled on the
evolving state; it terminates because each round removes the popped
reader and withdrawal only removes entries. -/
def drainReaders (s : Sys α) (i : Nat) : Sys α :=
  match h : s.chans[i]? with
  | none => s
  | some ch =>
    match h2 : ch.readers.peek with
    | none => s
    | some r =>
        drainReaders
          (invokeReader (setChan s i { ch with readers := ch.readers.dropOldest }) r none) i
termination_by chanReadersN s i
decreasing_by
  calc chanReadersN
        (invokeReader (setChan s i { ch with readers := ch.readers.dropOldest }) r none) i
      ≤ chanReadersN (setChan s i { ch with readers := ch.readers.dropOldest }) i :=
        chanReadersN_invokeReader _ r none i
    _ = ch.readers.dropOldest.size := chanReadersN_setChan s i ch _ h
    _ < ch.readers.size := dropOldest_size_lt ch.readers r h2
    _ = chanReadersN s i := by unfold chanReadersN; rw [h]

theorem resolvePutCb_chans (s : Sys α) (cb : Option Nat) (ok : Bool) :
    (resolvePutCb s cb ok).chans = s.chans := by
  cases cb with
  | none => rfl
  | some p => unfold resolvePutCb; rw [resolveP_chans]

theorem chanMessagesN_setChan (s : Sys α) (i : Nat) (ch0 ch : Chan α)
    (h : s.chans[i]? = some ch0) :
    chanMessagesN (setChan s i ch) i = ch.messages.size := by
  have hi : i < s.chans.length := by
    by_contra hc
    rw [List.getElem?_eq_none (Nat.le_of_not_lt hc)] at h
    exact Option.noConfusion h
  unfold chanMessagesN setChan
  simp [List.getElem?_set_self, hi]

/-- The second `while` loop of `ChannelImpl.close` (`src/channelImpl.ts`):
pop every queued envelope of channel `i` and, when it has one, invoke its
completion callback with `false`. -/
def drainMessages (s : Sys α) (i : Nat) : Sys α :=
  match h : s.chans[i]? with
  | none => s
  | some ch =>
    match h2 : ch.messages.peek with
    | none => s
    | some env =>
        drainMessages
          (resolvePutCb (setChan s i { ch with messages := ch.messages.dropOldest })
            env.putCb false) i
termination_by chanMessagesN s i
decreasing_by
  have hres : chanMessagesN
      (resolvePutCb (setChan s i { ch with messages := ch.messages.dropOldest })
        env.putCb false) i =
      chanMessagesN (setChan s i { ch with messages := ch.messages.dropOldest }) i := by
    unfold chanMessagesN
    rw [resolvePutCb_chans]
  rw [hres, chanMessagesN_setChan s i ch _ h]
  have hlt : (Queue.dropOldest ch.messages).size < ch.messages.size :=
    dropOldest_size_lt ch.messages env h2
  unfold chanMessagesN
  rw [h]
  exact hlt

/-- `ChannelImpl.close` from `src/channelImpl.ts`. -/
def closeOp (s : Sys α) (i : Nat) : Sys α :=
  match s.chans[i]? with
  | none => s
  | some ch =>
    if ch.closed then { s with events := s.events ++ [.threwClosed] }
    else drainMessages (drainReaders (setChan s i { ch with closed := true }) i) i

/-- Result of the synchronous scan loop of `ChannelImpl[kSelect]`
(`src/channelImpl.ts`): either an early return at the first closed
channel, or the end of the loop with the accumulated
`oldestCh`/`hadChannel` values. -/
inductive ScanResult where
  | closedAt (key : Nat)
  | done (oldest : Option (Nat × Nat)) (hadChannel : Bool)
  deriving DecidableEq, Repr

/-- The scan loop of `ChannelImpl[kSelect]`: walk the mapping in
iteration order tracking the channel whose oldest envelope has the
smallest `ts` seen so far (`oldestTs = none` is
`Number.POSITIVE_INFINITY`); return immediately at a closed channel.
Keys that do not denote a channel of the system are skipped (they cannot
occur in source-level calls). -/
def selectScan (s : Sys α) :
    List (Nat × Nat) → Option Nat → Option (Nat × Nat) → Bool → ScanResult
  | [], _, oldest, had => .done oldest had
  | (key, ci) :: rest, oldestTs, oldest, had =>
    match s.chans[ci]? with
    | none => selectScan s rest oldestTs oldest had
    | some ch =>
      if ch.closed then .closedAt key
      else
        match ch.messages.peek with
        | some env =>
            match oldestTs with
            | none => selectScan s rest (some env.ts) (some (key, ci)) true
            | some t =>
                if env.ts < t then selectScan s rest (some env.ts) (some (key, ci)) true
                else selectScan s rest oldestTs oldest true
        | none => selectScan s rest oldestTs oldest true

/-- The registration loop of `ChannelImpl[kSelect]`: push one reader per
mapping entry, all sharing the select promise `p` and the select identity
`selId`.  When a push is rejected the select promise is resolved with a
rejected promise (`ChannelOverflowError`) and the loop stops — the
registrations already made are NOT withdrawn. -/
def selectRegister (s : Sys α) (p selId : Nat) : List (Nat × Nat) → Sys α
  | [] => s
  | (key, ci) :: rest =>
    match s.chans[ci]? with
    | none => selectRegister s p selId rest
    | some ch =>
      let rid := s.nextReg
      let s1 : Sys α := { s with nextReg := rid + 1 }
      match ch.readers.push (.selectR p key selId rid) with
      | none => resolveP s1 p (.selectOverflow p)
      | some rq => selectRegister (setChan s1 ci { ch with readers := rq }) p selId rest

/-- `ChannelImpl[kSelect]` from `src/channelImpl.ts`, with the mapping
given as an association list of key/channel pairs in iteration order. -/
def selectOp (s : Sys α) (m : List (Nat × Nat)) : Sys α :=
  match selectScan s m none none false with
  | .closedAt key =>
      let p := s.nextP
      resolveP { s with nextP := p + 1 } p (.selectResolved p key none)
  | .done (some (key, ci)) _ =>
      match s.chans[ci]? with
      | none => s
      | some ch =>
        match ch.messages.peek with
        | none => s
        | some env =>
            let p := s.nextP
            let s1 : Sys α := { s with nextP := p + 1 }
            let s2 := setChan s1 ci { ch with messages := ch.messages.dropOldest }
            resolveP (resolvePutCb s2 env.putCb true) p (.selectResolved p key (some env.msg))
  | .done none had =>
      if !had then { s with events := s.events ++ [.threwType] }
      else
        let p := s.nextP
        let selId := s.nextSel
        selectRegister { s with nextP := p + 1, nextSel := selId + 1 } p selId m

/-- The operations a client can perform on a system of channels. -/
inductive Op (α : Type) where
  | putO (i : Nat) (v : α)
  | takeO (i : Nat)
  | readO (i : Nat)
  | closeO (i : Nat)
  | selectO (m : List (Nat × Nat))
  deriving DecidableEq, Repr

/-- Apply one operation. -/
def applyOp (s : Sys α) : Op α → Sys α
  | .putO i v => putOp s i v
  | .takeO i => takeOp s i
  | .readO i => (readOp s i).1
  | .closeO i => closeOp s i
  | .selectO m => selectOp s m

/-- Run a sequence of operations. -/
def runOps (s : Sys α) (ops : List (Op α)) : Sys α := ops.foldl applyOp s

/-- A fresh system: one channel per entry of `caps`, each built by
`new ChannelImpl(bufferSize)` with empty queues and `closed = false`. -/
def mkSys (α : Type) (caps : List Nat) : Sys α :=
  { chans := caps.map (fun k => { bufferSize := k }) }

/-- Truncation toward zero, the integer part used by ECMAScript
`ToInt32`. -/
def jsTrunc (q : ℚ) : ℤ := if 0 ≤ q then ⌊q⌋ else ⌈q⌉

/-- ECMAScript `ToInt32`, the semantics of `size | 0` in
`src/channel.ts` for a (finite, non-`NaN`) numeric argument. -/
def toInt32 (q : ℚ) : ℤ :=
  let n := jsTrunc q % 2 ^ 32
  if n ≥ 2 ^ 31 then n - 2 ^ 32 else n

/-- Outcome of the `channel` factory. -/
inductive CtorResult (α : Type) where
  | ok (ch : Chan α)
  | argError

/-- The `channel<T>(size?)` factory from `src/channel.ts`.  The JS number
argument is modelled as a rational (`NaN`/infinities aside); `if (size)`
is JS numeric truthiness, i.e. `size ≠ 0`. -/
def channelFn (α : Type) (size : Option ℚ) : CtorResult α :=
  match size with
  | none => .ok { bufferSize := 0 }
  | some q =>
    if q ≠ 0 then
      if (toInt32 q : ℚ) ≠ q then .argError
      else if q < 1 then .argError
      else .ok { bufferSize := q.num.toNat }
    else .ok { bufferSize := 0 }

/-!
Embedding of the rewritten implementation, class `ChannelImpl` of
`src/unnamed/part_002`.  Its select coordinator is callback-free: a
channel exposes `_race`, which resolves a racer promise when a message
may be available, and the select continuation (a `.then` on
`Promise.race`) concludes the race.  That continuation runs on a later
microtask, outside the synchronous step semantics modelled here; the
synchronous part of every operation (all queue mutations and promise
settlements it performs) is modelled faithfully, and racer promises are
marked resolved without a user-visible event since users never observe
them directly.
-/

/-- An entry of the rewrite's `#messageQueue`: `{ msg, pubCb? }`
(note: no sequence number). -/
structure REnv (α : Type) where
  msg : α
  pubCb : Option Nat
  deriving DecidableEq, Repr

/-- The state of one rewrite `ChannelImpl`: `#bufferSize`, `#closed`,
`#messageQueue`, `#takersQueue`, `#racersQueue`.  Takers and racers are
bare `resolve` callbacks, identified by their promise ids. -/
structure RChan (α : Type) where
  bufferSize : Nat
  closed : Bool := false
  messages : Queue (REnv α) := {}
  takers : Queue Nat := {}
  racers : Queue Nat := {}

/-- A system of rewrite channels with promise bookkeeping. -/
structure RSys (α : Type) where
  chans : List (RChan α)
  nextP : Nat := 0
  resolved : List Nat := []
  events : List (Event α) := []

/-- Replace rewrite channel `i`. -/
def rsetChan (s : RSys α) (i : Nat) (ch : RChan α) : RSys α :=
  { s with chans := s.chans.set i ch }

/-- Resolve promise `p` in the rewrite system, emitting `ev` unless `p`
already settled. -/
def rresolveP (s : RSys α) (p : Nat) (ev : Event α) : RSys α :=
  if p ∈ s.resolved then s
  else { s with resolved := p :: s.resolved, events := s.events ++ [ev] }

/-- Mark an internal racer promise as settled; its continuation is
asynchronous and produces no synchronous observable effect. -/
def rmarkResolved (s : RSys α) (p : Nat) : RSys α :=
  if p ∈ s.resolved then s else { s with resolved := p :: s.resolved }

/-- `if (pendingMsg.pubCb) pendingMsg.pubCb(b)` of the rewrite. -/
def rresolvePutCb (s : RSys α) (cb : Option Nat) (ok : Bool) : RSys α :=
  match cb with
  | some p => rresolveP s p (.putResolved p ok)
  | none => s

/-- `put` of the rewrite (`src/unnamed/part_002`).  Notable differences
from the core: an absorbed message is pushed without a completion
callback (with the push's result ignored), a rejected overflow push makes
the put promise pend forever (the executor returns the unrelated
`resolvedFalse` value instead of calling `resolve`), and a deferred push
pops and fires one racer. -/
def rputOp (s : RSys α) (i : Nat) (v : α) : RSys α :=
  match s.chans[i]? with
  | none => s
  | some ch =>
    if ch.closed then { s with events := s.events ++ [.threwClosed] }
    else
      let p := s.nextP
      let s1 : RSys α := { s with nextP := p + 1 }
      match ch.takers.peek with
      | some t =>
          let s2 := rsetChan s1 i { ch with takers := ch.takers.dropOldest }
          let s3 := rresolveP s2 t (.takeResolved t (some v))
          rresolveP s3 p (.putResolved p true)
      | none =>
          if ch.messages.size < ch.bufferSize then
            let s2 := match ch.messages.push { msg := v, pubCb := none } with
              | none => s1
              | some mq => rsetChan s1 i { ch with messages := mq }
            rresolveP s2 p (.putResolved p true)
          else
            match ch.messages.push { msg := v, pubCb := some p } with
            | none => s1
            | some mq =>
                match ch.racers.peek with
                | some rp =>
                    rmarkResolved
                      (rsetChan s1 i { ch with messages := mq, racers := ch.racers.dropOldest }) rp
                | none => rsetChan s1 i { ch with messages := mq }

/-- `read` of the rewrite. -/
def rreadOp (s : RSys α) (i : Nat) : RSys α × Option α :=
  match s.chans[i]? with
  | none => (s, none)
  | some ch =>
    if ch.closed then (s, none)
    else
      match ch.messages.peek with
      | none => (s, none)
      | some env =>
          let s1 := rsetChan s i { ch with messages := ch.messages.dropOldest }
          (rresolvePutCb s1 env.pubCb true, some env.msg)

/-- `_take` of the rewrite.  The push of the taker callback ignores the
push's result: on overflow the taker is silently dropped and the take
promise pends forever (no `ChannelOverflowError`, unlike the core). -/
def rtakeOp (s : RSys α) (i : Nat) : RSys α :=
  match s.chans[i]? with
  | none => s
  | some ch =>
    let p := s.nextP
    let s1 : RSys α := { s with nextP := p + 1 }
    if ch.closed then rresolveP s1 p (.takeResolved p none)
    else if ch.messages.size ≠ 0 then
      let r := rreadOp s1 i
      rresolveP r.1 p (.takeResolved p r.2)
    else
      match ch.takers.push p with
      | none => s1
      | some tq => rsetChan s1 i { ch with takers := tq }

/-- Size of rewrite channel `i`'s taker queue. -/
def rchanTakersN (s : RSys α) (i : Nat) : Nat :=
  match s.chans[i]? with
  | some ch => ch.takers.size
  | none => 0

/-- Size of rewrite channel `i`'s racer queue. -/
def rchanRacersN (s : RSys α) (i : Nat) : Nat :=
  match s.chans[i]? with
  | some ch => ch.racers.size
  | none => 0

theorem rresolveP_chans (s : RSys α) (p : Nat) (ev : Event α) :
    (rresolveP s p ev).chans = s.chans := by
  unfold rresolveP; split <;> rfl

theorem rmarkResolved_chans (s : RSys α) (p : Nat) :
    (rmarkResolved s p).chans = s.chans := by
  unfold rmarkResolved; split <;> rfl

theorem rchanN_setChan (s : RSys α) (i : Nat) (ch0 ch : RChan α) (f : RChan α → Nat)
    (h : s.chans[i]? = some ch0) :
    (match (rsetChan s i ch).chans[i]? with | some c => f c | none => 0) = f ch := by
  have hi : i < s.chans.length := by
    by_contra hc
    rw [List.getElem?_eq_none (Nat.le_of_not_lt hc)] at h
    exact Option.noConfusion h
  unfold rsetChan
  simp [List.getElem?_set_self, hi]

/-- The first `while` loop of the rewrite's `close`: pop every taker and
invoke it with the `closed` sentinel. -/
def rdrainTakers (s : RSys α) (i : Nat) : RSys α :=
  match h : s.chans[i]? with
  | none => s
  | some ch =>
    match h2 : ch.takers.peek with
    | none => s
    | some t =>
        rdrainTakers
          (rresolveP (rsetChan s i { ch with takers := ch.takers.dropOldest }) t
            (.takeResolved t none)) i
termination_by rchanTakersN s i
decreasing_by
  have e1 : rchanTakersN
      (rresolveP (rsetChan s i { ch with takers := ch.takers.dropOldest }) t
        (Event.takeResolved t none)) i =
      rchanTakersN (rsetChan s i { ch with takers := ch.takers.dropOldest }) i := by
    unfold rchanTakersN
    rw [rresolveP_chans]
  rw [e1]
  unfold rchanTakersN
  rw [rchanN_setChan s i ch _ (fun c => c.takers.size) h]
  rw [h]
  exact dropOldest_size_lt ch.takers t h2

/-- The second `while` loop of the rewrite's `close`: pop every racer and
fire it (`racerCb(this)`); the continuation is asynchronous. -/
def rdrainRacers (s : RSys α) (i : Nat) : RSys α :=
  match h : s.chans[i]? with
  | none => s
  | some ch =>
    match h2 : ch.racers.peek with
    | none => s
    | some rp =>
        rdrainRacers
          (rmarkResolved (rsetChan s i { ch with racers := ch.racers.dropOldest }) rp) i
termination_by rchanRacersN s i
decreasing_by
  have e1 : rchanRacersN
      (rmarkResolved (rsetChan s i { ch with racers := ch.racers.dropOldest }) rp) i =
      rchanRacersN (rsetChan s i { ch with racers := ch.racers.dropOldest }) i := by
    unfold rchanRacersN
    rw [rmarkResolved_chans]
  rw [e1]
  unfold rchanRacersN
  rw [rchanN_setChan s i ch _ (fun c => c.racers.size) h]
  rw [h]
  exact dropOldest_size_lt ch.racers rp h2

/-- `close` of the rewrite: throws a `TypeError` (not a
`ChannelClosedError`) when already closed; drains takers, then racers; it
does NOT drain the message queue, so pending deferred puts stay pending. -/
def rcloseOp (s : RSys α) (i : Nat) : RSys α :=
  match s.chans[i]? with
  | none => s
  | some ch =>
    if ch.closed then { s with events := s.events ++ [.threwType] }
    else rdrainRacers (rdrainTakers (rsetChan s i { ch with closed := true }) i) i

/-- The loop of the rewrite's `_select`: in mapping iteration order, a
channel with a non-empty message queue settles the select synchronously
(with the `closed` sentinel when that channel is closed, else with its
popped oldest message — no cross-channel seniority comparison); a channel
with an empty message queue gets a racer registered (`_race`), and when
no entry settles synchronously the select stays suspended on the racers
(`had = false` at the end means the mapping was empty: `TypeError`). -/
def rselectLoop (s : RSys α) : List (Nat × Nat) → Bool → RSys α
  | [], had => if !had then { s with events := s.events ++ [.threwType] } else s
  | (key, ci) :: rest, had =>
    match s.chans[ci]? with
    | none => rselectLoop s rest had
    | some ch =>
      if ch.messages.size ≠ 0 then
        if ch.closed then
          let p := s.nextP
          rresolveP { s with nextP := p + 1 } p (.selectResolved p key none)
        else
          match ch.messages.peek with
          | none => s
          | some env =>
              let p := s.nextP
              let s1 : RSys α := { s with nextP := p + 1 }
              let s2 := rsetChan s1 ci { ch with messages := ch.messages.dropOldest }
              rresolveP (rresolvePutCb s2 env.pubCb true) p (.selectResolved p key (some env.msg))
      else
        let rp := s.nextP
        let s1 : RSys α := { s with nextP := rp + 1 }
        match ch.racers.push rp with
        | none => rselectLoop s1 rest true
        | some rq => rselectLoop (rsetChan s1 ci { ch with racers := rq }) rest true

/-- `_select` of the rewrite over an association-list mapping. -/
def rselectOp (s : RSys α) (m : List (Nat × Nat)) : RSys α :=
  rselectLoop s m false

/-- Apply one operation to the rewrite system. -/
def rapplyOp (s : RSys α) : Op α → RSys α
  | .putO i v => rputOp s i v
  | .takeO i => rtakeOp s i
  | .readO i => (rreadOp s i).1
  | .closeO i => rcloseOp s i
  | .selectO m => rselectOp s m

/-- Run a sequence of operations on the rewrite system. -/
def rrunOps (s : RSys α) (ops : List (Op α)) : RSys α := ops.foldl rapplyOp s

/-- A fresh rewrite system. -/
def rmkSys (α : Type) (caps : List Nat) : RSys α :=
  { chans := caps.map (fun k => { bufferSize := k }) }

/-! ### Generic lemmas about the state helpers -/

theorem getElem?_setChan_self (s : Sys α) (i : Nat) (ch : Chan α)
    (hi : i < s.chans.length) : (setChan s i ch).chans[i]? = some ch := by
  unfold setChan
  simp [List.getElem?_set_self, hi]

theorem getElem?_setChan_ne (s : Sys α) (i j : Nat) (ch : Chan α)
    (hij : i ≠ j) : (setChan s i ch).chans[j]? = s.chans[j]? := by
  unfold setChan
  simp [List.getElem?_set_ne, hij]

theorem resolveP_of_not_mem (s : Sys α) (p : Nat) (ev : Event α) (h : p ∉ s.resolved) :
    resolveP s p ev = { s with resolved := p :: s.resolved, events := s.events ++ [ev] } := by
  unfold resolveP
  simp [h]

theorem resolveP_of_mem (s : Sys α) (p : Nat) (ev : Event α) (h : p ∈ s.resolved) :
    resolveP s p ev = s := by
  unfold resolveP
  simp [h]

theorem not_mem_resolveP_resolved (s : Sys α) (p q : Nat) (ev : Event α)
    (hq : q ∉ s.resolved) (hne : q ≠ p) : q ∉ (resolveP s p ev).resolved := by
  unfold resolveP
  split
  · exact hq
  · simp only [List.mem_cons]
    push_neg
    exact ⟨hne, hq⟩

theorem getElem?_lt_length {l : List β} {i : Nat} {x : β} (h : l[i]? = some x) :
    i < l.length := by
  by_contra hc
  rw [List.getElem?_eq_none (Nat.le_of_not_lt hc)] at h
  exact Option.noConfusion h

theorem set_self_of_getElem? {l : List β} {i : Nat} {x : β} (h : l[i]? = some x) :
    l.set i x = l := by
  apply List.ext_getElem?
  intro n
  by_cases hn : n = i
  · subst hn
    rw [List.getElem?_set_self (getElem?_lt_length h)]
    exact h.symm
  · rw [List.getElem?_set_ne (fun he => hn he.symm)]

/-! ### The capacity-K put/read scenario states -/

/-- The envelope created by the `n`-th put of the scenario (value `f n`,
put promise `n`, sequence number `n`). -/
def bufEnv (f : Nat → Nat) (n : Nat) : Env Nat := { msg := f n, putCb := some n, ts := n }

/-- State of a single capacity-`K` channel after the first `j` puts of
the scenario: all envelopes are queued, the first `min j K` puts are
absorbed (resolved `true`). -/
def bufSysPuts (f : Nat → Nat) (K j : Nat) : Sys Nat :=
  { chans := [{ bufferSize := K, closed := false,
                messages := { items := ((List.range j).map (bufEnv f)).reverse },
                readers := {} }],
    totalOrder := j, nextP := j,
    resolved := (List.range (min j K)).reverse,
    events := (List.range (min j K)).map (fun n => Event.putResolved n true) }

theorem bufSysPuts_zero (f : Nat → Nat) (K : Nat) : mkSys Nat [K] = bufSysPuts f K 0 := by
  simp [mkSys, bufSysPuts]

theorem putOp_bufSysPuts (f : Nat → Nat) (K j : Nat) (hj : j ≤ K) (hK : K < MAX_SAFE_INTEGER) :
    putOp (bufSysPuts f K j) 0 (f j) = bufSysPuts f K (j + 1) := by
  have hsize : ((List.range j).map (bufEnv f)).reverse.length = j := by simp
  have hmin : min j K = j := Nat.min_eq_left hj
  have hjK : j < MAX_SAFE_INTEGER := Nat.lt_of_le_of_lt hj hK
  simp only [putOp, bufSysPuts, List.getElem?_cons_zero, Queue.peek, Queue.push, Queue.size,
    List.getLast?_nil, List.getLast?_reverse, List.map_nil, List.head?_nil, Bool.false_eq_true,
    if_false, hsize]
  rw [if_neg (by omega)]
  simp only [Queue.size, List.length_cons, hsize]
  by_cases hlt : j + 1 ≤ K
  · rw [if_pos (by simpa using hlt)]
    rw [resolveP_of_not_mem _ _ _ (by simp [setChan, hmin])]
    simp only [setChan, bufSysPuts]
    congr 1
    · simp [bufEnv, List.range_succ, Nat.min_eq_left hlt]
    · rw [hmin, Nat.min_eq_left hlt, List.range_succ]
      simp
    · rw [hmin, Nat.min_eq_left hlt, List.range_succ]
      simp
  · rw [if_neg (by simpa using hlt)]
    have hje : j = K := Nat.le_antisymm hj (by omega)
    simp only [setChan, bufSysPuts]
    congr 1
    · simp [bufEnv, List.range_succ]
    · rw [hmin, hje, Nat.min_eq_right (Nat.le_succ K)]
    · rw [hmin, hje, Nat.min_eq_right (Nat.le_succ K)]

theorem runOps_append (s : Sys α) (a b : List (Op α)) :
    runOps s (a ++ b) = runOps (runOps s a) b := by
  unfold runOps
  exact List.foldl_append applyOp s a b

theorem runOps_puts (f : Nat → Nat) (K j : Nat) (hj : j ≤ K + 1) (hK : K < MAX_SAFE_INTEGER) :
    runOps (mkSys Nat [K]) ((List.range j).map (fun n => Op.putO 0 (f n))) =
      bufSysPuts f K j := by
  induction j with
  | zero => exact bufSysPuts_zero f K
  | succ n ih =>
      rw [List.range_succ, List.map_append, runOps_append, ih (Nat.le_of_succ_le hj)]
      have hn : n ≤ K := Nat.lt_succ_iff.mp hj
      exact putOp_bufSysPuts f K n hn hK

/-- The scenario message queue holding envelopes `r, …, r + cnt - 1`. -/
def bufQueue (f : Nat → Nat) (r cnt : Nat) : Queue (Env Nat) :=
  { items := ((List.range' r cnt).map (bufEnv f)).reverse }

theorem bufQueue_peek (f : Nat → Nat) (r cnt : Nat) :
    (bufQueue f r (cnt + 1)).peek = some (bufEnv f r) := by
  simp [bufQueue, Queue.peek, List.range'_succ]

theorem bufQueue_dropOldest (f : Nat → Nat) (r cnt : Nat) :
    (bufQueue f r (cnt + 1)).dropOldest = bufQueue f (r + 1) cnt := by
  simp [bufQueue, Queue.dropOldest, List.dropLast_reverse, List.range'_succ]

/-- State of the scenario channel after the `K + 1` puts and then `r`
reads (`r ≤ K`): the oldest `r` envelopes are gone, their already-settled
promises untouched. -/
def bufSysReads (f : Nat → Nat) (K r : Nat) : Sys Nat :=
  { chans := [{ bufferSize := K, closed := false,
                messages := bufQueue f r (K + 1 - r),
                readers := {} }],
    totalOrder := K + 1, nextP := K + 1,
    resolved := (List.range K).reverse,
    events := (List.range K).map (fun n => Event.putResolved n true) }

theorem bufSysReads_zero (f : Nat → Nat) (K : Nat) :
    bufSysPuts f K (K + 1) = bufSysReads f K 0 := by
  simp [bufSysPuts, bufSysReads, bufQueue, List.range_eq_range',
    Nat.min_eq_right (Nat.le_succ K)]

theorem readOp_bufSysReads (f : Nat → Nat) (K r : Nat) (hr : r < K) :
    (readOp (bufSysReads f K r) 0).1 = bufSysReads f K (r + 1) := by
  have hcnt : K + 1 - r = (K - r) + 1 := by omega
  have hpeek : (bufQueue f r (K + 1 - r)).peek = some (bufEnv f r) := by
    rw [hcnt]; exact bufQueue_peek f r (K - r)
  simp only [readOp, bufSysReads, List.getElem?_cons_zero, Bool.false_eq_true, if_false, hpeek]
  simp only [bufEnv, resolvePutCb]
  rw [resolveP_of_mem _ _ _ (by simp [setChan]; omega)]
  simp only [setChan, bufSysReads]
  rw [hcnt, bufQueue_dropOldest]
  have h2 : K + 1 - (r + 1) = K - r := by omega
  rw [h2]
  simp

theorem runOps_reads (f : Nat → Nat) (K r : Nat) (hr : r ≤ K) :
    runOps (bufSysReads f K 0) (List.replicate r (Op.readO 0)) = bufSysReads f K r := by
  induction r with
  | zero => rfl
  | succ n ih =>
      rw [List.replicate_succ', runOps_append, ih (Nat.le_of_succ_le hr)]
      show (readOp (bufSysReads f K n) 0).1 = bufSysReads f K (n + 1)
      exact readOp_bufSysReads f K n (Nat.lt_of_succ_le hr)

theorem readOp_bufSysReads_last (f : Nat → Nat) (K : Nat) :
    (readOp (bufSysReads f K K) 0).1.events =
      (List.range K).map (fun n => Event.putResolved n true) ++ [Event.putResolved K true] := by
  have hcnt : K + 1 - K = 0 + 1 := by omega
  have hpeek : (bufQueue f K (K + 1 - K)).peek = some (bufEnv f K) := by
    rw [hcnt]; exact bufQueue_peek f K 0
  simp only [readOp, bufSysReads, List.getElem?_cons_zero, Bool.false_eq_true, if_false, hpeek]
  simp only [bufEnv, resolvePutCb]
  rw [resolveP_of_not_mem _ _ _ (by simp [setChan])]
  simp [setChan]

/-- State of the scenario channel right after `close`, before the message
drain has started at position `r`. -/
def bufSysClosed (f : Nat → Nat) (K r : Nat) : Sys Nat :=
  { chans := [{ bufferSize := K, closed := true,
                messages := bufQueue f r (K + 1 - r),
                readers := {} }],
    totalOrder := K + 1, nextP := K + 1,
    resolved := (List.range K).reverse,
    events := (List.range K).map (fun n => Event.putResolved n true) }

theorem drainReaders_of_empty (s : Sys α) (i : Nat) (ch : Chan α)
    (hch : s.chans[i]? = some ch) (h : ch.readers.peek = none) :
    drainReaders s i = s := by
  unfold drainReaders
  split
  · rfl
  next ch2 hch2 =>
    rw [hch2] at hch
    injection hch with hcheq
    subst hcheq
    split
    · rfl
    next r hr =>
      rw [h] at hr
      exact Option.noConfusion hr

theorem drainReaders_step (s : Sys α) (i : Nat) (ch : Chan α) (r : Reader)
    (hch : s.chans[i]? = some ch) (h : ch.readers.peek = some r) :
    drainReaders s i =
      drainReaders (invokeReader (setChan s i { ch with readers := ch.readers.dropOldest }) r none)
        i := by
  conv_lhs => rw [drainReaders]
  split
  next hch2 =>
    rw [hch2] at hch
    exact Option.noConfusion hch
  next ch2 hch2 =>
    rw [hch2] at hch
    injection hch with hcheq
    subst hcheq
    split
    next hr =>
      rw [h] at hr
      exact Option.noConfusion hr
    next r2 hr =>
      rw [h] at hr
      injection hr with hreq
      subst hreq
      rfl

theorem drainMessages_of_empty (s : Sys α) (i : Nat) (ch : Chan α)
    (hch : s.chans[i]? = some ch) (h : ch.messages.peek = none) :
    drainMessages s i = s := by
  unfold drainMessages
  split
  · rfl
  next ch2 hch2 =>
    rw [hch2] at hch
    injection hch with hcheq
    subst hcheq
    split
    · rfl
    next env henv =>
      rw [h] at henv
      exact Option.noConfusion henv

theorem drainMessages_step (s : Sys α) (i : Nat) (ch : Chan α) (env : Env α)
    (hch : s.chans[i]? = some ch) (h : ch.messages.peek = some env) :
    drainMessages s i =
      drainMessages
        (resolvePutCb (setChan s i { ch with messages := ch.messages.dropOldest }) env.putCb false)
        i := by
  conv_lhs => rw [drainMessages]
  split
  next hch2 =>
    rw [hch2] at hch
    exact Option.noConfusion hch
  next ch2 hch2 =>
    rw [hch2] at hch
    injection hch with hcheq
    subst hcheq
    split
    next henv =>
      rw [h] at henv
      exact Option.noConfusion henv
    next env2 henv =>
      rw [h] at henv
      injection henv with henveq
      subst henveq
      rfl

theorem drainMessages_bufSysClosed (f : Nat → Nat) (K : Nat) :
    ∀ d r, r + d = K →
    (drainMessages (bufSysClosed f K r) 0).events =
      (List.range K).map (fun n => Event.putResolved n true) ++ [Event.putResolved K false] := by
  intro d
  induction d with
  | zero =>
      intro r hr
      have hrK : r = K := by omega
      subst hrK
      have hcnt : r + 1 - r = 0 + 1 := by omega
      have hpeek : (bufQueue f r (r + 1 - r)).peek = some (bufEnv f r) := by
        rw [hcnt]; exact bufQueue_peek f r 0
      rw [drainMessages_step (bufSysClosed f r r) 0
        { bufferSize := r, closed := true, messages := bufQueue f r (r + 1 - r), readers := {} }
        (bufEnv f r) rfl hpeek]
      simp only [bufEnv, resolvePutCb]
      rw [resolveP_of_not_mem _ _ _ (by simp [setChan, bufSysClosed])]
      rw [drainMessages_of_empty _ 0
        { bufferSize := r, closed := true,
          messages := (bufQueue f r (r + 1 - r)).dropOldest,
          readers := {} }
        (by simp [setChan, bufSysClosed])
        (by rw [hcnt, bufQueue_dropOldest]; simp [bufQueue, Queue.peek])]
      simp [setChan, bufSysClosed]
  | succ n ih =>
      intro r hr
      have hrK : r < K := by omega
      have hcnt : K + 1 - r = (K - r) + 1 := by omega
      have hpeek : (bufQueue f r (K + 1 - r)).peek = some (bufEnv f r) := by
        rw [hcnt]; exact bufQueue_peek f r (K - r)
      rw [drainMessages_step (bufSysClosed f K r) 0
        { bufferSize := K, closed := true, messages := bufQueue f r (K + 1 - r), readers := {} }
        (bufEnv f r) rfl hpeek]
      simp only [bufEnv, resolvePutCb]
      rw [resolveP_of_mem _ _ _ (by simp [setChan, bufSysClosed]; omega)]
      have hstate : setChan (bufSysClosed f K r) 0
          { bufferSize := K, closed := true,
            messages := (bufQueue f r (K + 1 - r)).dropOldest,
            readers := {} } = bufSysClosed f K (r + 1) := by
        simp only [setChan, bufSysClosed, List.set_cons_zero]
        congr 3
        rw [hcnt, bufQueue_dropOldest]
        have h2 : K + 1 - (r + 1) = K - r := by omega
        rw [h2]
      rw [hstate]
      exact ih (r + 1) (by omega)

/-- The promise a reader callback settles. -/
def Reader.pid : Reader → Nat
  | .takeR p _ => p
  | .selectR p _ _ _ => p

theorem drainReaders_takeR :
    ∀ (L : List Reader) (s : Sys α) (i : Nat) (ch : Chan α),
    s.chans[i]? = some ch → ch.readers.items = L →
    (∀ r, r ∈ L → ∃ pt rt, r = Reader.takeR pt rt) →
    ((L.map Reader.pid).Nodup) →
    (∀ p, p ∈ L.map Reader.pid → p ∉ s.resolved) →
    drainReaders s i =
      { chans := s.chans.set i
          { bufferSize := ch.bufferSize, closed := ch.closed,
            messages := ch.messages, readers := { items := [], maxSize := ch.readers.maxSize } },
        totalOrder := s.totalOrder, nextP := s.nextP, nextReg := s.nextReg, nextSel := s.nextSel,
        resolved := L.map Reader.pid ++ s.resolved,
        events := s.events ++
          L.reverse.map (fun r => Event.takeResolved (Reader.pid r) none) } := by
  intro L
  induction L using List.reverseRecOn with
  | nil =>
      intro s i ch hch hitems _ _ _
      rw [drainReaders_of_empty s i ch hch (by simp [Queue.peek, hitems])]
      have hcheq :
          ({ bufferSize := ch.bufferSize, closed := ch.closed, messages := ch.messages,
             readers := { items := [], maxSize := ch.readers.maxSize } } : Chan α) = ch := by
        cases ch with
        | mk b c m r =>
            cases r with
            | mk ri rm =>
                simp only at hitems
                simp [hitems]
      rw [hcheq, set_self_of_getElem? hch]
      simp
  | append_singleton l r ih =>
      intro s i ch hch hitems htake hnodup hunres
      have hi : i < s.chans.length := getElem?_lt_length hch
      obtain ⟨pt, rt, hr⟩ := htake r (by simp)
      subst hr
      have hpeek : ch.readers.peek = some (Reader.takeR pt rt) := by
        simp [Queue.peek, hitems]
      have hptl : pt ∉ l.map Reader.pid ∧ (l.map Reader.pid).Nodup := by
        have hnd : ((l.map Reader.pid) ++ [pt]).Nodup := by simpa [Reader.pid] using hnodup
        rcases List.nodup_append.mp hnd with ⟨h1, _, hdisj⟩
        exact ⟨fun hmem => hdisj hmem (by simp), h1⟩
      have h1 : drainReaders s i = drainReaders
          { chans := s.chans.set i
              { bufferSize := ch.bufferSize, closed := ch.closed, messages := ch.messages,
                readers := { items := l, maxSize := ch.readers.maxSize } },
            totalOrder := s.totalOrder, nextP := s.nextP, nextReg := s.nextReg,
            nextSel := s.nextSel,
            resolved := pt :: s.resolved,
            events := s.events ++ [Event.takeResolved pt none] } i := by
        rw [drainReaders_step s i ch (Reader.takeR pt rt) hch hpeek]
        simp only [invokeReader]
        rw [resolveP_of_not_mem _ _ _
          (by simp only [setChan]; exact hunres pt (by simp [Reader.pid]))]
        congr 1
        simp [setChan, Queue.dropOldest, hitems, List.dropLast_concat]
      rw [h1]
      rw [ih _ i
        { bufferSize := ch.bufferSize, closed := ch.closed, messages := ch.messages,
          readers := { items := l, maxSize := ch.readers.maxSize } }
        (by simpa using List.getElem?_set_self (by simpa using hi)) rfl
        (fun r2 hr2 => htake r2 (by simp [hr2]))
        hptl.2
        (by
          intro p hp
          simp only [List.mem_cons]
          push_neg
          refine ⟨?_, hunres p (by simp [hp])⟩
          intro he
          exact absurd hp (by rw [he]; exact hptl.1))]
      simp only [List.set_set]
      congr 1
      · simp [Reader.pid]
      · simp [Reader.pid]

theorem drainMessages_run :
    ∀ (L : List (Env α)) (s : Sys α) (i : Nat) (ch : Chan α),
    s.chans[i]? = some ch → ch.messages.items = L →
    ((L.filterMap Env.putCb).Nodup) →
    (∀ p, p ∈ L.filterMap Env.putCb → p ∉ s.resolved) →
    drainMessages s i =
      { chans := s.chans.set i
          { bufferSize := ch.bufferSize, closed := ch.closed,
            messages := { items := [], maxSize := ch.messages.maxSize }, readers := ch.readers },
        totalOrder := s.totalOrder, nextP := s.nextP, nextReg := s.nextReg, nextSel := s.nextSel,
        resolved := L.filterMap Env.putCb ++ s.resolved,
        events := s.events ++
          L.reverse.filterMap (fun e => (Env.putCb e).map
            (fun p => Event.putResolved p false)) } := by
  intro L
  induction L using List.reverseRecOn with
  | nil =>
      intro s i ch hch hitems _ _
      rw [drainMessages_of_empty s i ch hch (by simp [Queue.peek, hitems])]
      have hcheq :
          ({ bufferSize := ch.bufferSize, closed := ch.closed,
             messages := { items := [], maxSize := ch.messages.maxSize },
             readers := ch.readers } : Chan α) = ch := by
        cases ch with
        | mk b c m r =>
            cases m with
            | mk mi mm =>
                simp only at hitems
                simp [hitems]
      rw [hcheq, set_self_of_getElem? hch]
      simp
  | append_singleton l env ih =>
      intro s i ch hch hitems hnodup hunres
      have hi : i < s.chans.length := getElem?_lt_length hch
      have hpeek : ch.messages.peek = some env := by
        simp [Queue.peek, hitems]
      cases hcb : env.putCb with
      | none =>
          have h1 : drainMessages s i = drainMessages
              { chans := s.chans.set i
                  { bufferSize := ch.bufferSize, closed := ch.closed,
                    messages := { items := l, maxSize := ch.messages.maxSize },
                    readers := ch.readers },
                totalOrder := s.totalOrder, nextP := s.nextP, nextReg := s.nextReg,
                nextSel := s.nextSel, resolved := s.resolved, events := s.events } i := by
            rw [drainMessages_step s i ch env hch hpeek]
            simp only [hcb, resolvePutCb]
            congr 1
            simp [setChan, Queue.dropOldest, hitems, List.dropLast_concat]
          rw [h1]
          rw [ih _ i
            { bufferSize := ch.bufferSize, closed := ch.closed,
              messages := { items := l, maxSize := ch.messages.maxSize },
              readers := ch.readers }
            (by simpa using List.getElem?_set_self (by simpa using hi)) rfl
            (by simpa [List.filterMap_append, hcb] using hnodup)
            (by
              intro p hp
              exact hunres p (by simp [List.filterMap_append, hp]))]
          simp only [List.set_set]
          congr 1
          · simp [List.filterMap_append, hcb]
          · simp [List.filterMap_append, hcb]
      | some pc =>
          have hpcl : pc ∉ l.filterMap Env.putCb ∧ (l.filterMap Env.putCb).Nodup := by
            have hnd : ((l.filterMap Env.putCb) ++ [pc]).Nodup := by
              simpa [List.filterMap_append, hcb] using hnodup
            rcases List.nodup_append.mp hnd with ⟨h1, _, hdisj⟩
            exact ⟨fun hmem => hdisj hmem (by simp), h1⟩
          have h1 : drainMessages s i = drainMessages
              { chans := s.chans.set i
                  { bufferSize := ch.bufferSize, closed := ch.closed,
                    messages := { items := l, maxSize := ch.messages.maxSize },
                    readers := ch.readers },
                totalOrder := s.totalOrder, nextP := s.nextP, nextReg := s.nextReg,
                nextSel := s.nextSel, resolved := pc :: s.resolved,
                events := s.events ++ [Event.putResolved pc false] } i := by
            rw [drainMessages_step s i ch env hch hpeek]
            simp only [hcb, resolvePutCb]
            rw [resolveP_of_not_mem _ _ _
              (by
                simp only [setChan]
                exact hunres pc (by simp [List.filterMap_append, hcb]))]
            congr 1
            simp [setChan, Queue.dropOldest, hitems, List.dropLast_concat]
          rw [h1]
          rw [ih _ i
            { bufferSize := ch.bufferSize, closed := ch.closed,
              messages := { items := l, maxSize := ch.messages.maxSize },
              readers := ch.readers }
            (by simpa using List.getElem?_set_self (by simpa using hi)) rfl
            hpcl.2
            (by
              intro p hp
              simp only [List.mem_cons]
              push_neg
              refine ⟨?_, hunres p (by simp [List.filterMap_append, hp])⟩
              intro he
              exact absurd hp (by rw [he]; exact hpcl.1))]
          simp only [List.set_set]
          congr 1
          · simp [List.filterMap_append, hcb]
          · simp [List.filterMap_append, hcb]

theorem withdrawOthers_getElem (s : Sys α) (selId rid i : Nat) (ch : Chan α)
    (hch : s.chans[i]? = some ch) :
    (withdrawOthers s selId rid).chans[i]? =
      some { ch with readers := { ch.readers with
        items := ch.readers.items.filter
          (fun r => ¬ (r.selId? = some selId ∧ r.rid ≠ rid)) } } := by
  unfold withdrawOthers
  simp [List.getElem?_map, hch]

theorem drainReaders_of_none (s : Sys α) (i : Nat) (hch : s.chans[i]? = none) :
    drainReaders s i = s := by
  unfold drainReaders
  split
  · rfl
  next ch2 hch2 =>
    rw [hch2] at hch
    exact Option.noConfusion hch

theorem drainMessages_of_none (s : Sys α) (i : Nat) (hch : s.chans[i]? = none) :
    drainMessages s i = s := by
  unfold drainMessages
  split
  · rfl
  next ch2 hch2 =>
    rw [hch2] at hch
    exact Option.noConfusion hch

theorem drainReaders_measure (s : Sys α) (j : Nat) (ch : Chan α) (r : Reader)
    (hch : s.chans[j]? = some ch) (hpk : ch.readers.peek = some r) :
    chanReadersN
      (invokeReader (setChan s j { ch with readers := ch.readers.dropOldest }) r none) j <
      chanReadersN s j := by
  calc chanReadersN
        (invokeReader (setChan s j { ch with readers := ch.readers.dropOldest }) r none) j
      ≤ chanReadersN (setChan s j { ch with readers := ch.readers.dropOldest }) j :=
        chanReadersN_invokeReader _ r none j
    _ = ch.readers.dropOldest.size := chanReadersN_setChan s j ch _ hch
    _ < ch.readers.size := dropOldest_size_lt ch.readers r hpk
    _ = chanReadersN s j := by unfold chanReadersN; rw [hch]

theorem drainReaders_preserve (Q : Sys α → Prop) (j : Nat)
    (hstep : ∀ s ch r, s.chans[j]? = some ch → ch.readers.peek = some r → Q s →
      Q (invokeReader (setChan s j { ch with readers := ch.readers.dropOldest }) r none)) :
    ∀ s, Q s → Q (drainReaders s j) := by
  suffices h : ∀ n (s : Sys α), chanReadersN s j ≤ n → Q s → Q (drainReaders s j) by
    intro s hs
    exact h (chanReadersN s j) s (Nat.le_refl _) hs
  intro n
  induction n with
  | zero =>
      intro s hle hQ
      cases hch : s.chans[j]? with
      | none => rw [drainReaders_of_none s j hch]; exact hQ
      | some ch =>
          cases hpk : ch.readers.peek with
          | none => rw [drainReaders_of_empty s j ch hch hpk]; exact hQ
          | some r =>
              exfalso
              have := drainReaders_measure s j ch r hch hpk
              omega
  | succ n ih =>
      intro s hle hQ
      cases hch : s.chans[j]? with
      | none => rw [drainReaders_of_none s j hch]; exact hQ
      | some ch =>
          cases hpk : ch.readers.peek with
          | none => rw [drainReaders_of_empty s j ch hch hpk]; exact hQ
          | some r =>
              rw [drainReaders_step s j ch r hch hpk]
              apply ih
              · have := drainReaders_measure s j ch r hch hpk
                omega
              · exact hstep s ch r hch hpk hQ

theorem drainMessages_measure (s : Sys α) (j : Nat) (ch : Chan α) (env : Env α)
    (hch : s.chans[j]? = some ch) (hpk : ch.messages.peek = some env) :
    chanMessagesN
      (resolvePutCb (setChan s j { ch with messages := ch.messages.dropOldest })
        env.putCb false) j <
      chanMessagesN s j := by
  have e1 : chanMessagesN
      (resolvePutCb (setChan s j { ch with messages := ch.messages.dropOldest })
        env.putCb false) j =
      chanMessagesN (setChan s j { ch with messages := ch.messages.dropOldest }) j := by
    unfold chanMessagesN
    rw [resolvePutCb_chans]
  rw [e1, chanMessagesN_setChan s j ch _ hch]
  have hlt : (Queue.dropOldest ch.messages).size < ch.messages.size :=
    dropOldest_size_lt ch.messages env hpk
  unfold chanMessagesN
  rw [hch]
  exact hlt

theorem drainMessages_preserve (Q : Sys α → Prop) (j : Nat)
    (hstep : ∀ s ch env, s.chans[j]? = some ch → ch.messages.peek = some env → Q s →
      Q (resolvePutCb (setChan s j { ch with messages := ch.messages.dropOldest })
        env.putCb false)) :
    ∀ s, Q s → Q (drainMessages s j) := by
  suffices h : ∀ n (s : Sys α), chanMessagesN s j ≤ n → Q s → Q (drainMessages s j) by
    intro s hs
    exact h (chanMessagesN s j) s (Nat.le_refl _) hs
  intro n
  induction n with
  | zero =>
      intro s hle hQ
      cases hch : s.chans[j]? with
      | none => rw [drainMessages_of_none s j hch]; exact hQ
      | some ch =>
          cases hpk : ch.messages.peek with
          | none => rw [drainMessages_of_empty s j ch hch hpk]; exact hQ
          | some env =>
              exfalso
              have := drainMessages_measure s j ch env hch hpk
              omega
  | succ n ih =>
      intro s hle hQ
      cases hch : s.chans[j]? with
      | none => rw [drainMessages_of_none s j hch]; exact hQ
      | some ch =>
          cases hpk : ch.messages.peek with
          | none => rw [drainMessages_of_empty s j ch hch hpk]; exact hQ
          | some env =>
              rw [drainMessages_step s j ch env hch hpk]
              apply ih
              · have := drainMessages_measure s j ch env hch hpk
                omega
              · exact hstep s ch env hch hpk hQ

theorem selectScan_done_open (s : Sys α) :
    ∀ (m : List (Nat × Nat)) ot acc had o had2,
    selectScan s m ot acc had = .done o had2 →
    ∀ k ci ch, (k, ci) ∈ m → s.chans[ci]? = some ch → ch.closed = false := by
  intro m
  induction m with
  | nil =>
      intro ot acc had o had2 h k ci ch hmem
      simp at hmem
  | cons e rest ih =>
      obtain ⟨k0, c0⟩ := e
      intro ot acc had o had2 h k ci ch hmem hch
      rw [selectScan] at h
      cases hc : s.chans[c0]? with
      | none =>
          simp only [hc] at h
          rcases List.mem_cons.mp hmem with he | hm
          · exfalso
            obtain ⟨he1, he2⟩ : k = k0 ∧ ci = c0 := by
              simpa [Prod.ext_iff] using he
            subst he2
            rw [hch] at hc
            exact Option.noConfusion hc
          · exact ih _ _ _ _ _ h k ci ch hm hch
      | some ch0 =>
          simp only [hc] at h
          by_cases hcl : ch0.closed
          · rw [if_pos hcl] at h
            exact absurd h (by simp)
          · rw [if_neg hcl] at h
            have hrec : ∀ ot2 acc2 had3,
                selectScan s rest ot2 acc2 had3 = .done o had2 →
                ch.closed = false := by
              intro ot2 acc2 had3 hr
              rcases List.mem_cons.mp hmem with he | hm
              · obtain ⟨he1, he2⟩ : k = k0 ∧ ci = c0 := by
                  simpa [Prod.ext_iff] using he
                subst he2
                rw [hch] at hc
                injection hc with hceq
                rw [hceq]
                simpa using hcl
              · exact ih _ _ _ _ _ hr k ci ch hm hch
            cases hpk : ch0.messages.peek with
            | none =>
                simp only [hpk] at h
                exact hrec _ _ _ h
            | some env =>
                cases ot with
                | none =>
                    simp only [hpk] at h
                    exact hrec _ _ _ h
                | some t =>
                    simp only [hpk] at h
                    by_cases hlt : env.ts < t
                    · rw [if_pos hlt] at h
                      exact hrec _ _ _ h
                    · rw [if_neg hlt] at h
                      exact hrec _ _ _ h

theorem selectScan_done_some_mem (s : Sys α) :
    ∀ (m : List (Nat × Nat)) ot acc had w had2,
    selectScan s m ot acc had = .done (some w) had2 →
    w ∈ m ∨ acc = some w := by
  intro m
  induction m with
  | nil =>
      intro ot acc had w had2 h
      rw [selectScan] at h
      injection h with h1 h2
      right
      rw [h1]
  | cons e rest ih =>
      obtain ⟨k0, c0⟩ := e
      intro ot acc had w had2 h
      rw [selectScan] at h
      cases hc : s.chans[c0]? with
      | none =>
          simp only [hc] at h
          rcases ih _ _ _ _ _ h with hm | ha
          · exact Or.inl (List.mem_cons_of_mem _ hm)
          · exact Or.inr ha
      | some ch0 =>
          simp only [hc] at h
          by_cases hcl : ch0.closed
          · rw [if_pos hcl] at h
            exact absurd h (by simp)
          · rw [if_neg hcl] at h
            cases hpk : ch0.messages.peek with
            | none =>
                simp only [hpk] at h
                rcases ih _ _ _ _ _ h with hm | ha
                · exact Or.inl (List.mem_cons_of_mem _ hm)
                · exact Or.inr ha
            | some env =>
                cases ot with
                | none =>
                    simp only [hpk] at h
                    rcases ih _ _ _ _ _ h with hm | ha
                    · exact Or.inl (List.mem_cons_of_mem _ hm)
                    · left
                      injection ha with ha2
                      rw [← ha2]
                      exact List.mem_cons_self _ _
                | some t =>
                    simp only [hpk] at h
                    by_cases hlt : env.ts < t
                    · rw [if_pos hlt] at h
                      rcases ih _ _ _ _ _ h with hm | ha
                      · exact Or.inl (List.mem_cons_of_mem _ hm)
                      · left
                        injection ha with ha2
                        rw [← ha2]
                        exact List.mem_cons_self _ _
                    · rw [if_neg hlt] at h
                      rcases ih _ _ _ _ _ h with hm | ha
                      · exact Or.inl (List.mem_cons_of_mem _ hm)
                      · exact Or.inr ha

/-- Channel `i` is closed with an empty reader queue — the state every
channel is left in by `close`. -/
def ClosedEmpty (s : Sys α) (i : Nat) : Prop :=
  ∃ ch, s.chans[i]? = some ch ∧ ch.closed = true ∧ ch.readers.items = []

theorem ClosedEmpty_resolveP (s : Sys α) (p : Nat) (ev : Event α) (i : Nat)
    (h : ClosedEmpty s i) : ClosedEmpty (resolveP s p ev) i := by
  obtain ⟨ch, hch, h1, h2⟩ := h
  exact ⟨ch, by rw [resolveP_chans]; exact hch, h1, h2⟩

theorem ClosedEmpty_resolvePutCb (s : Sys α) (cb : Option Nat) (ok : Bool) (i : Nat)
    (h : ClosedEmpty s i) : ClosedEmpty (resolvePutCb s cb ok) i := by
  obtain ⟨ch, hch, h1, h2⟩ := h
  exact ⟨ch, by rw [resolvePutCb_chans]; exact hch, h1, h2⟩

theorem ClosedEmpty_setChan_ne (s : Sys α) (j i : Nat) (ch2 : Chan α) (hne : j ≠ i)
    (h : ClosedEmpty s i) : ClosedEmpty (setChan s j ch2) i := by
  obtain ⟨ch, hch, h1, h2⟩ := h
  exact ⟨ch, by rw [getElem?_setChan_ne s j i ch2 hne]; exact hch, h1, h2⟩

theorem ClosedEmpty_withdrawOthers (s : Sys α) (selId rid i : Nat)
    (h : ClosedEmpty s i) : ClosedEmpty (withdrawOthers s selId rid) i := by
  obtain ⟨ch, hch, h1, h2⟩ := h
  refine ⟨_, withdrawOthers_getElem s selId rid i ch hch, h1, ?_⟩
  simp [h2]

theorem ClosedEmpty_invokeReader (s : Sys α) (r : Reader) (v : Option α) (i : Nat)
    (h : ClosedEmpty s i) : ClosedEmpty (invokeReader s r v) i := by
  cases r with
  | takeR p rid => exact ClosedEmpty_resolveP _ _ _ _ h
  | selectR p key selId rid =>
      exact ClosedEmpty_resolveP _ _ _ _ (ClosedEmpty_withdrawOthers _ _ _ _ h)

theorem ClosedEmpty_events (s : Sys α) (evs : List (Event α)) (i : Nat)
    (h : ClosedEmpty s i) : ClosedEmpty { s with events := evs } i := h

theorem selectRegister_preserve (i : Nat) :
    ∀ (m : List (Nat × Nat)) (s : Sys α) (p selId : Nat),
    (∀ k ci ch, (k, ci) ∈ m → s.chans[ci]? = some ch → ch.closed = false) →
    ClosedEmpty s i → ClosedEmpty (selectRegister s p selId m) i := by
  intro m
  induction m with
  | nil =>
      intro s p selId hop h
      exact h
  | cons e rest ih =>
      obtain ⟨k0, c0⟩ := e
      intro s p selId hop h
      rw [selectRegister]
      cases hc : s.chans[c0]? with
      | none =>
          simp only
          exact ih s p selId (fun k ci ch hm hch => hop k ci ch (List.mem_cons_of_mem _ hm) hch) h
      | some ch0 =>
          simp only
          have hopen0 : ch0.closed = false := hop k0 c0 ch0 (List.mem_cons_self _ _) hc
          have hne : c0 ≠ i := by
            intro he
            obtain ⟨ch, hch, h1, _⟩ := h
            rw [he, hch] at hc
            injection hc with hceq
            rw [hceq, hopen0] at h1
            exact Bool.noConfusion h1
          cases hpush : ch0.readers.push (Reader.selectR p k0 selId s.nextReg) with
          | none => exact ClosedEmpty_resolveP _ _ _ _ h
          | some rq =>
              apply ih
              · intro k ci ch hm hch
                by_cases hci : ci = c0
                · subst hci
                  rw [getElem?_setChan_self _ _ _
                    (by simpa using getElem?_lt_length hc)] at hch
                  injection hch with hcheq
                  rw [← hcheq]
                  exact hopen0
                · rw [getElem?_setChan_ne _ _ _ _ (fun he => hci he.symm)] at hch
                  exact hop k ci ch (List.mem_cons_of_mem _ hm) hch
              · exact ClosedEmpty_setChan_ne _ c0 i _ hne h

/-- Every operation preserves "closed with an empty reader queue":
once a channel is closed it stays closed and no reader is ever added. -/
theorem ClosedEmpty_applyOp (s : Sys α) (i : Nat) (op : Op α)
    (h : ClosedEmpty s i) : ClosedEmpty (applyOp s op) i := by
  cases op with
  | putO j v =>
      simp only [applyOp, putOp]
      cases hcj : s.chans[j]? with
      | none => exact h
      | some chj =>
          simp only
          by_cases hcl : chj.closed
          · rw [if_pos hcl]
            exact h
          · rw [if_neg hcl]
            have hne : j ≠ i := by
              intro he
              obtain ⟨ch, hch, h1, _⟩ := h
              rw [he, hch] at hcj
              injection hcj with hceq
              rw [hceq] at h1
              rw [h1] at hcl
              exact hcl rfl
            cases hpk : chj.readers.peek with
            | some r =>
                exact ClosedEmpty_resolveP _ _ _ _
                  (ClosedEmpty_invokeReader _ _ _ _ (ClosedEmpty_setChan_ne _ j i _ hne h))
            | none =>
                cases hpush : chj.messages.push
                    { msg := v, putCb := some s.nextP, ts := s.totalOrder } with
                | none => exact ClosedEmpty_resolveP _ _ _ _ h
                | some mq =>
                    by_cases habs : mq.size ≤ chj.bufferSize
                    · simp only [habs, if_true]
                      exact ClosedEmpty_resolveP _ _ _ _ (ClosedEmpty_setChan_ne _ j i _ hne h)
                    · simp only [habs, if_false]
                      exact ClosedEmpty_setChan_ne _ j i _ hne h
  | takeO j =>
      simp only [applyOp, takeOp]
      cases hcj : s.chans[j]? with
      | none => exact h
      | some chj =>
          simp only
          by_cases hcl : chj.closed
          · rw [if_pos hcl]
            exact ClosedEmpty_resolveP _ _ _ _ h
          · rw [if_neg hcl]
            have hne : j ≠ i := by
              intro he
              obtain ⟨ch, hch, h1, _⟩ := h
              rw [he, hch] at hcj
              injection hcj with hceq
              rw [hceq] at h1
              rw [h1] at hcl
              exact hcl rfl
            by_cases hsz : chj.messages.size ≠ 0
            · rw [if_pos hsz]
              apply ClosedEmpty_resolveP
              simp only [readOp]
              cases hcj2 : ({ s with nextP := s.nextP + 1 } : Sys α).chans[j]? with
              | none => exact h
              | some chj2 =>
                  simp only
                  by_cases hcl2 : chj2.closed
                  · rw [if_pos hcl2]
                    exact h
                  · rw [if_neg hcl2]
                    cases hpk2 : chj2.messages.peek with
                    | none => exact h
                    | some env =>
                        exact ClosedEmpty_resolvePutCb _ _ _ _
                          (ClosedEmpty_setChan_ne _ j i _ hne h)
            · rw [if_neg hsz]
              cases hpush : chj.readers.push (Reader.takeR s.nextP s.nextReg) with
              | none => exact ClosedEmpty_resolveP _ _ _ _ h
              | some rq => exact ClosedEmpty_setChan_ne _ j i _ hne h
  | readO j =>
      simp only [applyOp, readOp]
      cases hcj : s.chans[j]? with
      | none => exact h
      | some chj =>
          simp only
          by_cases hcl : chj.closed
          · rw [if_pos hcl]
            exact h
          · rw [if_neg hcl]
            have hne : j ≠ i := by
              intro he
              obtain ⟨ch, hch, h1, _⟩ := h
              rw [he, hch] at hcj
              injection hcj with hceq
              rw [hceq] at h1
              rw [h1] at hcl
              exact hcl rfl
            cases hpk : chj.messages.peek with
            | none => exact h
            | some env =>
                exact ClosedEmpty_resolvePutCb _ _ _ _ (ClosedEmpty_setChan_ne _ j i _ hne h)
  | closeO j =>
      simp only [applyOp, closeOp]
      cases hcj : s.chans[j]? with
      | none => exact h
      | some chj =>
          simp only
          by_cases hcl : chj.closed
          · rw [if_pos hcl]
            exact h
          · rw [if_neg hcl]
            have hne : j ≠ i := by
              intro he
              obtain ⟨ch, hch, h1, _⟩ := h
              rw [he, hch] at hcj
              injection hcj with hceq
              rw [hceq] at h1
              rw [h1] at hcl
              exact hcl rfl
            apply drainMessages_preserve (fun s2 => ClosedEmpty s2 i) j
            · intro s2 ch2 env hch2 hpk2 hQ
              exact ClosedEmpty_resolvePutCb _ _ _ _ (ClosedEmpty_setChan_ne _ j i _ hne hQ)
            · apply drainReaders_preserve (fun s2 => ClosedEmpty s2 i) j
              · intro s2 ch2 r hch2 hpk2 hQ
                exact ClosedEmpty_invokeReader _ _ _ _ (ClosedEmpty_setChan_ne _ j i _ hne hQ)
              · exact ClosedEmpty_setChan_ne _ j i _ hne h
  | selectO m =>
      simp only [applyOp, selectOp]
      cases hscan : selectScan s m none none false with
      | closedAt key => exact ClosedEmpty_resolveP _ _ _ _ h
      | done o had2 =>
          cases o with
          | some w =>
              obtain ⟨key, ci⟩ := w
              simp only
              cases hcw : s.chans[ci]? with
              | none => exact h
              | some chw =>
                  simp only
                  cases hpkw : chw.messages.peek with
                  | none => exact h
                  | some env =>
                      have hwmem : (key, ci) ∈ m := by
                        rcases selectScan_done_some_mem s m none none false (key, ci) had2
                            hscan with hm | ha
                        · exact hm
                        · exact Option.noConfusion ha
                      have hopen : chw.closed = false :=
                        selectScan_done_open s m none none false _ had2 hscan key ci chw
                          hwmem hcw
                      have hne : ci ≠ i := by
                        intro he
                        obtain ⟨ch, hch, h1, _⟩ := h
                        rw [he, hch] at hcw
                        injection hcw with hceq
                        rw [hceq, hopen] at h1
                        exact Bool.noConfusion h1
                      exact ClosedEmpty_resolveP _ _ _ _
                        (ClosedEmpty_resolvePutCb _ _ _ _
                          (ClosedEmpty_setChan_ne _ ci i _ hne h))
          | none =>
              simp only
              by_cases hhad : had2
              · rw [if_neg (by simp [hhad])]
                exact selectRegister_preserve i m
                  { s with nextP := s.nextP + 1, nextSel := s.nextSel + 1 } s.nextP s.nextSel
                  (fun k ci ch hm hch =>
                    selectScan_done_open s m none none false none had2 hscan k ci ch hm hch)
                  h
              · rw [if_pos (by simpa using hhad)]
                exact h

theorem closeOp_of_open (s : Sys α) (i : Nat) (ch : Chan α)
    (hch : s.chans[i]? = some ch) (hcl : ch.closed = false) :
    closeOp s i =
      drainMessages (drainReaders (setChan s i { ch with closed := true }) i) i := by
  simp only [closeOp, hch, hcl, Bool.false_eq_true, if_false]

/-- A fresh unbuffered channel, used by witnesses. -/
def wChan : Chan Nat := { bufferSize := 0 }

/-- A fresh one-channel system, used by witnesses. -/
def wSys : Sys Nat := { chans := [wChan] }

/-! ### Claims -/

/-- C1: `put` on a closed channel throws a closed-channel error
synchronously; with a waiting reader it pops the oldest reader, invokes
it synchronously with the value and resolves `true`; with no reader it
enqueues — resolving `false` immediately when the message queue is at
capacity, `true` immediately when the resulting queue size is within the
buffer size, and otherwise deferring resolution to the envelope's
completion callback.  Consequently on a capacity-`K` channel with no
readers the first `K` puts resolve `true` immediately, the `(K+1)`-th is
unresolved until consumed — resolving `true` when its envelope is
consumed by a read and `false` when the channel is closed instead. -/
theorem claim_C1 (α : Type) (s : Sys α) (i : Nat) (ch : Chan α) (v : α)
    (hch : s.chans[i]? = some ch) (hfresh : s.nextP ∉ s.resolved) :
    (ch.closed = true → putOp s i v = { s with events := s.events ++ [Event.threwClosed] }) ∧
    (ch.closed = false → ∀ pt rt, ch.readers.peek = some (Reader.takeR pt rt) →
      pt ∉ s.resolved → pt ≠ s.nextP →
      (putOp s i v).events =
        s.events ++ [Event.takeResolved pt (some v), Event.putResolved s.nextP true] ∧
      (putOp s i v).chans[i]? = some { ch with readers := ch.readers.dropOldest }) ∧
    (ch.closed = false → ch.readers.peek = none → ch.messages.size ≥ ch.messages.maxSize →
      (putOp s i v).events = s.events ++ [Event.putResolved s.nextP false] ∧
      (putOp s i v).chans = s.chans) ∧
    (ch.closed = false → ch.readers.peek = none → ch.messages.size < ch.messages.maxSize →
      ch.messages.size + 1 ≤ ch.bufferSize →
      (putOp s i v).events = s.events ++ [Event.putResolved s.nextP true] ∧
      (putOp s i v).chans[i]? = some { ch with messages := { ch.messages with
        items := { msg := v, putCb := some s.nextP, ts := s.totalOrder } :: ch.messages.items } }) ∧
    (ch.closed = false → ch.readers.peek = none → ch.messages.size < ch.messages.maxSize →
      ch.messages.size + 1 > ch.bufferSize →
      (putOp s i v).events = s.events ∧
      (putOp s i v).chans[i]? = some { ch with messages := { ch.messages with
        items := { msg := v, putCb := some s.nextP, ts := s.totalOrder } :: ch.messages.items } }) ∧
    (∀ K, K < MAX_SAFE_INTEGER →
      (runOps (mkSys Nat [K]) ((List.range (K + 1)).map (fun n => Op.putO 0 n))).events =
        (List.range K).map (fun n => Event.putResolved n true) ∧
      (runOps (runOps (mkSys Nat [K]) ((List.range (K + 1)).map (fun n => Op.putO 0 n)))
          (List.replicate (K + 1) (Op.readO 0))).events =
        (List.range K).map (fun n => Event.putResolved n true) ++ [Event.putResolved K true] ∧
      (closeOp (runOps (mkSys Nat [K]) ((List.range (K + 1)).map (fun n => Op.putO 0 n))) 0).events =
        (List.range K).map (fun n => Event.putResolved n true) ++ [Event.putResolved K false]) := by
  have hi : i < s.chans.length := getElem?_lt_length hch
  refine ⟨?_, ?_, ?_, ?_, ?_, ?_⟩
  · intro hcl
    simp only [putOp, hch, hcl, if_true]
  · intro hcl pt rt hr hpt hptne
    simp only [putOp, hch, hcl, Bool.false_eq_true, if_false, hr, invokeReader]
    rw [resolveP_of_not_mem (setChan { s with
        totalOrder := s.totalOrder + 1, nextP := s.nextP + 1 } i
        { bufferSize := ch.bufferSize, closed := false, messages := ch.messages, readers := ch.readers.dropOldest }) pt _
      (by simpa [setChan] using hpt)]
    rw [resolveP_of_not_mem _ _ _ (by
      simp only [setChan, List.mem_cons]
      push_neg
      exact ⟨fun he => absurd he.symm hptne, hfresh⟩)]
    constructor
    · simp [setChan]
    · rw [getElem?_setChan_self _ _ _ (by simpa using hi)]
  · intro hcl hr hfull
    simp only [putOp, hch, hcl, Bool.false_eq_true, if_false, hr, Queue.push, hfull, if_true]
    rw [resolveP_of_not_mem _ _ _ (by exact hfresh)]
    exact ⟨rfl, rfl⟩
  · intro hcl hr hroom habsorb
    have hng : ¬ (ch.messages.size ≥ ch.messages.maxSize) := by omega
    have ha : ({ ch.messages with
        items := { msg := v, putCb := some s.nextP, ts := s.totalOrder } ::
          ch.messages.items } : Queue (Env α)).size ≤ ch.bufferSize := by
      simp only [Queue.size, List.length_cons]
      simpa [Queue.size] using habsorb
    simp only [putOp, hch, hcl, Bool.false_eq_true, if_false, hr, Queue.push, hng, if_false,
      ha, if_true]
    rw [resolveP_of_not_mem _ _ _ (by simp only [setChan]; exact hfresh)]
    constructor
    · simp [setChan]
    · rw [getElem?_setChan_self _ _ _ (by simpa using hi)]
  · intro hcl hr hroom hdefer
    have hng : ¬ (ch.messages.size ≥ ch.messages.maxSize) := by omega
    have ha : ¬ (({ ch.messages with
        items := { msg := v, putCb := some s.nextP, ts := s.totalOrder } ::
          ch.messages.items } : Queue (Env α)).size ≤ ch.bufferSize) := by
      simp only [Queue.size, List.length_cons]
      simp only [Queue.size] at hdefer
      omega
    simp only [putOp, hch, hcl, Bool.false_eq_true, if_false, hr, Queue.push, hng, if_false,
      ha, if_true]
    constructor
    · simp [setChan]
    · rw [getElem?_setChan_self _ _ _ (by simpa using hi)]
  · intro K hK
    have hputs := runOps_puts (fun n => n) K (K + 1) (Nat.le_refl (K + 1)) hK
    refine ⟨?_, ?_, ?_⟩
    · rw [hputs]
      simp [bufSysPuts, Nat.min_eq_right (Nat.le_succ K)]
    · rw [hputs, bufSysReads_zero]
      rw [List.replicate_succ', runOps_append, runOps_reads (fun n => n) K K (Nat.le_refl K)]
      show (readOp (bufSysReads (fun n => n) K K) 0).1.events = _
      exact readOp_bufSysReads_last (fun n => n) K
    · rw [hputs]
      rw [closeOp_of_open (bufSysPuts (fun n => n) K (K + 1)) 0
        { bufferSize := K, closed := false,
          messages := { items := ((List.range (K + 1)).map (bufEnv (fun n => n))).reverse },
          readers := {} } rfl rfl]
      have hstep : setChan (bufSysPuts (fun n => n) K (K + 1)) 0
          { bufferSize := K, closed := true,
            messages := { items := ((List.range (K + 1)).map (bufEnv (fun n => n))).reverse },
            readers := {} } = bufSysClosed (fun n => n) K 0 := by
        simp [setChan, bufSysPuts, bufSysClosed, bufQueue, List.range_eq_range',
          Nat.min_eq_right (Nat.le_succ K)]
      rw [hstep]
      rw [drainReaders_of_empty (bufSysClosed (fun n => n) K 0) 0
        { bufferSize := K, closed := true, messages := bufQueue (fun n => n) 0 (K + 1 - 0),
          readers := {} }
        rfl (by simp [Queue.peek])]
      exact drainMessages_bufSysClosed (fun n => n) K K 0 (by omega)

/-- Witness for C1: a capacity-1 channel, a put onto a closed channel and
a put meeting a waiting reader, all at concrete states. -/
theorem claim_C1_witness :
    ((wChan).closed = true →
      putOp wSys 0 42 =
        { wSys with events := wSys.events ++ [Event.threwClosed] }) ∧
    ((wChan).closed = false → ∀ pt rt,
      (wChan).readers.peek = some (Reader.takeR pt rt) →
      pt ∉ wSys.resolved → pt ≠ wSys.nextP →
      (putOp wSys 0 42).events =
        wSys.events ++
          [Event.takeResolved pt (some 42), Event.putResolved wSys.nextP true] ∧
      (putOp wSys 0 42).chans[0]? =
        some { wChan with readers := (wChan).readers.dropOldest }) ∧
    ((wChan).closed = false → (wChan).readers.peek = none →
      (wChan).messages.size ≥ (wChan).messages.maxSize →
      (putOp wSys 0 42).events =
        wSys.events ++ [Event.putResolved wSys.nextP false] ∧
      (putOp wSys 0 42).chans = wSys.chans) ∧
    ((wChan).closed = false → (wChan).readers.peek = none →
      (wChan).messages.size < (wChan).messages.maxSize →
      (wChan).messages.size + 1 ≤ (wChan).bufferSize →
      (putOp wSys 0 42).events =
        wSys.events ++ [Event.putResolved wSys.nextP true] ∧
      (putOp wSys 0 42).chans[0]? =
        some { wChan with messages := { (wChan).messages with
          items := { msg := 42, putCb := some wSys.nextP, ts := wSys.totalOrder } :: (wChan).messages.items } }) ∧
    ((wChan).closed = false → (wChan).readers.peek = none →
      (wChan).messages.size < (wChan).messages.maxSize →
      (wChan).messages.size + 1 > (wChan).bufferSize →
      (putOp wSys 0 42).events = wSys.events ∧
      (putOp wSys 0 42).chans[0]? =
        some { wChan with messages := { (wChan).messages with
          items := { msg := 42, putCb := some wSys.nextP, ts := wSys.totalOrder } :: (wChan).messages.items } }) ∧
    (∀ K, K < MAX_SAFE_INTEGER →
      (runOps (mkSys Nat [K]) ((List.range (K + 1)).map (fun n => Op.putO 0 n))).events =
        (List.range K).map (fun n => Event.putResolved n true) ∧
      (runOps (runOps (mkSys Nat [K]) ((List.range (K + 1)).map (fun n => Op.putO 0 n)))
          (List.replicate (K + 1) (Op.readO 0))).events =
        (List.range K).map (fun n => Event.putResolved n true) ++ [Event.putResolved K true] ∧
      (closeOp (runOps (mkSys Nat [K]) ((List.range (K + 1)).map (fun n => Op.putO 0 n))) 0).events =
        (List.range K).map (fun n => Event.putResolved n true) ++ [Event.putResolved K false]) :=
  claim_C1 Nat wSys 0 wChan 42 rfl (by simp [wSys])

/-- The exclusion invariant of the channel core: no channel ever holds a
pending message and a pending reader at the same time. -/
def Excl (s : Sys α) : Prop :=
  ∀ (j : Nat) (ch : Chan α), s.chans[j]? = some ch →
    ch.messages.items = [] ∨ ch.readers.items = []

theorem Excl_resolveP (s : Sys α) (p : Nat) (ev : Event α) (h : Excl s) :
    Excl (resolveP s p ev) := by
  intro j ch hch
  rw [resolveP_chans] at hch
  exact h j ch hch

theorem Excl_resolvePutCb (s : Sys α) (cb : Option Nat) (ok : Bool) (h : Excl s) :
    Excl (resolvePutCb s cb ok) := by
  intro j ch hch
  rw [resolvePutCb_chans] at hch
  exact h j ch hch

theorem Excl_withdrawOthers (s : Sys α) (selId rid : Nat) (h : Excl s) :
    Excl (withdrawOthers s selId rid) := by
  intro j ch hch
  unfold withdrawOthers at hch
  rw [List.getElem?_map] at hch
  cases hc : s.chans[j]? with
  | none => rw [hc] at hch; exact Option.noConfusion hch
  | some ch0 =>
      rw [hc] at hch
      injection hch with hcheq
      rcases h j ch0 hc with hm | hr
      · left
        rw [← hcheq]
        exact hm
      · right
        rw [← hcheq]
        simp [hr]

theorem Excl_invokeReader (s : Sys α) (r : Reader) (v : Option α) (h : Excl s) :
    Excl (invokeReader s r v) := by
  cases r with
  | takeR p rid => exact Excl_resolveP _ _ _ h
  | selectR p key selId rid =>
      exact Excl_resolveP _ _ _ (Excl_withdrawOthers _ _ _ h)

theorem Excl_setChan (s : Sys α) (j : Nat) (ch2 : Chan α)
    (hch2 : ch2.messages.items = [] ∨ ch2.readers.items = []) (h : Excl s) :
    Excl (setChan s j ch2) := by
  intro j2 ch hch
  by_cases hj : j = j2
  · subst hj
    by_cases hjl : j < s.chans.length
    · rw [getElem?_setChan_self s j ch2 hjl] at hch
      injection hch with hcheq
      rw [← hcheq]
      exact hch2
    · unfold setChan at hch
      rw [List.getElem?_eq_none] at hch
      · exact Option.noConfusion hch
      · simpa using Nat.le_of_not_lt hjl
  · rw [getElem?_setChan_ne s j j2 ch2 hj] at hch
    exact h j2 ch hch

theorem Excl_events (s : Sys α) (evs : List (Event α)) (h : Excl s) :
    Excl { s with events := evs } :=
  fun j ch hch => h j ch hch

theorem selectScan_done_none_empty (s : Sys α) :
    ∀ (m : List (Nat × Nat)) ot acc had had2,
    (acc = none → ot = none) →
    selectScan s m ot acc had = .done none had2 →
    acc = none ∧
      (∀ k ci ch, (k, ci) ∈ m → s.chans[ci]? = some ch → ch.messages.peek = none) := by
  intro m
  induction m with
  | nil =>
      intro ot acc had had2 hcoup h
      rw [selectScan] at h
      injection h with h1 h2
      exact ⟨h1, by intro k ci ch hmem; simp at hmem⟩
  | cons e rest ih =>
      obtain ⟨k0, c0⟩ := e
      intro ot acc had had2 hcoup h
      rw [selectScan] at h
      cases hc : s.chans[c0]? with
      | none =>
          simp only [hc] at h
          obtain ⟨ha, hall⟩ := ih _ _ _ _ hcoup h
          refine ⟨ha, ?_⟩
          intro k ci ch hmem hch
          rcases List.mem_cons.mp hmem with he | hm
          · exfalso
            obtain ⟨he1, he2⟩ : k = k0 ∧ ci = c0 := by
              simpa [Prod.ext_iff] using he
            subst he2
            rw [hch] at hc
            exact Option.noConfusion hc
          · exact hall k ci ch hm hch
      | some ch0 =>
          simp only [hc] at h
          by_cases hcl : ch0.closed
          · rw [if_pos hcl] at h
            exact absurd h (by simp)
          · rw [if_neg hcl] at h
            cases hpk : ch0.messages.peek with
            | none =>
                simp only [hpk] at h
                obtain ⟨ha, hall⟩ := ih _ _ _ _ hcoup h
                refine ⟨ha, ?_⟩
                intro k ci ch hmem hch
                rcases List.mem_cons.mp hmem with he | hm
                · obtain ⟨he1, he2⟩ : k = k0 ∧ ci = c0 := by
                    simpa [Prod.ext_iff] using he
                  subst he2
                  rw [hch] at hc
                  injection hc with hceq
                  rw [hceq]
                  exact hpk
                · exact hall k ci ch hm hch
            | some env =>
                exfalso
                cases ot with
                | none =>
                    simp only [hpk] at h
                    obtain ⟨ha, _⟩ := ih _ _ _ _ (by simp) h
                    exact Option.noConfusion ha
                | some t =>
                    have hacc : acc ≠ none := by
                      intro hac
                      exact Option.noConfusion (hcoup hac)
                    simp only [hpk] at h
                    by_cases hlt : env.ts < t
                    · rw [if_pos hlt] at h
                      obtain ⟨ha, _⟩ := ih _ _ _ _ (by simp) h
                      exact Option.noConfusion ha
                    · rw [if_neg hlt] at h
                      obtain ⟨ha, _⟩ := ih _ _ _ _ (fun hac => absurd hac hacc) h
                      exact hacc ha

theorem selectRegister_Excl :
    ∀ (m : List (Nat × Nat)) (s : Sys α) (p selId : Nat),
    (∀ k ci ch, (k, ci) ∈ m → s.chans[ci]? = some ch → ch.messages.items = []) →
    Excl s → Excl (selectRegister s p selId m) := by
  intro m
  induction m with
  | nil =>
      intro s p selId hemp h
      exact h
  | cons e rest ih =>
      obtain ⟨k0, c0⟩ := e
      intro s p selId hemp h
      rw [selectRegister]
      cases hc : s.chans[c0]? with
      | none =>
          simp only
          exact ih s p selId
            (fun k ci ch hm hch => hemp k ci ch (List.mem_cons_of_mem _ hm) hch) h
      | some ch0 =>
          simp only
          have hemp0 : ch0.messages.items = [] := hemp k0 c0 ch0 (List.mem_cons_self _ _) hc
          cases hpush : ch0.readers.push (Reader.selectR p k0 selId s.nextReg) with
          | none => exact Excl_resolveP _ _ _ h
          | some rq =>
              apply ih
              · intro k ci ch hm hch
                by_cases hci : ci = c0
                · subst hci
                  rw [getElem?_setChan_self _ _ _
                    (by simpa using getElem?_lt_length hc)] at hch
                  injection hch with hcheq
                  rw [← hcheq]
                  exact hemp0
                · rw [getElem?_setChan_ne _ _ _ _ (fun he => hci he.symm)] at hch
                  exact hemp k ci ch (List.mem_cons_of_mem _ hm) hch
              · exact Excl_setChan _ c0 _ (Or.inl hemp0) h

/-- Every operation preserves the exclusion invariant. -/
theorem Excl_applyOp (s : Sys α) (op : Op α) (h : Excl s) : Excl (applyOp s op) := by
  cases op with
  | putO j v =>
      simp only [applyOp, putOp]
      cases hcj : s.chans[j]? with
      | none => exact h
      | some chj =>
          simp only
          by_cases hcl : chj.closed
          · rw [if_pos hcl]
            exact Excl_events _ _ h
          · rw [if_neg hcl]
            cases hpk : chj.readers.peek with
            | some r =>
                have hmsg : chj.messages.items = [] := by
                  rcases h j chj hcj with hm | hr
                  · exact hm
                  · exfalso
                    rw [Queue.peek, hr] at hpk
                    simp at hpk
                exact Excl_resolveP _ _ _
                  (Excl_invokeReader _ _ _ (Excl_setChan _ j _ (Or.inl hmsg) h))
            | none =>
                have hrd : chj.readers.items = [] := by
                  rw [Queue.peek, List.getLast?_eq_none_iff] at hpk
                  exact hpk
                cases hpush : chj.messages.push
                    { msg := v, putCb := some s.nextP, ts := s.totalOrder } with
                | none => exact Excl_resolveP _ _ _ h
                | some mq =>
                    by_cases habs : mq.size ≤ chj.bufferSize
                    · simp only [habs, if_true]
                      exact Excl_resolveP _ _ _ (Excl_setChan _ j _ (Or.inr hrd) h)
                    · simp only [habs, if_false]
                      exact Excl_setChan _ j _ (Or.inr hrd) h
  | takeO j =>
      simp only [applyOp, takeOp]
      cases hcj : s.chans[j]? with
      | none => exact h
      | some chj =>
          simp only
          by_cases hcl : chj.closed
          · rw [if_pos hcl]
            exact Excl_resolveP _ _ _ h
          · rw [if_neg hcl]
            by_cases hsz : chj.messages.size ≠ 0
            · rw [if_pos hsz]
              apply Excl_resolveP
              simp only [readOp]
              cases hcj2 : ({ s with nextP := s.nextP + 1 } : Sys α).chans[j]? with
              | none => exact h
              | some chj2 =>
                  simp only
                  by_cases hcl2 : chj2.closed
                  · rw [if_pos hcl2]
                    exact h
                  · rw [if_neg hcl2]
                    cases hpk2 : chj2.messages.peek with
                    | none => exact h
                    | some env =>
                        have hgood : ({ chj2 with
                            messages := chj2.messages.dropOldest } : Chan α).messages.items = [] ∨
                            ({ chj2 with
                              messages := chj2.messages.dropOldest } : Chan α).readers.items = [] := by
                          rcases h j chj2 hcj2 with hm | hr
                          · left
                            simp [Queue.dropOldest, hm]
                          · right
                            exact hr
                        exact Excl_resolvePutCb _ _ _ (Excl_setChan _ j _ hgood h)
            · rw [if_neg hsz]
              have hmsg : chj.messages.items = [] := by
                push_neg at hsz
                rw [Queue.size] at hsz
                exact List.length_eq_zero.mp hsz
              cases hpush : chj.readers.push (Reader.takeR s.nextP s.nextReg) with
              | none => exact Excl_resolveP _ _ _ h
              | some rq => exact Excl_setChan _ j _ (Or.inl hmsg) h
  | readO j =>
      simp only [applyOp, readOp]
      cases hcj : s.chans[j]? with
      | none => exact h
      | some chj =>
          simp only
          by_cases hcl : chj.closed
          · rw [if_pos hcl]
            exact h
          · rw [if_neg hcl]
            cases hpk : chj.messages.peek with
            | none => exact h
            | some env =>
                have hgood : ({ chj with
                    messages := chj.messages.dropOldest } : Chan α).messages.items = [] ∨
                    ({ chj with
                      messages := chj.messages.dropOldest } : Chan α).readers.items = [] := by
                  rcases h j chj hcj with hm | hr
                  · left
                    simp [Queue.dropOldest, hm]
                  · right
                    exact hr
                exact Excl_resolvePutCb _ _ _ (Excl_setChan _ j _ hgood h)
  | closeO j =>
      simp only [applyOp, closeOp]
      cases hcj : s.chans[j]? with
      | none => exact h
      | some chj =>
          simp only
          by_cases hcl : chj.closed
          · rw [if_pos hcl]
            exact Excl_events _ _ h
          · rw [if_neg hcl]
            apply drainMessages_preserve Excl j
            · intro s2 ch2 env hch2 hpk2 hQ
              apply Excl_resolvePutCb
              apply Excl_setChan
              · rcases hQ j ch2 hch2 with hm | hr
                · left
                  simp [Queue.dropOldest, hm]
                · right
                  exact hr
              · exact hQ
            · apply drainReaders_preserve Excl j
              · intro s2 ch2 r hch2 hpk2 hQ
                apply Excl_invokeReader
                apply Excl_setChan
                · left
                  rcases hQ j ch2 hch2 with hm | hr
                  · exact hm
                  · exfalso
                    rw [Queue.peek, hr] at hpk2
                    simp at hpk2
                · exact hQ
              · apply Excl_setChan
                · rcases h j chj hcj with hm | hr
                  · exact Or.inl hm
                  · exact Or.inr hr
                · exact h
  | selectO m =>
      simp only [applyOp, selectOp]
      cases hscan : selectScan s m none none false with
      | closedAt key => exact Excl_resolveP _ _ _ h
      | done o had2 =>
          cases o with
          | some w =>
              obtain ⟨key, ci⟩ := w
              simp only
              cases hcw : s.chans[ci]? with
              | none => exact h
              | some chw =>
                  simp only
                  cases hpkw : chw.messages.peek with
                  | none => exact h
                  | some env =>
                      have hgood : ({ chw with
                          messages := chw.messages.dropOldest } : Chan α).messages.items = [] ∨
                          ({ chw with
                            messages := chw.messages.dropOldest } : Chan α).readers.items = [] := by
                        rcases h ci chw hcw with hm | hr
                        · left
                          simp [Queue.dropOldest, hm]
                        · right
                          exact hr
                      exact Excl_resolveP _ _ _
                        (Excl_resolvePutCb _ _ _ (Excl_setChan _ ci _ hgood h))
          | none =>
              simp only
              by_cases hhad : had2
              · rw [if_neg (by simp [hhad])]
                apply selectRegister_Excl m
                  { s with nextP := s.nextP + 1, nextSel := s.nextSel + 1 } s.nextP s.nextSel
                · intro k ci ch hm hch
                  have := (selectScan_done_none_empty s m none none false had2
                    (by simp) hscan).2 k ci ch hm hch
                  rw [Queue.peek, List.getLast?_eq_none_iff] at this
                  exact this
                · exact h
              · rw [if_pos (by simpa using hhad)]
                exact Excl_events _ _ h

theorem Excl_runOps : ∀ (ops : List (Op α)) (s : Sys α), Excl s → Excl (runOps s ops) := by
  intro ops
  induction ops with
  | nil =>
      intro s h
      exact h
  | cons op rest ih =>
      intro s h
      show Excl (runOps (applyOp s op) rest)
      exact ih _ (Excl_applyOp s op h)

/-- C3: in every state reachable by a sequence of operations from a
fresh system, no channel has a pending message and a pending reader at
the same time. -/
theorem claim_C3 (α : Type) (caps : List Nat) (ops : List (Op α)) :
    Excl (runOps (mkSys α caps) ops) := by
  apply Excl_runOps
  intro j ch hch
  right
  unfold mkSys at hch
  rw [List.getElem?_map] at hch
  cases hcap : caps[j]? with
  | none => rw [hcap] at hch; exact Option.noConfusion hch
  | some k =>
      rw [hcap] at hch
      injection hch with hcheq
      rw [← hcheq]

theorem range'_succ_right (s n : Nat) : List.range' s (n + 1) = List.range' s n ++ [s + n] := by
  rw [List.range'_concat]
  simp

/-- State of the FIFO scenario: a capacity-`K` channel after `N` puts of
the values `f 0, …, f (N-1)` (all within capacity, `N ≤ K`) and then `r`
takes (`r ≤ N`). -/
def fifoSys (f : Nat → Nat) (K N r : Nat) : Sys Nat :=
  { chans := [{ bufferSize := K, closed := false,
                messages := bufQueue f r (N - r), readers := {} }],
    totalOrder := N, nextP := N + r,
    resolved := (List.range' N r).reverse ++ (List.range N).reverse,
    events := (List.range N).map (fun n => Event.putResolved n true) ++
      (List.range r).map (fun t => Event.takeResolved (N + t) (some (f t))) }

theorem fifoSys_zero (f : Nat → Nat) (K N : Nat) (hN : N ≤ K) :
    bufSysPuts f K N = fifoSys f K N 0 := by
  simp [bufSysPuts, fifoSys, bufQueue, List.range_eq_range', Nat.min_eq_left hN]

theorem takeOp_fifoSys (f : Nat → Nat) (K N r : Nat) (hr : r < N) :
    takeOp (fifoSys f K N r) 0 = fifoSys f K N (r + 1) := by
  have hcnt : N - r = (N - r - 1) + 1 := by omega
  have hpeek : (bufQueue f r (N - r)).peek = some (bufEnv f r) := by
    rw [hcnt]; exact bufQueue_peek f r (N - r - 1)
  have hsz : (bufQueue f r (N - r)).size ≠ 0 := by
    simp only [bufQueue, Queue.size, List.length_reverse, List.length_map, List.length_range']
    omega
  simp only [takeOp, fifoSys, List.getElem?_cons_zero, Bool.false_eq_true, if_false,
    readOp, hpeek]
  rw [if_pos hsz]
  simp only [bufEnv, resolvePutCb]
  rw [resolveP_of_not_mem _ _ _ (not_mem_resolveP_resolved _ _ _ _
    (by
      simp only [setChan, List.mem_append, List.mem_reverse, List.mem_range,
        List.mem_range'_1]
      push_neg
      omega)
    (by omega))]
  rw [resolveP_of_mem _ _ _ (by
    simp only [setChan, List.mem_append, List.mem_reverse, List.mem_range, List.mem_range'_1]
    omega)]
  simp only [setChan, fifoSys, List.set_cons_zero]
  have h2 : N - (r + 1) = N - r - 1 := by omega
  have h3 : N + (r + 1) = N + r + 1 := by omega
  rw [hcnt, bufQueue_dropOldest, h2, h3, range'_succ_right, List.range_succ]
  simp

theorem runOps_fifo (f : Nat → Nat) (K N : Nat) :
    ∀ r, r ≤ N →
    runOps (fifoSys f K N 0) (List.replicate r (Op.takeO 0)) = fifoSys f K N r := by
  intro r
  induction r with
  | zero => intro _; rfl
  | succ n ih =>
      intro hr
      rw [List.replicate_succ', runOps_append, ih (Nat.le_of_succ_le hr)]
      show takeOp (fifoSys f K N n) 0 = fifoSys f K N (n + 1)
      exact takeOp_fifoSys f K N n (Nat.lt_of_succ_le hr)

/-- `put` delivering to the earliest-registered reader (the oldest entry
of the reader queue, i.e. the last element of the backing array). -/
theorem putOp_reader (s : Sys α) (i : Nat) (ch : Chan α) (v : α) (pt rt : Nat)
    (hch : s.chans[i]? = some ch) (hcl : ch.closed = false)
    (hr : ch.readers.peek = some (Reader.takeR pt rt))
    (hpt : pt ∉ s.resolved) (hptne : pt ≠ s.nextP) (hfresh : s.nextP ∉ s.resolved) :
    (putOp s i v).events =
      s.events ++ [Event.takeResolved pt (some v), Event.putResolved s.nextP true] ∧
    (putOp s i v).chans[i]? =
      some { ch with readers := ch.readers.dropOldest } := by
  have hi : i < s.chans.length := getElem?_lt_length hch
  simp only [putOp, hch, hcl, Bool.false_eq_true, if_false, hr, invokeReader]
  rw [resolveP_of_not_mem (setChan { s with
      totalOrder := s.totalOrder + 1, nextP := s.nextP + 1 } i
      { bufferSize := ch.bufferSize, closed := false, messages := ch.messages, readers := ch.readers.dropOldest }) pt _
    (by simpa [setChan] using hpt)]
  rw [resolveP_of_not_mem _ _ _ (by
    simp only [setChan, List.mem_cons]
    push_neg
    exact ⟨fun he => absurd he.symm hptne, hfresh⟩)]
  constructor
  · simp [setChan]
  · rw [getElem?_setChan_self _ _ _ (by simpa using hi)]

theorem selectScan_closed_prefix (s : Sys α) (k : Nat) (ci : Nat) (ch : Chan α)
    (m2 : List (Nat × Nat)) (hch : s.chans[ci]? = some ch) (hcl : ch.closed = true) :
    ∀ (m1 : List (Nat × Nat)) ot acc had,
    (∀ k2 c2 ch2, (k2, c2) ∈ m1 → s.chans[c2]? = some ch2 → ch2.closed = false) →
    selectScan s (m1 ++ (k, ci) :: m2) ot acc had = .closedAt k := by
  intro m1
  induction m1 with
  | nil =>
      intro ot acc had hop
      rw [List.nil_append, selectScan]
      simp only [hch]
      rw [if_pos hcl]
  | cons e rest ih =>
      obtain ⟨k0, c0⟩ := e
      intro ot acc had hop
      rw [List.cons_append, selectScan]
      cases hc : s.chans[c0]? with
      | none =>
          simp only
          exact ih _ _ _ (fun k2 c2 ch2 hm hch2 => hop k2 c2 ch2 (List.mem_cons_of_mem _ hm) hch2)
      | some ch0 =>
          simp only
          rw [if_neg (by
            rw [hop k0 c0 ch0 (List.mem_cons_self _ _) hc]
            exact Bool.false_ne_true)]
          have hop2 : ∀ k2 c2 ch2, (k2, c2) ∈ rest → s.chans[c2]? = some ch2 →
              ch2.closed = false :=
            fun k2 c2 ch2 hm hch2 => hop k2 c2 ch2 (List.mem_cons_of_mem _ hm) hch2
          repeat' split
          all_goals exact ih _ _ _ hop2

theorem selectScan_spec (s : Sys α) :
    ∀ (m : List (Nat × Nat)) ot acc had key ci had2,
    (∀ k c, acc = some (k, c) → ∃ ch env, s.chans[c]? = some ch ∧ ch.closed = false ∧
      ch.messages.peek = some env ∧ ot = some env.ts) →
    selectScan s m ot acc had = .done (some (key, ci)) had2 →
    ∃ ch env, s.chans[ci]? = some ch ∧ ch.closed = false ∧
      ch.messages.peek = some env ∧
      (∀ t, ot = some t → env.ts ≤ t) ∧
      (∀ k2 c2 ch2 env2, (k2, c2) ∈ m → s.chans[c2]? = some ch2 →
        ch2.messages.peek = some env2 → env.ts ≤ env2.ts) := by
  intro m
  induction m with
  | nil =>
      intro ot acc had key ci had2 hacc h
      rw [selectScan] at h
      injection h with h1 h2
      obtain ⟨ch, env, hch, hcl, hpk, hot⟩ := hacc key ci h1
      refine ⟨ch, env, hch, hcl, hpk, ?_, ?_⟩
      · intro t ht
        rw [hot] at ht
        injection ht with hteq
        rw [hteq]
      · intro k2 c2 ch2 env2 hm
        simp at hm
  | cons e rest ih =>
      obtain ⟨k0, c0⟩ := e
      intro ot acc had key ci had2 hacc h
      rw [selectScan] at h
      cases hc : s.chans[c0]? with
      | none =>
          simp only [hc] at h
          obtain ⟨ch, env, hch, hcl, hpk, hbd, hall⟩ := ih _ _ _ _ _ _ hacc h
          refine ⟨ch, env, hch, hcl, hpk, hbd, ?_⟩
          intro k2 c2 ch2 env2 hm hch2 hpk2
          rcases List.mem_cons.mp hm with he | hm2
          · exfalso
            obtain ⟨he1, he2⟩ : k2 = k0 ∧ c2 = c0 := by
              simpa [Prod.ext_iff] using he
            subst he2
            rw [hch2] at hc
            exact Option.noConfusion hc
          · exact hall k2 c2 ch2 env2 hm2 hch2 hpk2
      | some ch0 =>
          simp only [hc] at h
          by_cases hcl0 : ch0.closed
          · rw [if_pos hcl0] at h
            exact absurd h (by simp)
          · rw [if_neg hcl0] at h
            cases hpk0 : ch0.messages.peek with
            | none =>
                simp only [hpk0] at h
                obtain ⟨ch, env, hch, hcl, hpk, hbd, hall⟩ := ih _ _ _ _ _ _ hacc h
                refine ⟨ch, env, hch, hcl, hpk, hbd, ?_⟩
                intro k2 c2 ch2 env2 hm hch2 hpk2
                rcases List.mem_cons.mp hm with he | hm2
                · exfalso
                  obtain ⟨he1, he2⟩ : k2 = k0 ∧ c2 = c0 := by
                    simpa [Prod.ext_iff] using he
                  subst he2
                  rw [hch2] at hc
                  injection hc with hceq
                  rw [hceq] at hpk2
                  rw [hpk2] at hpk0
                  exact Option.noConfusion hpk0
                · exact hall k2 c2 ch2 env2 hm2 hch2 hpk2
            | some env0 =>
                have hstep :
                    ∀ ot2 acc2,
                    (∀ k c, acc2 = some (k, c) → ∃ ch env, s.chans[c]? = some ch ∧
                      ch.closed = false ∧ ch.messages.peek = some env ∧ ot2 = some env.ts) →
                    selectScan s rest ot2 acc2 true = .done (some (key, ci)) had2 →
                    (∀ w, (∀ t, ot2 = some t → w ≤ t) →
                      (∀ t, ot = some t → w ≤ t) ∧ w ≤ env0.ts) →
                    ∃ ch env, s.chans[ci]? = some ch ∧ ch.closed = false ∧
                      ch.messages.peek = some env ∧
                      (∀ t, ot = some t → env.ts ≤ t) ∧
                      (∀ k2 c2 ch2 env2, (k2, c2) ∈ (k0, c0) :: rest →
                        s.chans[c2]? = some ch2 →
                        ch2.messages.peek = some env2 → env.ts ≤ env2.ts) := by
                  intro ot2 acc2 hacc2 h2 hw
                  obtain ⟨ch, env, hch, hcl, hpk, hbd, hall⟩ := ih _ _ _ _ _ _ hacc2 h2
                  obtain ⟨hbd0, hle0⟩ := hw env.ts hbd
                  refine ⟨ch, env, hch, hcl, hpk, hbd0, ?_⟩
                  intro k2 c2 ch2 env2 hm hch2 hpk2
                  rcases List.mem_cons.mp hm with he | hm2
                  · obtain ⟨he1, he2⟩ : k2 = k0 ∧ c2 = c0 := by
                      simpa [Prod.ext_iff] using he
                    subst he2
                    rw [hch2] at hc
                    injection hc with hceq
                    rw [hceq] at hpk2
                    rw [hpk2] at hpk0
                    injection hpk0 with henv
                    rw [henv]
                    exact hle0
                  · exact hall k2 c2 ch2 env2 hm2 hch2 hpk2
                cases ot with
                | none =>
                    simp only [hpk0] at h
                    exact hstep (some env0.ts) (some (k0, c0))
                      (by
                        intro k c hkc
                        obtain ⟨hk, hc2⟩ : k = k0 ∧ c = c0 := by
                          simpa [Prod.ext_iff] using hkc.symm
                        subst hc2
                        exact ⟨ch0, env0, hc, Bool.not_eq_true _ ▸ (by simpa using hcl0),
                          hpk0, rfl⟩)
                      h
                      (by
                        intro w hw
                        refine ⟨by intro t ht; exact Option.noConfusion ht, ?_⟩
                        exact hw env0.ts rfl)
                | some t =>
                    simp only [hpk0] at h
                    by_cases hlt : env0.ts < t
                    · rw [if_pos hlt] at h
                      exact hstep (some env0.ts) (some (k0, c0))
                        (by
                          intro k c hkc
                          obtain ⟨hk, hc2⟩ : k = k0 ∧ c = c0 := by
                            simpa [Prod.ext_iff] using hkc.symm
                          subst hc2
                          exact ⟨ch0, env0, hc, Bool.not_eq_true _ ▸ (by simpa using hcl0),
                            hpk0, rfl⟩)
                        h
                        (by
                          intro w hw
                          have hwe := hw env0.ts rfl
                          refine ⟨?_, hwe⟩
                          intro t2 ht2
                          injection ht2 with hteq
                          rw [← hteq]
                          omega)
                    · rw [if_neg hlt] at h
                      exact hstep (some t) acc hacc h
                        (by
                          intro w hw
                          have hwt := hw t rfl
                          refine ⟨?_, by omega⟩
                          intro t2 ht2
                          injection ht2 with hteq
                          rw [← hteq]
                          exact hwt)

theorem selectScan_closedAt_mem (s : Sys α) :
    ∀ (m : List (Nat × Nat)) ot acc had k,
    selectScan s m ot acc had = .closedAt k →
    ∃ ci ch, (k, ci) ∈ m ∧ s.chans[ci]? = some ch ∧ ch.closed = true := by
  intro m
  induction m with
  | nil =>
      intro ot acc had k h
      rw [selectScan] at h
      exact absurd h (by simp)
  | cons e rest ih =>
      obtain ⟨k0, c0⟩ := e
      intro ot acc had k h
      rw [selectScan] at h
      cases hc : s.chans[c0]? with
      | none =>
          simp only [hc] at h
          obtain ⟨ci, ch, hm, hch, hcl⟩ := ih _ _ _ _ h
          exact ⟨ci, ch, List.mem_cons_of_mem _ hm, hch, hcl⟩
      | some ch0 =>
          simp only [hc] at h
          by_cases hcl0 : ch0.closed
          · rw [if_pos hcl0] at h
            injection h with hk
            subst hk
            exact ⟨c0, ch0, List.mem_cons_self _ _, hc, hcl0⟩
          · rw [if_neg hcl0] at h
            repeat' split at h
            all_goals {
              obtain ⟨ci, ch, hm, hch, hcl⟩ := ih _ _ _ _ h
              exact ⟨ci, ch, List.mem_cons_of_mem _ hm, hch, hcl⟩ }

theorem selectScan_pending_done (s : Sys α) (m : List (Nat × Nat))
    (hex : ∀ k c, (k, c) ∈ m → ∃ ch, s.chans[c]? = some ch ∧ ch.closed = false)
    (hpend : ∃ k c ch env, (k, c) ∈ m ∧ s.chans[c]? = some ch ∧
      ch.messages.peek = some env) :
    ∃ key ci had2, selectScan s m none none false = .done (some (key, ci)) had2 := by
  cases hscan : selectScan s m none none false with
  | closedAt k =>
      obtain ⟨ci, ch, hm, hch, hcl⟩ := selectScan_closedAt_mem s m none none false k hscan
      obtain ⟨ch2, hch2, hop⟩ := hex k ci hm
      rw [hch] at hch2
      injection hch2 with hcheq
      rw [← hcheq] at hop
      rw [hcl] at hop
      exact absurd hop (by simp)
  | done o had2 =>
      cases o with
      | some w =>
          obtain ⟨key, ci⟩ := w
          exact ⟨key, ci, had2, rfl⟩
      | none =>
          obtain ⟨k, c, ch, env, hm, hch, hpk⟩ := hpend
          have hemp := (selectScan_done_none_empty s m none none false had2
            (by simp) hscan).2 k c ch hm hch
          rw [hpk] at hemp
          exact Option.noConfusion hemp

/-- An open channel holding one envelope with sequence number 1. -/
def wSelChanA : Chan Nat :=
  { bufferSize := 0, messages := { items := [{ msg := 10, putCb := some 1, ts := 1 }] } }

/-- An open channel holding one envelope with sequence number 0. -/
def wSelChanB : Chan Nat :=
  { bufferSize := 0, messages := { items := [{ msg := 20, putCb := some 0, ts := 0 }] } }

/-- A two-channel system where both channels hold a pending message and
the second channel holds the globally older one. -/
def wSelSys : Sys Nat := { chans := [wSelChanA, wSelChanB], totalOrder := 2, nextP := 2 }

/-- An open channel holding one pending message. -/
def wC6ChanOpen : Chan Nat :=
  { bufferSize := 0, messages := { items := [{ msg := 10, putCb := some 0, ts := 0 }] } }

/-- A closed channel. -/
def wC6ChanClosed : Chan Nat := { bufferSize := 0, closed := true }

/-- A system whose first channel is open with a pending message and whose
second channel is closed. -/
def wC6Sys : Sys Nat := { chans := [wC6ChanOpen, wC6ChanClosed], totalOrder := 1, nextP := 1 }

/-- A channel with one pending reader and the system around it, used by
the C4 witness. -/
def wReaderChan : Chan Nat := { bufferSize := 0, readers := { items := [Reader.takeR 5 0] } }

/-- A one-channel system whose channel has a pending reader. -/
def wReaderSys : Sys Nat := { chans := [wReaderChan], nextP := 9 }

/-- C4: on a capacity-`K` channel, `N ≤ K` puts of values `f 0 … f (N-1)`
followed by `N` takes resolve the takes to the values in insertion order
(the `t`-th take receives `f t`); and a put arriving while readers are
registered pops and serves the earliest-registered reader (the oldest
entry of the reader queue). -/
theorem claim_C4 (α : Type) (f : Nat → Nat) (K N : Nat) (hN : N ≤ K)
    (hK : K < MAX_SAFE_INTEGER)
    (s : Sys α) (i : Nat) (ch : Chan α) (v : α) (pt rt : Nat)
    (hch : s.chans[i]? = some ch) (hcl : ch.closed = false)
    (hr : ch.readers.peek = some (Reader.takeR pt rt))
    (hpt : pt ∉ s.resolved) (hptne : pt ≠ s.nextP) (hfresh : s.nextP ∉ s.resolved) :
    ((runOps (mkSys Nat [K]) ((List.range N).map (fun n => Op.putO 0 (f n)) ++
        List.replicate N (Op.takeO 0))).events =
      (List.range N).map (fun n => Event.putResolved n true) ++
        (List.range N).map (fun t => Event.takeResolved (N + t) (some (f t)))) ∧
    ((putOp s i v).events =
      s.events ++ [Event.takeResolved pt (some v), Event.putResolved s.nextP true] ∧
     (putOp s i v).chans[i]? = some { ch with readers := ch.readers.dropOldest }) := by
  constructor
  · rw [runOps_append, runOps_puts f K N (by omega) hK, fifoSys_zero f K N hN,
      runOps_fifo f K N N (Nat.le_refl N)]
    rfl
  · exact putOp_reader s i ch v pt rt hch hcl hr hpt hptne hfresh

/-- Witness for C4: values `100 + n` on a capacity-2 channel, and a put
meeting a concrete pending reader. -/
theorem claim_C4_witness :
    ((runOps (mkSys Nat [2]) ((List.range 2).map (fun n => Op.putO 0 (100 + n)) ++
        List.replicate 2 (Op.takeO 0))).events =
      (List.range 2).map (fun n => Event.putResolved n true) ++
        (List.range 2).map (fun t => Event.takeResolved (2 + t) (some (100 + t)))) ∧
    ((putOp wReaderSys 0 42).events =
      wReaderSys.events ++
        [Event.takeResolved 5 (some 42), Event.putResolved wReaderSys.nextP true] ∧
     (putOp wReaderSys 0 42).chans[0]? =
      some { wReaderChan with readers := (wReaderChan).readers.dropOldest }) :=
  claim_C4 Nat (fun n => 100 + n) 2 2 (by decide) (by decide) wReaderSys 0 wReaderChan 42 5 0
    rfl rfl rfl (by simp [wReaderSys]) (by decide) (by simp [wReaderSys])

/-- C2: `close` on a closed channel throws a closed-channel error; on an
open channel it flips the closed flag, synchronously resolves every
pending reader with the closed signal (oldest first) and every pending
envelope's completion callback with `false`, leaving both queues empty;
afterwards the closed flag never reverts and no reader is ever added
again (shown as preservation of `ClosedEmpty` by every operation), and a
`take` on the closed channel resolves immediately to the closed signal. -/
theorem claim_C2 (α : Type) (s : Sys α) (i : Nat) (ch : Chan α)
    (hch : s.chans[i]? = some ch) (hfresh : s.nextP ∉ s.resolved) :
    (ch.closed = true → closeOp s i = { s with events := s.events ++ [Event.threwClosed] }) ∧
    (ch.closed = false →
      (∀ r, r ∈ ch.readers.items → ∃ pt rt, r = Reader.takeR pt rt) →
      ((ch.readers.items.map Reader.pid ++ ch.messages.items.filterMap Env.putCb).Nodup) →
      (∀ p, p ∈ ch.readers.items.map Reader.pid ++ ch.messages.items.filterMap Env.putCb →
        p ∉ s.resolved) →
      closeOp s i =
        { chans := s.chans.set i
            { bufferSize := ch.bufferSize, closed := true,
              messages := { items := [], maxSize := ch.messages.maxSize },
              readers := { items := [], maxSize := ch.readers.maxSize } },
          totalOrder := s.totalOrder, nextP := s.nextP, nextReg := s.nextReg,
          nextSel := s.nextSel,
          resolved := ch.messages.items.filterMap Env.putCb ++
            (ch.readers.items.map Reader.pid ++ s.resolved),
          events := (s.events ++
            ch.readers.items.reverse.map (fun r => Event.takeResolved (Reader.pid r) none)) ++
            ch.messages.items.reverse.filterMap
              (fun e => (Env.putCb e).map (fun p => Event.putResolved p false)) }) ∧
    (∀ op : Op α, ClosedEmpty s i → ClosedEmpty (applyOp s op) i) ∧
    (ch.closed = true →
      (takeOp s i).events = s.events ++ [Event.takeResolved s.nextP none] ∧
      (takeOp s i).chans = s.chans) := by
  have hi : i < s.chans.length := getElem?_lt_length hch
  refine ⟨?_, ?_, fun op h => ClosedEmpty_applyOp s i op h, ?_⟩
  · intro hcl
    simp only [closeOp, hch, hcl, if_true]
  · intro hcl htake hnodup hunres
    have hdisj :
        ∀ p, p ∈ ch.messages.items.filterMap Env.putCb →
          p ∉ ch.readers.items.map Reader.pid := by
      rcases List.nodup_append.mp hnodup with ⟨_, _, hd⟩
      intro p hp hmem
      exact hd hmem hp
    rw [closeOp_of_open s i ch hch hcl]
    rw [drainReaders_takeR ch.readers.items
      (setChan s i { ch with closed := true }) i
      { bufferSize := ch.bufferSize, closed := true, messages := ch.messages,
        readers := ch.readers }
      (by simpa [setChan] using List.getElem?_set_self (by simpa using hi)) rfl htake
      (by rcases List.nodup_append.mp hnodup with ⟨h1, _, _⟩; exact h1)
      (by
        intro p hp
        simpa [setChan] using hunres p (List.mem_append_left _ hp))]
    rw [drainMessages_run ch.messages.items _ i
      { bufferSize := ch.bufferSize, closed := true, messages := ch.messages,
        readers := { items := [], maxSize := ch.readers.maxSize } }
      (by
        simpa using List.getElem?_set_self
          (l := (setChan s i { ch with closed := true }).chans)
          (by simpa [setChan] using hi)) rfl
      (by rcases List.nodup_append.mp hnodup with ⟨_, h2, _⟩; exact h2)
      (by
        intro p hp
        simp only [List.mem_append]
        push_neg
        exact ⟨hdisj p hp, hunres p (List.mem_append_right _ hp)⟩)]
    simp only [setChan, List.set_set]
  · intro hcl
    simp only [takeOp, hch, hcl, if_true]
    rw [resolveP_of_not_mem _ _ _ (by exact hfresh)]
    exact ⟨rfl, rfl⟩

/-- Witness for C2 at a concrete fresh single-channel system. -/
theorem claim_C2_witness :
    ((wChan).closed = true →
      closeOp wSys 0 = { wSys with events := wSys.events ++ [Event.threwClosed] }) ∧
    ((wChan).closed = false →
      (∀ r, r ∈ (wChan).readers.items → ∃ pt rt, r = Reader.takeR pt rt) →
      (((wChan).readers.items.map Reader.pid ++
        (wChan).messages.items.filterMap Env.putCb).Nodup) →
      (∀ p, p ∈ (wChan).readers.items.map Reader.pid ++
          (wChan).messages.items.filterMap Env.putCb → p ∉ wSys.resolved) →
      closeOp wSys 0 =
        { chans := wSys.chans.set 0
            { bufferSize := (wChan).bufferSize, closed := true,
              messages := { items := [], maxSize := (wChan).messages.maxSize },
              readers := { items := [], maxSize := (wChan).readers.maxSize } },
          totalOrder := wSys.totalOrder, nextP := wSys.nextP, nextReg := wSys.nextReg,
          nextSel := wSys.nextSel,
          resolved := (wChan).messages.items.filterMap Env.putCb ++
            ((wChan).readers.items.map Reader.pid ++ wSys.resolved),
          events := (wSys.events ++
            (wChan).readers.items.reverse.map
              (fun r => Event.takeResolved (Reader.pid r) none)) ++
            (wChan).messages.items.reverse.filterMap
              (fun e => (Env.putCb e).map (fun p => Event.putResolved p false)) }) ∧
    (∀ op : Op Nat, ClosedEmpty wSys 0 → ClosedEmpty (applyOp wSys op) 0) ∧
    ((wChan).closed = true →
      (takeOp wSys 0).events = wSys.events ++ [Event.takeResolved wSys.nextP none] ∧
      (takeOp wSys 0).chans = wSys.chans) :=
  claim_C2 Nat wSys 0 wChan rfl (by simp [wSys])

/-- Which operations both implementations support without an observable
divergence: `put`, `take` and `read`. -/
def isPTRop : Op α → Bool
  | .putO _ _ => true
  | .takeO _ => true
  | .readO _ => true
  | _ => false

/-- The refinement relation between a core message envelope and a rewrite
envelope: same payload; the rewrite's completion callback is the core's,
except that the rewrite stores none where the core keeps an
already-settled promise (an absorbed put). -/
def REnvRel (resolved : List Nat) (env : Env α) (renv : REnv α) : Prop :=
  renv.msg = env.msg ∧
  (renv.pubCb = env.putCb ∨
    (renv.pubCb = none ∧ ∃ pc, env.putCb = some pc ∧ pc ∈ resolved))

/-- The refinement relation between a core channel and a rewrite channel
in a run that uses only `put`, `take` and `read`. -/
def RMatch (resolved : List Nat) (ch : Chan α) (rch : RChan α) : Prop :=
  rch.bufferSize = ch.bufferSize ∧
  rch.closed = ch.closed ∧
  rch.racers.items = [] ∧
  rch.takers.items = ch.readers.items.map Reader.pid ∧
  (∀ r ∈ ch.readers.items, ∃ pt rt, r = Reader.takeR pt rt) ∧
  List.Forall₂ (REnvRel resolved) ch.messages.items rch.messages.items ∧
  ch.messages.maxSize = MAX_SAFE_INTEGER ∧
  ch.readers.maxSize = MAX_SAFE_INTEGER ∧
  rch.messages.maxSize = MAX_SAFE_INTEGER ∧
  rch.takers.maxSize = MAX_SAFE_INTEGER

/-- The refinement invariant coupling a core system and a rewrite system. -/
def RInv (s : Sys α) (t : RSys α) : Prop :=
  t.nextP = s.nextP ∧ t.resolved = s.resolved ∧ t.events = s.events ∧
  (∀ q ∈ s.resolved, q < s.nextP) ∧
  t.chans.length = s.chans.length ∧
  (∀ (i : Nat) (ch : Chan α), s.chans[i]? = some ch →
    (∀ r ∈ ch.readers.items, r.pid < s.nextP) ∧
    (∀ env ∈ ch.messages.items, ∀ pc, env.putCb = some pc → pc < s.nextP)) ∧
  (∀ (i : Nat) (ch : Chan α), s.chans[i]? = some ch →
    ∃ rch, t.chans[i]? = some rch ∧ RMatch s.resolved ch rch)

/-- Queue sizes stay at least `n` below the shared capacity ceiling, so
the next `n` operations cannot overflow. -/
def Bounded (s : Sys α) (n : Nat) : Prop :=
  ∀ (i : Nat) (ch : Chan α), s.chans[i]? = some ch →
    ch.messages.size + n ≤ MAX_SAFE_INTEGER ∧ ch.readers.size + n ≤ MAX_SAFE_INTEGER

theorem REnvRel_mono (resolved : List Nat) (q : Nat) (env : Env α) (renv : REnv α)
    (h : REnvRel resolved env renv) : REnvRel (q :: resolved) env renv := by
  obtain ⟨h1, h2⟩ := h
  refine ⟨h1, ?_⟩
  rcases h2 with h2 | ⟨h2, pc, h3, h4⟩
  · exact Or.inl h2
  · exact Or.inr ⟨h2, pc, h3, List.mem_cons_of_mem _ h4⟩

theorem RMatch_mono (resolved : List Nat) (q : Nat) (ch : Chan α) (rch : RChan α)
    (h : RMatch resolved ch rch) : RMatch (q :: resolved) ch rch := by
  obtain ⟨h1, h2, h3, h4, h5, h6, h7⟩ := h
  exact ⟨h1, h2, h3, h4, h5, h6.imp (fun a b hab => REnvRel_mono resolved q a b hab), h7⟩

theorem forall2_dropLast {β γ : Type} {R : β → γ → Prop} :
    ∀ {l : List β} {l' : List γ}, List.Forall₂ R l l' →
    List.Forall₂ R l.dropLast l'.dropLast := by
  intro l l' h
  induction h with
  | nil => exact List.Forall₂.nil
  | cons hab htail ih =>
      cases htail with
      | nil => simp
      | cons hcd htl =>
          exact List.Forall₂.cons hab (ih)

theorem forall2_getLast {β γ : Type} {R : β → γ → Prop} :
    ∀ {l : List β} {l' : List γ}, List.Forall₂ R l l' →
    (l.getLast? = none ∧ l'.getLast? = none) ∨
    (∃ x y, l.getLast? = some x ∧ l'.getLast? = some y ∧ R x y) := by
  intro l l' h
  induction h with
  | nil => exact Or.inl ⟨rfl, rfl⟩
  | cons hab htail ih =>
      cases htail with
      | nil => exact Or.inr ⟨_, _, rfl, rfl, hab⟩
      | cons hcd htl =>
          rcases ih with ⟨h1, h2⟩ | ⟨x, y, h1, h2, h3⟩
          · rw [List.getLast?_eq_none_iff] at h1
            exact (List.cons_ne_nil _ _ h1).elim
          · exact Or.inr ⟨x, y, h1, h2, h3⟩

theorem rresolveP_of_not_mem (s : RSys α) (p : Nat) (ev : Event α) (h : p ∉ s.resolved) :
    rresolveP s p ev = { s with resolved := p :: s.resolved, events := s.events ++ [ev] } := by
  unfold rresolveP
  simp [h]

theorem rresolveP_of_mem (s : RSys α) (p : Nat) (ev : Event α) (h : p ∈ s.resolved) :
    rresolveP s p ev = s := by
  unfold rresolveP
  simp [h]

theorem getElem?_rsetChan_self (s : RSys α) (i : Nat) (ch : RChan α)
    (hi : i < s.chans.length) : (rsetChan s i ch).chans[i]? = some ch := by
  unfold rsetChan
  simp [List.getElem?_set_self, hi]

theorem getElem?_rsetChan_ne (s : RSys α) (i j : Nat) (ch : RChan α)
    (hij : i ≠ j) : (rsetChan s i ch).chans[j]? = s.chans[j]? := by
  unfold rsetChan
  simp [List.getElem?_set_ne, hij]

theorem resolveP_nextP (s : Sys α) (p : Nat) (ev : Event α) :
    (resolveP s p ev).nextP = s.nextP := by
  unfold resolveP
  split <;> rfl

theorem resolvePutCb_nextP (s : Sys α) (cb : Option Nat) (ok : Bool) :
    (resolvePutCb s cb ok).nextP = s.nextP := by
  cases cb with
  | none => rfl
  | some pc => exact resolveP_nextP s pc _

theorem readOp_nextP (s : Sys α) (i : Nat) : (readOp s i).1.nextP = s.nextP := by
  unfold readOp
  repeat' split
  all_goals first
    | rfl
    | (show (resolvePutCb _ _ _).nextP = s.nextP
       rw [resolvePutCb_nextP]
       rfl)

theorem resolveP_setChan_comm (s : Sys α) (i : Nat) (ch : Chan α) (p : Nat) (ev : Event α) :
    resolveP (setChan s i ch) p ev = setChan (resolveP s p ev) i ch := by
  unfold resolveP setChan
  split <;> rfl

theorem rresolveP_rsetChan_comm (s : RSys α) (i : Nat) (ch : RChan α) (p : Nat)
    (ev : Event α) :
    rresolveP (rsetChan s i ch) p ev = rsetChan (rresolveP s p ev) i ch := by
  unfold rresolveP rsetChan
  split <;> rfl

theorem RInv_resolveP (s : Sys α) (t : RSys α) (p : Nat) (ev : Event α)
    (h : RInv s t) (hp : p < s.nextP) : RInv (resolveP s p ev) (rresolveP t p ev) := by
  obtain ⟨hnp, hres, hev, hlt, hlen, hbnd, hch⟩ := h
  by_cases hm : p ∈ s.resolved
  · rw [resolveP_of_mem s p ev hm, rresolveP_of_mem t p ev (by rw [hres]; exact hm)]
    exact ⟨hnp, hres, hev, hlt, hlen, hbnd, hch⟩
  · rw [resolveP_of_not_mem s p ev hm, rresolveP_of_not_mem t p ev (by rw [hres]; exact hm)]
    refine ⟨hnp, ?_, ?_, ?_, hlen, hbnd, ?_⟩
    · show p :: t.resolved = p :: s.resolved
      rw [hres]
    · show t.events ++ [ev] = s.events ++ [ev]
      rw [hev]
    · intro q hq
      rcases List.mem_cons.mp hq with he | hq2
      · rw [he]
        exact hp
      · exact hlt q hq2
    · intro i ch hchi
      obtain ⟨rch, hti, hm2⟩ := hch i ch hchi
      exact ⟨rch, hti, RMatch_mono _ p ch rch hm2⟩

theorem RInv_pubCb (s : Sys α) (t : RSys α) (env : Env α) (renv : REnv α)
    (h : RInv s t) (hrel : REnvRel s.resolved env renv)
    (hpc : ∀ pc, env.putCb = some pc → pc < s.nextP) :
    RInv (resolvePutCb s env.putCb true) (rresolvePutCb t renv.pubCb true) := by
  obtain ⟨hmsg, hcb⟩ := hrel
  rcases hcb with hcb | ⟨hnone, pc, hpc2, hmem⟩
  · rw [hcb]
    cases hput : env.putCb with
    | none => exact h
    | some pc =>
        simp only [resolvePutCb, rresolvePutCb]
        exact RInv_resolveP s t pc _ h (hpc pc hput)
  · rw [hnone, hpc2]
    simp only [resolvePutCb, rresolvePutCb]
    rw [resolveP_of_mem s pc _ hmem]
    exact h

theorem RInv_setChan (s : Sys α) (t : RSys α) (i : Nat) (ch' : Chan α) (rch' : RChan α)
    (h : RInv s t) (hm : RMatch s.resolved ch' rch')
    (hb1 : ∀ r ∈ ch'.readers.items, r.pid < s.nextP)
    (hb2 : ∀ env ∈ ch'.messages.items, ∀ pc, env.putCb = some pc → pc < s.nextP) :
    RInv (setChan s i ch') (rsetChan t i rch') := by
  obtain ⟨hnp, hres, hev, hlt, hlen, hbnd, hch⟩ := h
  refine ⟨hnp, hres, hev, hlt, ?_, ?_, ?_⟩
  · show (t.chans.set i rch').length = (s.chans.set i ch').length
    simp [hlen]
  · intro j chj hj
    by_cases hji : j = i
    · subst hji
      by_cases hlt2 : j < s.chans.length
      · rw [getElem?_setChan_self s j ch' hlt2] at hj
        injection hj with he
        subst he
        exact ⟨hb1, hb2⟩
      · have hnone : (setChan s j ch').chans[j]? = none := by
          apply List.getElem?_eq_none
          show (s.chans.set j ch').length ≤ j
          simpa using Nat.le_of_not_lt hlt2
        rw [hnone] at hj
        exact Option.noConfusion hj
    · rw [getElem?_setChan_ne s i j ch' (fun he => hji he.symm)] at hj
      exact hbnd j chj hj
  · intro j chj hj
    by_cases hji : j = i
    · subst hji
      by_cases hlt2 : j < s.chans.length
      · rw [getElem?_setChan_self s j ch' hlt2] at hj
        injection hj with he
        subst he
        exact ⟨rch', getElem?_rsetChan_self t j rch' (by rw [hlen]; exact hlt2), hm⟩
      · have hnone : (setChan s j ch').chans[j]? = none := by
          apply List.getElem?_eq_none
          show (s.chans.set j ch').length ≤ j
          simpa using Nat.le_of_not_lt hlt2
        rw [hnone] at hj
        exact Option.noConfusion hj
    · rw [getElem?_setChan_ne s i j ch' (fun he => hji he.symm)] at hj
      obtain ⟨rchj, htj, hmj⟩ := hch j chj hj
      refine ⟨rchj, ?_, hmj⟩
      rw [getElem?_rsetChan_ne t i j rch' (fun he => hji he.symm)]
      exact htj

theorem RInv_bumpPut (s : Sys α) (t : RSys α) (h : RInv s t) :
    RInv { s with totalOrder := s.totalOrder + 1, nextP := s.nextP + 1 }
      { t with nextP := s.nextP + 1 } := by
  obtain ⟨hnp, hres, hev, hlt, hlen, hbnd, hch⟩ := h
  refine ⟨rfl, hres, hev, ?_, hlen, ?_, hch⟩
  · intro q hq
    exact Nat.lt_succ_of_lt (hlt q hq)
  · intro i ch hchi
    obtain ⟨hb1, hb2⟩ := hbnd i ch hchi
    exact ⟨fun r hr => Nat.lt_succ_of_lt (hb1 r hr),
      fun env he pc hpc => Nat.lt_succ_of_lt (hb2 env he pc hpc)⟩

theorem RInv_bumpTake (s : Sys α) (t : RSys α) (h : RInv s t) :
    RInv { s with nextP := s.nextP + 1 } { t with nextP := s.nextP + 1 } := by
  obtain ⟨hnp, hres, hev, hlt, hlen, hbnd, hch⟩ := h
  refine ⟨rfl, hres, hev, ?_, hlen, ?_, hch⟩
  · intro q hq
    exact Nat.lt_succ_of_lt (hlt q hq)
  · intro i ch hchi
    obtain ⟨hb1, hb2⟩ := hbnd i ch hchi
    exact ⟨fun r hr => Nat.lt_succ_of_lt (hb1 r hr),
      fun env he pc hpc => Nat.lt_succ_of_lt (hb2 env he pc hpc)⟩

theorem push_of_lt (q : Queue β) (x : β) (h : q.size < q.maxSize) :
    q.push x = some { q with items := x :: q.items } := by
  unfold Queue.push
  rw [if_neg (Nat.not_le.mpr h)]

theorem push_of_full (q : Queue β) (x : β) (h : q.maxSize ≤ q.size) :
    q.push x = none := by
  unfold Queue.push
  rw [if_pos h]

theorem couple_read (s : Sys α) (t : RSys α) (i : Nat) (h : RInv s t) :
    RInv (readOp s i).1 (rreadOp t i).1 ∧ (readOp s i).2 = (rreadOp t i).2 := by
  obtain ⟨hnp, hres, hev, hlt, hlen, hbnd, hch⟩ := h
  cases hsi : s.chans[i]? with
  | none =>
      have hti : t.chans[i]? = none := by
        apply List.getElem?_eq_none
        rw [hlen]
        exact List.getElem?_eq_none_iff.mp hsi
      simp only [readOp, rreadOp, hsi, hti]
      exact ⟨⟨hnp, hres, hev, hlt, hlen, hbnd, hch⟩, trivial⟩
  | some ch =>
      obtain ⟨rch, hti, hm⟩ := hch i ch hsi
      obtain ⟨hbuf, hclm, hrac, htak, hrdr, hmsg, hq1, hq2, hq3, hq4⟩ := hm
      simp only [readOp, rreadOp, hsi, hti]
      by_cases hc : ch.closed
      · rw [if_pos hc, if_pos (by rw [hclm]; exact hc)]
        exact ⟨⟨hnp, hres, hev, hlt, hlen, hbnd, hch⟩, rfl⟩
      · rw [if_neg hc, if_neg (by rw [hclm]; exact hc)]
        rcases forall2_getLast hmsg with ⟨hn1, hn2⟩ | ⟨env, renv, hg1, hg2, hrel⟩
        · have hp1 : ch.messages.peek = none := hn1
          have hp2 : rch.messages.peek = none := hn2
          simp only [hp1, hp2]
          exact ⟨⟨hnp, hres, hev, hlt, hlen, hbnd, hch⟩, trivial⟩
        · have hp1 : ch.messages.peek = some env := hg1
          have hp2 : rch.messages.peek = some renv := hg2
          simp only [hp1, hp2]
          have hset := RInv_setChan s t i { ch with messages := ch.messages.dropOldest }
            { rch with messages := rch.messages.dropOldest }
            ⟨hnp, hres, hev, hlt, hlen, hbnd, hch⟩
            ⟨hbuf, hclm, hrac, htak, hrdr, forall2_dropLast hmsg, hq1, hq2, hq3, hq4⟩
            (hbnd i ch hsi).1
            (fun env2 he pc hpc =>
              (hbnd i ch hsi).2 env2 (List.mem_of_mem_dropLast he) pc hpc)
          refine ⟨?_, ?_⟩
          · exact RInv_pubCb _ _ env renv hset hrel
              (fun pc hpc => (hbnd i ch hsi).2 env (List.mem_of_mem_getLast? hg1) pc hpc)
          · show some env.msg = some renv.msg
            rw [hrel.1]

theorem couple_put (s : Sys α) (t : RSys α) (i : Nat) (v : α)
    (hinv : RInv s t) (hb : Bounded s 1) :
    RInv (putOp s i v) (rputOp t i v) := by
  obtain ⟨hnp, hres, hev, hlt, hlen, hbnd, hch⟩ := hinv
  cases hsi : s.chans[i]? with
  | none =>
      have hti : t.chans[i]? = none := by
        apply List.getElem?_eq_none
        rw [hlen]
        exact List.getElem?_eq_none_iff.mp hsi
      simp only [putOp, rputOp, hsi, hti]
      exact ⟨hnp, hres, hev, hlt, hlen, hbnd, hch⟩
  | some ch =>
      obtain ⟨rch, hti, hm⟩ := hch i ch hsi
      obtain ⟨hbuf, hclm, hrac, htak, hrdr, hmsg, hq1, hq2, hq3, hq4⟩ := hm
      simp only [putOp, rputOp, hsi, hti]
      by_cases hc : ch.closed
      · rw [if_pos hc, if_pos (by rw [hclm]; exact hc)]
        refine ⟨hnp, hres, ?_, hlt, hlen, hbnd, hch⟩
        show t.events ++ [Event.threwClosed] = s.events ++ [Event.threwClosed]
        rw [hev]
      · rw [if_neg hc, if_neg (by rw [hclm]; exact hc)]
        rw [hnp]
        cases hpkr : ch.readers.peek with
        | some r =>
            have hrm : r ∈ ch.readers.items := List.mem_of_mem_getLast? hpkr
            obtain ⟨pt, rt, hr⟩ := hrdr r hrm
            subst hr
            have htpk : rch.takers.peek = some pt := by
              show rch.takers.items.getLast? = some pt
              rw [htak, List.getLast?_map]
              rw [show ch.readers.items.getLast? = some (Reader.takeR pt rt) from hpkr]
              rfl
            simp only [hpkr, htpk, invokeReader]
            have h1 := RInv_bumpPut s t ⟨hnp, hres, hev, hlt, hlen, hbnd, hch⟩
            have h2 := RInv_setChan _ _ i { ch with readers := ch.readers.dropOldest }
              { rch with takers := rch.takers.dropOldest } h1
              ⟨hbuf, hclm, hrac,
                (by
                  show rch.takers.items.dropLast = _
                  rw [htak]
                  exact (List.map_dropLast Reader.pid ch.readers.items).symm),
                (fun r2 hr2 => hrdr r2 (List.mem_of_mem_dropLast hr2)),
                hmsg, hq1, hq2, hq3, hq4⟩
              (fun r2 hr2 => Nat.lt_succ_of_lt
                ((hbnd i ch hsi).1 r2 (List.mem_of_mem_dropLast hr2)))
              (fun env2 he pc hpc => Nat.lt_succ_of_lt ((hbnd i ch hsi).2 env2 he pc hpc))
            have hpt0 : pt < s.nextP := (hbnd i ch hsi).1 (Reader.takeR pt rt) hrm
            have h3 := RInv_resolveP _ _ pt (Event.takeResolved pt (some v)) h2
              (Nat.lt_succ_of_lt hpt0)
            have h4 := RInv_resolveP _ _ s.nextP (Event.putResolved s.nextP true) h3
              (by
                rw [resolveP_nextP]
                exact Nat.lt_succ_self s.nextP)
            exact h4
        | none =>
            have hre : ch.readers.items = [] := List.getLast?_eq_none_iff.mp hpkr
            have htpk2 : rch.takers.peek = none := by
              show rch.takers.items.getLast? = none
              rw [htak, hre]
              rfl
            simp only [hpkr, htpk2]
            have hmsz : ch.messages.items.length < MAX_SAFE_INTEGER := by
              have hb1 := (hb i ch hsi).1
              show ch.messages.size < MAX_SAFE_INTEGER
              omega
            have hpushS := push_of_lt ch.messages
              { msg := v, putCb := some s.nextP, ts := s.totalOrder } (by rw [hq1]; exact hmsz)
            have hsz : rch.messages.size = ch.messages.size := by
              show rch.messages.items.length = ch.messages.items.length
              exact hmsg.length_eq.symm
            have hroomN : rch.messages.size < rch.messages.maxSize := by
              rw [hq3, hsz]
              exact hmsz
            have hrpk : rch.racers.peek = none := by
              show rch.racers.items.getLast? = none
              rw [hrac]
              rfl
            simp only [hpushS, push_of_lt rch.messages { msg := v, pubCb := none } hroomN,
              push_of_lt rch.messages { msg := v, pubCb := some s.nextP } hroomN, hrpk]
            have habs' : ch.messages.size = ch.messages.items.length := rfl
            split
            next hmqle =>
              split
              next hrlt =>
                rw [resolveP_setChan_comm, rresolveP_rsetChan_comm]
                have hfr : s.nextP ∉ s.resolved := fun hmem => absurd (hlt _ hmem) (lt_irrefl _)
                have hfr2 : s.nextP ∉ ({ s with totalOrder := s.totalOrder + 1, nextP := s.nextP + 1 } : Sys α).resolved := hfr
                have hresolved : (resolveP { s with totalOrder := s.totalOrder + 1, nextP := s.nextP + 1 } s.nextP (Event.putResolved s.nextP true)).resolved = s.nextP :: s.resolved := by
                  rw [resolveP_of_not_mem _ _ _ hfr2]
                apply RInv_setChan
                · exact RInv_resolveP _ _ s.nextP _
                    (RInv_bumpPut s t ⟨hnp, hres, hev, hlt, hlen, hbnd, hch⟩)
                    (Nat.lt_succ_self s.nextP)
                · rw [hresolved]
                  refine ⟨hbuf, hclm, hrac, htak, hrdr, ?_, hq1, hq2, hq3, hq4⟩
                  exact List.Forall₂.cons
                    ⟨rfl, Or.inr ⟨rfl, s.nextP, rfl, List.mem_cons_self _ _⟩⟩
                    (hmsg.imp (fun a b hab => REnvRel_mono _ _ a b hab))
                · intro r2 hr2
                  rw [resolveP_nextP]
                  exact Nat.lt_succ_of_lt ((hbnd i ch hsi).1 r2 hr2)
                · intro env2 he pc hpc
                  rw [resolveP_nextP]
                  rcases List.mem_cons.mp he with he2 | he2
                  · rw [he2] at hpc
                    injection hpc with hpce
                    rw [← hpce]
                    exact Nat.lt_succ_self _
                  · exact Nat.lt_succ_of_lt ((hbnd i ch hsi).2 env2 he2 pc hpc)
              next hrlt =>
                exfalso
                have e1 : ch.messages.items.length + 1 ≤ ch.bufferSize := hmqle
                have e2 : ¬ rch.messages.size < rch.bufferSize := hrlt
                rw [hsz, hbuf] at e2
                rw [habs'] at e2
                omega
            next hmqgt =>
              split
              next hrlt =>
                exfalso
                have e1 : ¬ ch.messages.items.length + 1 ≤ ch.bufferSize := hmqgt
                have e2 : rch.messages.size < rch.bufferSize := hrlt
                rw [hsz, hbuf] at e2
                rw [habs'] at e2
                omega
              next hrlt =>
                apply RInv_setChan
                · exact RInv_bumpPut s t ⟨hnp, hres, hev, hlt, hlen, hbnd, hch⟩
                · refine ⟨hbuf, hclm, hrac, htak, hrdr, ?_, hq1, hq2, hq3, hq4⟩
                  exact List.Forall₂.cons ⟨rfl, Or.inl rfl⟩ hmsg
                · intro r2 hr2
                  exact Nat.lt_succ_of_lt ((hbnd i ch hsi).1 r2 hr2)
                · intro env2 he pc hpc
                  rcases List.mem_cons.mp he with he2 | he2
                  · rw [he2] at hpc
                    injection hpc with hpce
                    rw [← hpce]
                    exact Nat.lt_succ_self _
                  · exact Nat.lt_succ_of_lt ((hbnd i ch hsi).2 env2 he2 pc hpc)

theorem couple_take (s : Sys α) (t : RSys α) (i : Nat)
    (hinv : RInv s t) (hb : Bounded s 1) :
    RInv (takeOp s i) (rtakeOp t i) := by
  obtain ⟨hnp, hres, hev, hlt, hlen, hbnd, hch⟩ := hinv
  cases hsi : s.chans[i]? with
  | none =>
      have hti : t.chans[i]? = none := by
        apply List.getElem?_eq_none
        rw [hlen]
        exact List.getElem?_eq_none_iff.mp hsi
      simp only [takeOp, rtakeOp, hsi, hti]
      exact ⟨hnp, hres, hev, hlt, hlen, hbnd, hch⟩
  | some ch =>
      obtain ⟨rch, hti, hm⟩ := hch i ch hsi
      obtain ⟨hbuf, hclm, hrac, htak, hrdr, hmsg, hq1, hq2, hq3, hq4⟩ := hm
      simp only [takeOp, rtakeOp, hsi, hti]
      rw [hnp]
      have hsz : rch.messages.size = ch.messages.size := by
        show rch.messages.items.length = ch.messages.items.length
        exact hmsg.length_eq.symm
      by_cases hc : ch.closed
      · rw [if_pos hc, if_pos (by rw [hclm]; exact hc)]
        exact RInv_resolveP _ _ s.nextP _
          (RInv_bumpTake s t ⟨hnp, hres, hev, hlt, hlen, hbnd, hch⟩)
          (Nat.lt_succ_self s.nextP)
      · have hcR : ¬rch.closed = true := by rw [hclm]; exact hc
        rw [if_neg hc, if_neg hcR]
        by_cases hsz0 : ch.messages.size ≠ 0
        · rw [if_pos hsz0, if_pos (show rch.messages.size ≠ 0 by rw [hsz]; exact hsz0)]
          have hcr := couple_read { s with nextP := s.nextP + 1 }
            { t with nextP := s.nextP + 1 } i
            (RInv_bumpTake s t ⟨hnp, hres, hev, hlt, hlen, hbnd, hch⟩)
          rw [← hcr.2]
          exact RInv_resolveP _ _ s.nextP _ hcr.1
            (by
              rw [readOp_nextP]
              exact Nat.lt_succ_self s.nextP)
        · rw [if_neg hsz0, if_neg (show ¬rch.messages.size ≠ 0 by rw [hsz]; exact hsz0)]
          have hrsz : ch.readers.items.length < MAX_SAFE_INTEGER := by
            have hb2 := (hb i ch hsi).2
            show ch.readers.size < MAX_SAFE_INTEGER
            omega
          have htsz : rch.takers.size = ch.readers.size := by
            show rch.takers.items.length = ch.readers.items.length
            rw [htak]
            exact List.length_map _ _
          simp only [push_of_lt ch.readers (Reader.takeR s.nextP s.nextReg)
              (by rw [hq2]; exact hrsz),
            push_of_lt rch.takers s.nextP (by rw [hq4, htsz]; exact hrsz)]
          apply RInv_setChan
          · exact RInv_bumpTake s t ⟨hnp, hres, hev, hlt, hlen, hbnd, hch⟩
          · refine ⟨hbuf, hclm, hrac, ?_, ?_, hmsg, hq1, hq2, hq3, hq4⟩
            · show s.nextP :: rch.takers.items =
                (Reader.takeR s.nextP s.nextReg :: ch.readers.items).map Reader.pid
              rw [htak]
              rfl
            · intro r2 hr2
              rcases List.mem_cons.mp hr2 with he2 | he2
              · exact ⟨s.nextP, s.nextReg, he2⟩
              · exact hrdr r2 he2
          · intro r2 hr2
            rcases List.mem_cons.mp hr2 with he2 | he2
            · rw [he2]
              exact Nat.lt_succ_self _
            · exact Nat.lt_succ_of_lt ((hbnd i ch hsi).1 r2 he2)
          · intro env2 he pc hpc
            exact Nat.lt_succ_of_lt ((hbnd i ch hsi).2 env2 he pc hpc)

theorem Bounded_le (s : Sys α) (n k : Nat) (h : Bounded s n) (hk : k ≤ n) :
    Bounded s k := by
  intro i ch hch
  obtain ⟨b1, b2⟩ := h i ch hch
  exact ⟨by omega, by omega⟩

theorem Bounded_eq (s s' : Sys α) (n : Nat) (h : Bounded s n) (he : s'.chans = s.chans) :
    Bounded s' n := by
  intro j chj hj
  rw [he] at hj
  exact h j chj hj

theorem Bounded_set (s : Sys α) (i : Nat) (ch ch' : Chan α) (n : Nat)
    (h : Bounded s (n + 1)) (hch : s.chans[i]? = some ch)
    (h1 : ch'.messages.size ≤ ch.messages.size + 1)
    (h2 : ch'.readers.size ≤ ch.readers.size + 1) :
    ∀ s' : Sys α, s'.chans = s.chans.set i ch' → Bounded s' n := by
  intro s' he j chj hj
  rw [he] at hj
  by_cases hji : j = i
  · subst hji
    rw [show (s.chans.set j ch')[j]? = some ch' from
      getElem?_setChan_self s j ch' (getElem?_lt_length hch)] at hj
    injection hj with hje
    subst hje
    obtain ⟨b1, b2⟩ := h j ch hch
    exact ⟨by omega, by omega⟩
  · rw [show (s.chans.set i ch')[j]? = s.chans[j]? from
      getElem?_setChan_ne s i j ch' (fun he2 => hji he2.symm)] at hj
    obtain ⟨b1, b2⟩ := h j chj hj
    exact ⟨by omega, by omega⟩

theorem push_size (q : Queue β) (x : β) (mq : Queue β) (h : q.push x = some mq) :
    mq.items.length = q.items.length + 1 := by
  unfold Queue.push at h
  split at h
  · exact Option.noConfusion h
  · injection h with he
    rw [← he]
    simp

theorem readOp_chans_shape (s : Sys α) (i : Nat) :
    (readOp s i).1.chans = s.chans ∨
    ∃ ch ch', s.chans[i]? = some ch ∧ (readOp s i).1.chans = s.chans.set i ch' ∧
      ch'.messages.size ≤ ch.messages.size + 1 ∧
      ch'.readers.size ≤ ch.readers.size + 1 := by
  unfold readOp
  split
  next => exact Or.inl rfl
  next ch heq =>
    split
    · exact Or.inl rfl
    · split
      next hpk => exact Or.inl rfl
      next env hpk =>
          rw [resolvePutCb_chans]
          refine Or.inr ⟨ch, { ch with messages := ch.messages.dropOldest }, heq, rfl, ?_, ?_⟩
          · show ch.messages.items.dropLast.length ≤ ch.messages.items.length + 1
            rw [List.length_dropLast]
            omega
          · exact Nat.le_succ _

theorem putOp_chans_shape (s : Sys α) (i : Nat) (v : α)
    (hrd : ∀ ch r, s.chans[i]? = some ch → ch.readers.peek = some r →
      ∃ pt rt, r = Reader.takeR pt rt) :
    (putOp s i v).chans = s.chans ∨
    ∃ ch ch', s.chans[i]? = some ch ∧ (putOp s i v).chans = s.chans.set i ch' ∧
      ch'.messages.size ≤ ch.messages.size + 1 ∧
      ch'.readers.size ≤ ch.readers.size + 1 := by
  unfold putOp
  split
  next => exact Or.inl rfl
  next ch heq =>
    split
    · exact Or.inl rfl
    · split
      next r hpk =>
          obtain ⟨pt, rt, hr⟩ := hrd ch r heq hpk
          subst hr
          simp only [invokeReader]
          rw [resolveP_chans, resolveP_chans]
          refine Or.inr ⟨ch, { ch with readers := ch.readers.dropOldest }, heq, rfl, ?_, ?_⟩
          · exact Nat.le_succ _
          · show ch.readers.items.dropLast.length ≤ ch.readers.items.length + 1
            rw [List.length_dropLast]
            omega
      next hpk =>
          dsimp only
          split
          next hpush =>
              rw [resolveP_chans]
              exact Or.inl rfl
          next mq hpush =>
              have hmq := push_size ch.messages _ mq hpush
              split
              · rw [resolveP_chans]
                refine Or.inr ⟨ch, { ch with messages := mq }, heq, rfl, ?_, Nat.le_succ _⟩
                show mq.items.length ≤ ch.messages.items.length + 1
                omega
              · refine Or.inr ⟨ch, { ch with messages := mq }, heq, rfl, ?_, Nat.le_succ _⟩
                show mq.items.length ≤ ch.messages.items.length + 1
                omega

theorem takeOp_chans_shape (s : Sys α) (i : Nat) :
    (takeOp s i).chans = s.chans ∨
    ∃ ch ch', s.chans[i]? = some ch ∧ (takeOp s i).chans = s.chans.set i ch' ∧
      ch'.messages.size ≤ ch.messages.size + 1 ∧
      ch'.readers.size ≤ ch.readers.size + 1 := by
  unfold takeOp
  split
  next => exact Or.inl rfl
  next ch heq =>
    split
    · rw [resolveP_chans]
      exact Or.inl rfl
    · split
      · rw [resolveP_chans]
        rcases readOp_chans_shape { s with nextP := s.nextP + 1 } i with he |
          ⟨ch2, ch2', hch2, he, h1, h2⟩
        · exact Or.inl he
        · exact Or.inr ⟨ch2, ch2', hch2, he, h1, h2⟩
      · dsimp only
        split
        next hpush =>
            rw [resolveP_chans]
            exact Or.inl rfl
        next rq hpush =>
            have hrq := push_size ch.readers _ rq hpush
            refine Or.inr ⟨ch, { ch with readers := rq }, heq, rfl, Nat.le_succ _, ?_⟩
            show rq.items.length ≤ ch.readers.items.length + 1
            omega

theorem Bounded_step (s : Sys α) (op : Op α) (n : Nat)
    (hrd : ∀ (i : Nat) (ch : Chan α) (r : Reader), s.chans[i]? = some ch →
      ch.readers.peek = some r → ∃ pt rt, r = Reader.takeR pt rt)
    (h : Bounded s (n + 1)) (hop : isPTRop op = true) : Bounded (applyOp s op) n := by
  cases op with
  | putO i v =>
      rcases putOp_chans_shape s i v (fun ch r hch hr => hrd i ch r hch hr) with he |
        ⟨ch, ch', hch, he, h1, h2⟩
      · exact Bounded_eq s _ n (Bounded_le s (n + 1) n h (Nat.le_succ n)) he
      · exact Bounded_set s i ch ch' n h hch h1 h2 _ he
  | takeO i =>
      rcases takeOp_chans_shape s i with he | ⟨ch, ch', hch, he, h1, h2⟩
      · exact Bounded_eq s _ n (Bounded_le s (n + 1) n h (Nat.le_succ n)) he
      · exact Bounded_set s i ch ch' n h hch h1 h2 _ he
  | readO i =>
      rcases readOp_chans_shape s i with he | ⟨ch, ch', hch, he, h1, h2⟩
      · exact Bounded_eq s _ n (Bounded_le s (n + 1) n h (Nat.le_succ n)) he
      · exact Bounded_set s i ch ch' n h hch h1 h2 _ he
  | closeO i => simp [isPTRop] at hop
  | selectO m => simp [isPTRop] at hop

theorem couple_step (s : Sys α) (t : RSys α) (op : Op α)
    (hinv : RInv s t) (hb : Bounded s 1) (hop : isPTRop op = true) :
    RInv (applyOp s op) (rapplyOp t op) := by
  cases op with
  | putO i v => exact couple_put s t i v hinv hb
  | takeO i => exact couple_take s t i hinv hb
  | readO i => exact (couple_read s t i hinv).1
  | closeO i => simp [isPTRop] at hop
  | selectO m => simp [isPTRop] at hop

theorem couple_run : ∀ (ops : List (Op α)) (s : Sys α) (t : RSys α) (n : Nat),
    RInv s t → Bounded s n → ops.length ≤ n →
    (∀ op ∈ ops, isPTRop op = true) →
    RInv (runOps s ops) (rrunOps t ops) := by
  intro ops
  induction ops with
  | nil =>
      intro s t n h _ _ _
      exact h
  | cons op rest ih =>
      intro s t n hinv hbnd hlen hops
      cases n with
      | zero => simp at hlen
      | succ m =>
          have hop := hops op (List.mem_cons_self _ _)
          have hb1 : Bounded s 1 := Bounded_le s (m + 1) 1 hbnd (by omega)
          have h1 := couple_step s t op hinv hb1 hop
          have hrd : ∀ (i : Nat) (ch : Chan α) (r : Reader), s.chans[i]? = some ch →
              ch.readers.peek = some r → ∃ pt rt, r = Reader.takeR pt rt := by
            intro i ch r hch hr
            obtain ⟨rch, _, hm⟩ := hinv.2.2.2.2.2.2 i ch hch
            exact hm.2.2.2.2.1 r (List.mem_of_mem_getLast? hr)
          have h2 := Bounded_step s op m hrd hbnd hop
          show RInv (runOps (applyOp s op) rest) (rrunOps (rapplyOp t op) rest)
          exact ih (applyOp s op) (rapplyOp t op) m h1 h2 (by simpa using hlen)
            (fun o ho => hops o (List.mem_cons_of_mem _ ho))

theorem RInv_mk (caps : List Nat) : RInv (mkSys α caps) (rmkSys α caps) := by
  refine ⟨rfl, rfl, rfl, ?_, ?_, ?_, ?_⟩
  · intro q hq
    exact absurd hq (List.not_mem_nil q)
  · show (caps.map (fun k => ({ bufferSize := k } : RChan α))).length =
      (caps.map (fun k => ({ bufferSize := k } : Chan α))).length
    simp
  · intro i ch hch
    rw [show (mkSys α caps).chans[i]? =
      (caps.map (fun k => ({ bufferSize := k } : Chan α)))[i]? from rfl] at hch
    rw [List.getElem?_map] at hch
    cases hk : caps[i]? with
    | none =>
        rw [hk] at hch
        exact Option.noConfusion hch
    | some k =>
        rw [hk] at hch
        injection hch with he
        rw [← he]
        exact ⟨fun r hr => absurd hr (List.not_mem_nil r),
          fun env he2 pc hpc => absurd he2 (List.not_mem_nil env)⟩
  · intro i ch hch
    rw [show (mkSys α caps).chans[i]? =
      (caps.map (fun k => ({ bufferSize := k } : Chan α)))[i]? from rfl] at hch
    rw [List.getElem?_map] at hch
    cases hk : caps[i]? with
    | none =>
        rw [hk] at hch
        exact Option.noConfusion hch
    | some k =>
        rw [hk] at hch
        injection hch with he
        refine ⟨{ bufferSize := k }, ?_, ?_⟩
        · rw [show (rmkSys α caps).chans[i]? =
            (caps.map (fun k2 => ({ bufferSize := k2 } : RChan α)))[i]? from rfl]
          rw [List.getElem?_map, hk]
          rfl
        · rw [← he]
          exact ⟨rfl, rfl, rfl, rfl,
            fun r hr => absurd hr (List.not_mem_nil r),
            List.Forall₂.nil, rfl, rfl, rfl, rfl⟩

theorem Bounded_mk (caps : List Nat) (n : Nat) (hn : n ≤ MAX_SAFE_INTEGER) :
    Bounded (mkSys α caps) n := by
  intro i ch hch
  rw [show (mkSys α caps).chans[i]? =
    (caps.map (fun k => ({ bufferSize := k } : Chan α)))[i]? from rfl] at hch
  rw [List.getElem?_map] at hch
  cases hk : caps[i]? with
  | none =>
      rw [hk] at hch
      exact Option.noConfusion hch
  | some k =>
      rw [hk] at hch
      injection hch with he
      rw [← he]
      exact ⟨by simpa [Queue.size] using hn, by simpa [Queue.size] using hn⟩

theorem selectRegister_mem (p selId : Nat) :
    ∀ (m : List (Nat × Nat)) (s : Sys α),
    (m.map Prod.snd).Nodup →
    (∀ k c ch, (k, c) ∈ m → s.chans[c]? = some ch →
      ch.readers.size < ch.readers.maxSize) →
    (∀ k c ch, (k, c) ∈ m → s.chans[c]? = some ch →
      ∃ rid, (selectRegister s p selId m).chans[c]? =
        some { ch with readers := { ch.readers with
          items := Reader.selectR p k selId rid :: ch.readers.items } } ∧
        s.nextReg ≤ rid) ∧
    (∀ j, (∀ k c, (k, c) ∈ m → c ≠ j) →
      (selectRegister s p selId m).chans[j]? = s.chans[j]?) := by
  intro m
  induction m with
  | nil =>
      intro s hnd hok
      refine ⟨fun k c ch hm => absurd hm (List.not_mem_nil _), fun j _ => ?_⟩
      rw [selectRegister]
  | cons e rest ih =>
      obtain ⟨k0, c0⟩ := e
      intro s hnd hok
      have hnd2 : c0 ∉ rest.map Prod.snd ∧ (rest.map Prod.snd).Nodup := by
        simpa using hnd
      cases hc0 : s.chans[c0]? with
      | none =>
          have hred : selectRegister s p selId ((k0, c0) :: rest) =
              selectRegister s p selId rest := by
            rw [selectRegister]
            simp only [hc0]
          have hok2 : ∀ k c ch, (k, c) ∈ rest → s.chans[c]? = some ch →
              ch.readers.size < ch.readers.maxSize :=
            fun k c ch hm hch => hok k c ch (List.mem_cons_of_mem _ hm) hch
          obtain ⟨ih1, ih2⟩ := ih s hnd2.2 hok2
          refine ⟨?_, ?_⟩
          · intro k c ch hm hch
            rcases List.mem_cons.mp hm with he | hm2
            · rw [Prod.mk.injEq] at he
              obtain ⟨hk, hc⟩ := he
              subst hc
              rw [hc0] at hch
              exact Option.noConfusion hch
            · rw [hred]
              exact ih1 k c ch hm2 hch
          · intro j hj
            rw [hred]
            exact ih2 j (fun k2 c2 hm2 => hj k2 c2 (List.mem_cons_of_mem _ hm2))
      | some ch0 =>
          have hroom := hok k0 c0 ch0 (List.mem_cons_self _ _) hc0
          have hlt : c0 < s.chans.length := getElem?_lt_length hc0
          have hred : selectRegister s p selId ((k0, c0) :: rest) =
              selectRegister (setChan { s with nextReg := s.nextReg + 1 } c0
                { ch0 with readers := { ch0.readers with
                  items := Reader.selectR p k0 selId s.nextReg :: ch0.readers.items } })
                p selId rest := by
            rw [selectRegister]
            simp only [hc0, push_of_lt ch0.readers _ hroom]
          have hmemmap : ∀ k2 c2, (k2, c2) ∈ rest → c0 ≠ c2 := by
            intro k2 c2 hm2 he
            exact hnd2.1 (he ▸ List.mem_map_of_mem Prod.snd hm2)
          have hok2 : ∀ k c ch, (k, c) ∈ rest →
              (setChan { s with nextReg := s.nextReg + 1 } c0
                { ch0 with readers := { ch0.readers with
                  items := Reader.selectR p k0 selId s.nextReg :: ch0.readers.items } }
                ).chans[c]? = some ch →
              ch.readers.size < ch.readers.maxSize := by
            intro k c ch hm hch
            rw [getElem?_setChan_ne _ c0 c _ (hmemmap k c hm)] at hch
            exact hok k c ch (List.mem_cons_of_mem _ hm) hch
          obtain ⟨ih1, ih2⟩ := ih _ hnd2.2 hok2
          refine ⟨?_, ?_⟩
          · intro k c ch hm hch
            rcases List.mem_cons.mp hm with he | hm2
            · rw [Prod.mk.injEq] at he
              obtain ⟨hk, hc⟩ := he
              subst hk
              subst hc
              rw [hc0] at hch
              injection hch with hche
              subst hche
              refine ⟨s.nextReg, ?_, le_refl _⟩
              rw [hred]
              rw [ih2 c (fun k2 c2 hm2 he2 => hmemmap k2 c2 hm2 he2.symm)]
              rw [getElem?_setChan_self _ _ _ (by simpa using hlt)]
            · have hne : c0 ≠ c := hmemmap k c hm2
              have hch2 : (setChan { s with nextReg := s.nextReg + 1 } c0
                  { ch0 with readers := { ch0.readers with
                    items := Reader.selectR p k0 selId s.nextReg :: ch0.readers.items } }
                  ).chans[c]? = some ch := by
                rw [getElem?_setChan_ne _ c0 c _ hne]
                exact hch
              obtain ⟨rid, hgoal, hle⟩ := ih1 k c ch hm2 hch2
              rw [hred]
              exact ⟨rid, hgoal, le_trans (Nat.le_succ _) hle⟩
          · intro j hj
            rw [hred]
            rw [ih2 j (fun k2 c2 hm2 => hj k2 c2 (List.mem_cons_of_mem _ hm2))]
            rw [getElem?_setChan_ne _ c0 j _ (hj k0 c0 (List.mem_cons_self _ _))]

theorem putOp_selectR (s : Sys α) (i : Nat) (ch : Chan α) (v : α)
    (p key selId rid : Nat)
    (hch : s.chans[i]? = some ch) (hcl : ch.closed = false)
    (hpk : ch.readers.peek = some (Reader.selectR p key selId rid)) :
    putOp s i v =
      resolveP (resolveP (withdrawOthers
        (setChan { s with totalOrder := s.totalOrder + 1, nextP := s.nextP + 1 } i
          { ch with readers := ch.readers.dropOldest }) selId rid)
        p (.selectResolved p key (some v))) s.nextP (.putResolved s.nextP true) := by
  simp only [putOp, hch, hcl, Bool.false_eq_true, if_false, hpk, invokeReader]

theorem withdrawOthers_getElem_none (s : Sys α) (selId rid i : Nat)
    (hch : s.chans[i]? = none) : (withdrawOthers s selId rid).chans[i]? = none := by
  unfold withdrawOthers
  simp [List.getElem?_map, hch]

theorem putOp_selectR_withdraw (s : Sys α) (i : Nat) (ch : Chan α) (v : α)
    (p key selId rid : Nat)
    (hch : s.chans[i]? = some ch) (hcl : ch.closed = false)
    (hpk : ch.readers.peek = some (Reader.selectR p key selId rid))
    (hi : ∀ r, r ∈ ch.readers.items.dropLast → r.rid ≠ rid)
    (hj : ∀ j chj r, j ≠ i → s.chans[j]? = some chj → r ∈ chj.readers.items →
      r.rid ≠ rid) :
    ∀ (j : Nat) (chj : Chan α) (r : Reader),
      (putOp s i v).chans[j]? = some chj → r ∈ chj.readers.items →
      r.selId? ≠ some selId := by
  intro j chj r hchj hr hsel
  rw [putOp_selectR s i ch v p key selId rid hch hcl hpk] at hchj
  rw [resolveP_chans, resolveP_chans] at hchj
  have hrid : r.rid = rid := by
    cases hs2 : (setChan { s with totalOrder := s.totalOrder + 1, nextP := s.nextP + 1 } i
        { ch with readers := ch.readers.dropOldest }).chans[j]? with
    | none =>
        rw [withdrawOthers_getElem_none _ _ _ _ hs2] at hchj
        exact Option.noConfusion hchj
    | some cj =>
        rw [withdrawOthers_getElem _ _ _ _ _ hs2] at hchj
        injection hchj with hchje
        subst hchje
        simp only [List.mem_filter] at hr
        have hcond := hr.2
        simp only [decide_eq_true_eq] at hcond
        by_contra hc
        exact hcond ⟨hsel, hc⟩
  by_cases hji : j = i
  · subst hji
    have hs2 : (setChan { s with totalOrder := s.totalOrder + 1, nextP := s.nextP + 1 } j
        { ch with readers := ch.readers.dropOldest }).chans[j]? =
        some { ch with readers := ch.readers.dropOldest } :=
      getElem?_setChan_self _ _ _ (by simpa using getElem?_lt_length hch)
    rw [withdrawOthers_getElem _ _ _ _ _ hs2] at hchj
    injection hchj with hchje
    subst hchje
    simp only [List.mem_filter] at hr
    exact hi r hr.1 hrid
  · have hs2 : (setChan { s with totalOrder := s.totalOrder + 1, nextP := s.nextP + 1 } i
        { ch with readers := ch.readers.dropOldest }).chans[j]? = s.chans[j]? :=
      getElem?_setChan_ne _ _ _ _ (fun he => hji he.symm)
    cases hsj : s.chans[j]? with
    | none =>
        rw [withdrawOthers_getElem_none _ _ _ _ (hs2.trans hsj)] at hchj
        exact Option.noConfusion hchj
    | some cj =>
        rw [withdrawOthers_getElem _ _ _ _ _ (hs2.trans hsj)] at hchj
        injection hchj with hchje
        subst hchje
        simp only [List.mem_filter] at hr
        exact hj j cj r hji hsj hr.1 hrid

theorem selectRegister_overflow (p selId : Nat) (s : Sys α) (k0 c0 k1 c1 : Nat)
    (rest : List (Nat × Nat)) (ch0 ch1 : Chan α)
    (hch0 : s.chans[c0]? = some ch0)
    (hroom0 : ch0.readers.size < ch0.readers.maxSize)
    (hch1 : s.chans[c1]? = some ch1)
    (hfull1 : ch1.readers.maxSize ≤ ch1.readers.size)
    (hne01 : c0 ≠ c1)
    (hp : p ∉ s.resolved) :
    (selectRegister s p selId ((k0, c0) :: (k1, c1) :: rest)).events =
      s.events ++ [Event.selectOverflow p] ∧
    (selectRegister s p selId ((k0, c0) :: (k1, c1) :: rest)).chans[c0]? =
      some { ch0 with readers := { ch0.readers with
        items := Reader.selectR p k0 selId s.nextReg :: ch0.readers.items } } := by
  simp only [selectRegister, hch0, push_of_lt ch0.readers _ hroom0,
    getElem?_setChan_ne _ c0 c1 _ hne01, hch1, push_of_full ch1.readers _ hfull1]
  constructor
  · unfold resolveP
    split
    next h => exact absurd h hp
    next h => simp [setChan]
  · rw [resolveP_chans]
    exact getElem?_setChan_self _ _ _ (by simpa using getElem?_lt_length hch0)

/-- No channel of the system retains a reader registration of select call
`selId`. -/
def NoSel (s : Sys α) (selId : Nat) : Prop :=
  ∀ (j : Nat) (chj : Chan α) (r : Reader), s.chans[j]? = some chj →
    r ∈ chj.readers.items → r.selId? ≠ some selId

theorem NoSel_of_chans_eq (s s' : Sys α) (selId : Nat) (he : s'.chans = s.chans)
    (h : NoSel s selId) : NoSel s' selId := by
  intro j chj r hj hr
  rw [he] at hj
  exact h j chj r hj hr

theorem NoSel_setChan (s : Sys α) (i : Nat) (ch' : Chan α) (selId : Nat)
    (h : NoSel s selId) (hnew : ∀ r ∈ ch'.readers.items, r.selId? ≠ some selId) :
    NoSel (setChan s i ch') selId := by
  intro j chj r hj hr
  by_cases hji : j = i
  · subst hji
    by_cases hlt : j < s.chans.length
    · rw [getElem?_setChan_self s j ch' hlt] at hj
      injection hj with he
      subst he
      exact hnew r hr
    · have hnone : (setChan s j ch').chans[j]? = none := by
        apply List.getElem?_eq_none
        show (s.chans.set j ch').length ≤ j
        simpa using Nat.le_of_not_lt hlt
      rw [hnone] at hj
      exact Option.noConfusion hj
  · rw [getElem?_setChan_ne s i j ch' (fun he => hji he.symm)] at hj
    exact h j chj r hj hr

theorem NoSel_withdrawOthers (s : Sys α) (selId2 rid : Nat) (selId : Nat)
    (h : NoSel s selId) : NoSel (withdrawOthers s selId2 rid) selId := by
  intro j chj r hj hr
  cases hs : s.chans[j]? with
  | none =>
      rw [withdrawOthers_getElem_none _ _ _ _ hs] at hj
      exact Option.noConfusion hj
  | some cj =>
      rw [withdrawOthers_getElem _ _ _ _ _ hs] at hj
      injection hj with he
      subst he
      simp only [List.mem_filter] at hr
      exact h j cj r hs hr.1

theorem NoSel_invokeReader (s : Sys α) (r0 : Reader) (v : Option α) (selId : Nat)
    (h : NoSel s selId) : NoSel (invokeReader s r0 v) selId := by
  cases r0 with
  | takeR p rid =>
      simp only [invokeReader]
      exact NoSel_of_chans_eq s _ selId (resolveP_chans _ _ _) h
  | selectR p key selId2 rid =>
      simp only [invokeReader]
      exact NoSel_of_chans_eq _ _ selId (resolveP_chans _ _ _)
        (NoSel_withdrawOthers s selId2 rid selId h)

theorem NoSel_drainReaders (s : Sys α) (i : Nat) (selId : Nat)
    (h : NoSel s selId) : NoSel (drainReaders s i) selId := by
  refine drainReaders_preserve (fun s2 => NoSel s2 selId) i ?_ s h
  intro s2 ch r hch hpk hQ
  refine NoSel_invokeReader _ r none selId (NoSel_setChan s2 i _ selId hQ ?_)
  intro r2 hr2
  exact hQ i ch r2 hch (List.mem_of_mem_dropLast hr2)

theorem NoSel_drainMessages (s : Sys α) (i : Nat) (selId : Nat)
    (h : NoSel s selId) : NoSel (drainMessages s i) selId := by
  refine drainMessages_preserve (fun s2 => NoSel s2 selId) i ?_ s h
  intro s2 ch env hch hpk hQ
  refine NoSel_of_chans_eq _ _ selId (resolvePutCb_chans _ _ _)
    (NoSel_setChan s2 i _ selId hQ ?_)
  intro r2 hr2
  exact hQ i ch r2 hch hr2

theorem NoSel_after_fire (s : Sys α) (i : Nat) (ch : Chan α)
    (p key selId rid : Nat) (v : Option α)
    (hch : s.chans[i]? = some ch)
    (hi : ∀ r ∈ ch.readers.items.dropLast, r.rid ≠ rid)
    (hj : ∀ j chj r, j ≠ i → s.chans[j]? = some chj → r ∈ chj.readers.items →
      r.rid ≠ rid) :
    NoSel (invokeReader (setChan s i { ch with readers := ch.readers.dropOldest })
      (Reader.selectR p key selId rid) v) selId := by
  intro j chj r hchj hr hsel
  simp only [invokeReader] at hchj
  rw [resolveP_chans] at hchj
  have hrid : r.rid = rid := by
    cases hs2 : (setChan s i { ch with readers := ch.readers.dropOldest }).chans[j]? with
    | none =>
        rw [withdrawOthers_getElem_none _ _ _ _ hs2] at hchj
        exact Option.noConfusion hchj
    | some cj =>
        rw [withdrawOthers_getElem _ _ _ _ _ hs2] at hchj
        injection hchj with hchje
        subst hchje
        simp only [List.mem_filter] at hr
        have hcond := hr.2
        simp only [decide_eq_true_eq] at hcond
        by_contra hc
        exact hcond ⟨hsel, hc⟩
  by_cases hji : j = i
  · subst hji
    have hs2 : (setChan s j { ch with readers := ch.readers.dropOldest }).chans[j]? =
        some { ch with readers := ch.readers.dropOldest } :=
      getElem?_setChan_self _ _ _ (getElem?_lt_length hch)
    rw [withdrawOthers_getElem _ _ _ _ _ hs2] at hchj
    injection hchj with hchje
    subst hchje
    simp only [List.mem_filter] at hr
    exact hi r hr.1 hrid
  · have hs2 : (setChan s i { ch with readers := ch.readers.dropOldest }).chans[j]? =
        s.chans[j]? :=
      getElem?_setChan_ne _ _ _ _ (fun he => hji he.symm)
    cases hsj : s.chans[j]? with
    | none =>
        rw [withdrawOthers_getElem_none _ _ _ _ (hs2.trans hsj)] at hchj
        exact Option.noConfusion hchj
    | some cj =>
        rw [withdrawOthers_getElem _ _ _ _ _ (hs2.trans hsj)] at hchj
        injection hchj with hchje
        subst hchje
        simp only [List.mem_filter] at hr
        exact hj j cj r hji hsj hr.1 hrid

theorem closeOp_selectR_withdraw (s : Sys α) (i : Nat) (ch : Chan α)
    (p key selId rid : Nat)
    (hch : s.chans[i]? = some ch) (hcl : ch.closed = false)
    (hpk : ch.readers.peek = some (Reader.selectR p key selId rid))
    (hi : ∀ r ∈ ch.readers.items.dropLast, r.rid ≠ rid)
    (hj : ∀ j chj r, j ≠ i → s.chans[j]? = some chj → r ∈ chj.readers.items →
      r.rid ≠ rid) :
    ∀ (j : Nat) (chj : Chan α) (r : Reader),
      (closeOp s i).chans[j]? = some chj → r ∈ chj.readers.items →
      r.selId? ≠ some selId := by
  have hchS0 : (setChan s i { ch with closed := true }).chans[i]? =
      some { ch with closed := true } :=
    getElem?_setChan_self _ _ _ (getElem?_lt_length hch)
  have hfirst := drainReaders_step (setChan s i { ch with closed := true }) i
    { ch with closed := true } (Reader.selectR p key selId rid) hchS0 hpk
  have hno1 : NoSel (invokeReader
      (setChan (setChan s i { ch with closed := true }) i
        { { ch with closed := true } with readers := ch.readers.dropOldest })
      (Reader.selectR p key selId rid) none) selId := by
    refine NoSel_after_fire (setChan s i { ch with closed := true }) i
      { ch with closed := true } p key selId rid none hchS0 hi ?_
    intro j chj r hne hchj hr
    rw [getElem?_setChan_ne s i j _ (fun he => hne he.symm)] at hchj
    exact hj j chj r hne hchj hr
  have hno2 := NoSel_drainReaders _ i selId hno1
  have hno3 := NoSel_drainMessages _ i selId hno2
  rw [closeOp_of_open s i ch hch hcl, hfirst]
  exact hno3

/-- A fresh open channel with an empty reader queue. -/
def cOvChanA : Chan Nat := { bufferSize := 0 }

/-- An open channel whose reader queue is at the capacity ceiling
(`MAX_SAFE_INTEGER` pending takers). -/
def cOvChanB : Chan Nat :=
  { bufferSize := 0,
    readers := { items := List.replicate MAX_SAFE_INTEGER (Reader.takeR 0 0) } }

/-- A system pairing a fresh channel with one whose reader queue is full. -/
def cOvSys : Sys Nat :=
  { chans := [cOvChanA, cOvChanB], nextP := 1, nextReg := 1, nextSel := 1 }

theorem events_resolve_two (s : Sys α) (pc p : Nat) (ok : Bool) (ev : Event α)
    (h1 : pc ∉ s.resolved) (h2 : p ∉ s.resolved) (hne : pc ≠ p) :
    (resolveP (resolveP s pc (.putResolved pc ok)) p ev).events
      = s.events ++ [.putResolved pc ok, ev] := by
  have hp2 : p ∉ (resolveP s pc (.putResolved pc ok)).resolved :=
    not_mem_resolveP_resolved s pc p _ h2 (fun he => hne he.symm)
  rw [resolveP_of_not_mem _ p _ hp2]
  rw [resolveP_of_not_mem s pc _ h1]
  simp

/-- C5: a select over a mapping in which every channel is open and at
least one channel has a queued message resolves synchronously to the key
of the channel whose oldest envelope has the smallest global sequence
number, pops exactly that envelope, and invokes its completion callback
with `true` before the select promise resolves — regardless of the
position of the winning key in the mapping. -/
theorem claim_C5 (α : Type) (s : Sys α) (m : List (Nat × Nat))
    (hex : ∀ k c, (k, c) ∈ m → ∃ ch, s.chans[c]? = some ch ∧ ch.closed = false)
    (hpend : ∃ k c ch env, (k, c) ∈ m ∧ s.chans[c]? = some ch ∧
      ch.messages.peek = some env)
    (hfresh : s.nextP ∉ s.resolved) :
    ∃ key ci ch env,
      (key, ci) ∈ m ∧ s.chans[ci]? = some ch ∧ ch.closed = false ∧
      ch.messages.peek = some env ∧
      (∀ k2 c2 ch2 env2, (k2, c2) ∈ m → s.chans[c2]? = some ch2 →
        ch2.messages.peek = some env2 → env.ts ≤ env2.ts) ∧
      selectOp s m =
        resolveP (resolvePutCb (setChan { s with nextP := s.nextP + 1 } ci
          { ch with messages := ch.messages.dropOldest }) env.putCb true) s.nextP
          (Event.selectResolved s.nextP key (some env.msg)) ∧
      (∀ pc, env.putCb = some pc → pc ∉ s.resolved → pc ≠ s.nextP →
        (selectOp s m).events = s.events ++
          [Event.putResolved pc true, Event.selectResolved s.nextP key (some env.msg)]) := by
  obtain ⟨key, ci, had2, hscan⟩ := selectScan_pending_done s m hex hpend
  obtain ⟨ch, env, hch, hcl, hpk, _, hall⟩ :=
    selectScan_spec s m none none false key ci had2
      (fun k c h => Option.noConfusion h) hscan
  have hmem : (key, ci) ∈ m := by
    rcases selectScan_done_some_mem s m none none false (key, ci) had2 hscan with hm | ha
    · exact hm
    · exact Option.noConfusion ha
  have heq : selectOp s m =
      resolveP (resolvePutCb (setChan { s with nextP := s.nextP + 1 } ci
        { ch with messages := ch.messages.dropOldest }) env.putCb true) s.nextP
        (Event.selectResolved s.nextP key (some env.msg)) := by
    simp only [selectOp, hscan, hch, hpk]
  refine ⟨key, ci, ch, env, hmem, hch, hcl, hpk, hall, heq, ?_⟩
  intro pc hpc hpcres hpcne
  rw [heq]
  simp only [hpc, resolvePutCb]
  have hb1 : pc ∉ (setChan { s with nextP := s.nextP + 1 } ci
      { ch with messages := ch.messages.dropOldest }).resolved := by
    simp only [setChan]
    exact hpcres
  have hb2 : s.nextP ∉ (setChan { s with nextP := s.nextP + 1 } ci
      { ch with messages := ch.messages.dropOldest }).resolved := by
    simp only [setChan]
    exact hfresh
  rw [events_resolve_two _ pc s.nextP true _ hb1 hb2 hpcne]
  simp [setChan]

/-- C5 witness: on a two-channel system where the first mapping entry's
channel holds the envelope with sequence number 1 and the second entry's
channel holds the envelope with sequence number 0, select picks the
globally older envelope even though its key is listed second. -/
theorem claim_C5_witness :
    ∃ key ci ch env,
      (key, ci) ∈ ([(0, 0), (1, 1)] : List (Nat × Nat)) ∧
      wSelSys.chans[ci]? = some ch ∧ ch.closed = false ∧
      ch.messages.peek = some env ∧
      (∀ k2 c2 ch2 env2, (k2, c2) ∈ ([(0, 0), (1, 1)] : List (Nat × Nat)) →
        wSelSys.chans[c2]? = some ch2 →
        ch2.messages.peek = some env2 → env.ts ≤ env2.ts) ∧
      selectOp wSelSys [(0, 0), (1, 1)] =
        resolveP (resolvePutCb (setChan { wSelSys with nextP := wSelSys.nextP + 1 } ci
          { ch with messages := ch.messages.dropOldest }) env.putCb true) wSelSys.nextP
          (Event.selectResolved wSelSys.nextP key (some env.msg)) ∧
      (∀ pc, env.putCb = some pc → pc ∉ wSelSys.resolved → pc ≠ wSelSys.nextP →
        (selectOp wSelSys [(0, 0), (1, 1)]).events = wSelSys.events ++
          [Event.putResolved pc true,
            Event.selectResolved wSelSys.nextP key (some env.msg)]) :=
  claim_C5 Nat wSelSys [(0, 0), (1, 1)]
    (by
      intro k c hm
      simp only [List.mem_cons, List.not_mem_nil, or_false, Prod.mk.injEq] at hm
      rcases hm with ⟨hk, hc⟩ | ⟨hk, hc⟩ <;> subst hc <;> exact ⟨_, rfl, rfl⟩)
    ⟨0, 0, wSelChanA, { msg := 10, putCb := some 1, ts := 1 }, by simp, rfl, rfl⟩
    (by simp [wSelSys])

/-- C6: a select over a mapping whose entries before some closed channel
are all open resolves synchronously to that closed channel's key with the
closed signal (value `none`), even when an earlier open channel holds a
pending message, and it modifies no channel. -/
theorem claim_C6 (α : Type) (s : Sys α) (m1 m2 : List (Nat × Nat)) (k ci : Nat)
    (ch : Chan α) (hch : s.chans[ci]? = some ch) (hcl : ch.closed = true)
    (hop : ∀ k2 c2 ch2, (k2, c2) ∈ m1 → s.chans[c2]? = some ch2 → ch2.closed = false)
    (hfresh : s.nextP ∉ s.resolved) :
    selectOp s (m1 ++ (k, ci) :: m2) =
      resolveP { s with nextP := s.nextP + 1 } s.nextP
        (Event.selectResolved s.nextP k none) ∧
    (selectOp s (m1 ++ (k, ci) :: m2)).events =
      s.events ++ [Event.selectResolved s.nextP k none] ∧
    (selectOp s (m1 ++ (k, ci) :: m2)).chans = s.chans := by
  have hscan := selectScan_closed_prefix s k ci ch m2 hch hcl m1 none none false hop
  have heq : selectOp s (m1 ++ (k, ci) :: m2) =
      resolveP { s with nextP := s.nextP + 1 } s.nextP
        (Event.selectResolved s.nextP k none) := by
    simp only [selectOp, hscan]
  refine ⟨heq, ?_, ?_⟩
  · have h2 : s.nextP ∉ ({ s with nextP := s.nextP + 1 } : Sys α).resolved := hfresh
    rw [heq, resolveP_of_not_mem _ _ _ h2]
  · rw [heq, resolveP_chans]

/-- C6 witness: on a system whose first channel is open with a pending
message and whose second channel is closed, selecting over the mapping
listing the open channel first still resolves to the closed channel's key
with the closed signal. -/
theorem claim_C6_witness :
    selectOp wC6Sys ([(0, 0)] ++ (1, 1) :: []) =
      resolveP { wC6Sys with nextP := wC6Sys.nextP + 1 } wC6Sys.nextP
        (Event.selectResolved wC6Sys.nextP 1 none) ∧
    (selectOp wC6Sys ([(0, 0)] ++ (1, 1) :: [])).events =
      wC6Sys.events ++ [Event.selectResolved wC6Sys.nextP 1 none] ∧
    (selectOp wC6Sys ([(0, 0)] ++ (1, 1) :: [])).chans = wC6Sys.chans :=
  claim_C6 Nat wC6Sys [(0, 0)] [] 1 1 wC6ChanClosed rfl rfl
    (by
      intro k2 c2 ch2 hm hc
      simp only [List.mem_cons, List.not_mem_nil, or_false, Prod.mk.injEq] at hm
      obtain ⟨hk, hc2⟩ := hm
      subst hc2
      injection hc with h
      rw [← h]
      rfl)
    (by simp [wC6Sys])

/-- C10: frame conditions of the synchronous select paths.  When no mapped
channel is closed and some mapped channel has a queued message, select
pops exactly one envelope from exactly the winning channel — its channel
record changes only in the message queue, keeping readers and flags — and
every other channel is untouched; when a mapped channel is closed (after
open prefix entries), the channel list is unchanged entirely. -/
theorem claim_C10 (α : Type) (s : Sys α) (m : List (Nat × Nat))
    (hex : ∀ k c, (k, c) ∈ m → ∃ ch, s.chans[c]? = some ch ∧ ch.closed = false)
    (hpend : ∃ k c ch env, (k, c) ∈ m ∧ s.chans[c]? = some ch ∧
      ch.messages.peek = some env)
    (s2 : Sys α) (m1 m2 : List (Nat × Nat)) (k ci2 : Nat) (ch2 : Chan α)
    (hch2 : s2.chans[ci2]? = some ch2) (hcl2 : ch2.closed = true)
    (hop2 : ∀ k3 c3 ch3, (k3, c3) ∈ m1 → s2.chans[c3]? = some ch3 →
      ch3.closed = false) :
    (∃ (ci : Nat) (ch : Chan α) (env : Env α),
      s.chans[ci]? = some ch ∧ ch.messages.peek = some env ∧
      (selectOp s m).chans[ci]? =
        some { ch with messages := ch.messages.dropOldest } ∧
      (∀ j, j ≠ ci → (selectOp s m).chans[j]? = s.chans[j]?)) ∧
    (selectOp s2 (m1 ++ (k, ci2) :: m2)).chans = s2.chans := by
  obtain ⟨key, ci, had2, hscan⟩ := selectScan_pending_done s m hex hpend
  obtain ⟨ch, env, hch, hcl, hpk, _, _⟩ :=
    selectScan_spec s m none none false key ci had2
      (fun k c h => Option.noConfusion h) hscan
  have heq : selectOp s m =
      resolveP (resolvePutCb (setChan { s with nextP := s.nextP + 1 } ci
        { ch with messages := ch.messages.dropOldest }) env.putCb true) s.nextP
        (Event.selectResolved s.nextP key (some env.msg)) := by
    simp only [selectOp, hscan, hch, hpk]
  refine ⟨⟨ci, ch, env, hch, hpk, ?_, ?_⟩, ?_⟩
  · rw [heq, resolveP_chans, resolvePutCb_chans]
    exact getElem?_setChan_self _ _ _ (getElem?_lt_length hch)
  · intro j hj
    rw [heq, resolveP_chans, resolvePutCb_chans]
    rw [getElem?_setChan_ne _ ci j _ (fun he => hj he.symm)]
  · have hscan2 :=
      selectScan_closed_prefix s2 k ci2 ch2 m2 hch2 hcl2 m1 none none false hop2
    have heq2 : selectOp s2 (m1 ++ (k, ci2) :: m2) =
        resolveP { s2 with nextP := s2.nextP + 1 } s2.nextP
          (Event.selectResolved s2.nextP k none) := by
      simp only [selectOp, hscan2]
    rw [heq2, resolveP_chans]

/-- C10 witness: the two frame conditions instantiated at the concrete
systems used for the C5 and C6 scenarios. -/
theorem claim_C10_witness :
    (∃ (ci : Nat) (ch : Chan Nat) (env : Env Nat),
      wSelSys.chans[ci]? = some ch ∧ ch.messages.peek = some env ∧
      (selectOp wSelSys [(0, 0), (1, 1)]).chans[ci]? =
        some { ch with messages := ch.messages.dropOldest } ∧
      (∀ j, j ≠ ci → (selectOp wSelSys [(0, 0), (1, 1)]).chans[j]? =
        wSelSys.chans[j]?)) ∧
    (selectOp wC6Sys ([(0, 0)] ++ (1, 1) :: [])).chans = wC6Sys.chans :=
  claim_C10 Nat wSelSys [(0, 0), (1, 1)]
    (by
      intro k c hm
      simp only [List.mem_cons, List.not_mem_nil, or_false, Prod.mk.injEq] at hm
      rcases hm with ⟨hk, hc⟩ | ⟨hk, hc⟩ <;> subst hc <;> exact ⟨_, rfl, rfl⟩)
    ⟨0, 0, wSelChanA, { msg := 10, putCb := some 1, ts := 1 }, by simp, rfl, rfl⟩
    wC6Sys [(0, 0)] [] 1 1 wC6ChanClosed rfl rfl
    (by
      intro k3 c3 ch3 hm hc
      simp only [List.mem_cons, List.not_mem_nil, or_false, Prod.mk.injEq] at hm
      obtain ⟨hk, hc3⟩ := hm
      subst hc3
      injection hc with h
      rw [← h]
      rfl)

/-- An open channel with an empty reader queue, used for the registration
scenario. -/
def wRegChan : Chan Nat := { bufferSize := 0 }

/-- A two-channel system with no pending messages and no readers. -/
def wRegSys : Sys Nat := { chans := [wRegChan, wRegChan] }

/-- A channel holding the registration of select call 1 under key 0. -/
def wFireChanA : Chan Nat := { bufferSize := 0, readers := { items := [Reader.selectR 3 0 1 0] } }

/-- A channel holding the sibling registration of select call 1 under key 1. -/
def wFireChanB : Chan Nat := { bufferSize := 0, readers := { items := [Reader.selectR 3 1 1 1] } }

/-- A system in which select call 1 has one registration on each channel. -/
def wFireSys : Sys Nat :=
  { chans := [wFireChanA, wFireChanB], nextP := 4, nextReg := 2, nextSel := 2 }

/-- C7 (amended): when the scan of a select finds no closed channel and no
pending message, registration pushes exactly one reader carrying the
select promise and the select identity onto every channel of the
(duplicate-free) mapping and touches no other channel; when the oldest
registration of the select is invoked by a later put, or by a close of
its channel, every sibling registration of the same select call is
withdrawn synchronously, so no channel retains any reader of that select
call afterwards; but when a registration is rejected by a reader queue at
its capacity bound, the select promise is rejected with the overflow
error while the registrations already made are NOT withdrawn — the
earlier channel keeps a stale reader of the failed select, contrary to
the original claim's final clause. -/
theorem claim_C7 (α : Type)
    (sA : Sys α) (mA : List (Nat × Nat))
    (hscanA : selectScan sA mA none none false = .done none true)
    (hndA : (mA.map Prod.snd).Nodup)
    (hokA : ∀ k c ch, (k, c) ∈ mA → sA.chans[c]? = some ch →
      ch.readers.size < ch.readers.maxSize)
    (sB : Sys α) (i : Nat) (chB : Chan α) (v : α) (p key selId rid : Nat)
    (hchB : sB.chans[i]? = some chB) (hclB : chB.closed = false)
    (hpkB : chB.readers.peek = some (Reader.selectR p key selId rid))
    (hiB : ∀ r, r ∈ chB.readers.items.dropLast → r.rid ≠ rid)
    (hjB : ∀ j chj r, j ≠ i → sB.chans[j]? = some chj → r ∈ chj.readers.items →
      r.rid ≠ rid)
    (sD : Sys α) (iD : Nat) (chD : Chan α) (pD keyD selD ridD : Nat)
    (hchD : sD.chans[iD]? = some chD) (hclD : chD.closed = false)
    (hpkD : chD.readers.peek = some (Reader.selectR pD keyD selD ridD))
    (hiD : ∀ r, r ∈ chD.readers.items.dropLast → r.rid ≠ ridD)
    (hjD : ∀ j chj r, j ≠ iD → sD.chans[j]? = some chj → r ∈ chj.readers.items →
      r.rid ≠ ridD)
    (sC : Sys α) (k0 c0 k1 c1 : Nat) (restC : List (Nat × Nat)) (ch0 ch1 : Chan α)
    (hscanC : selectScan sC ((k0, c0) :: (k1, c1) :: restC) none none false =
      .done none true)
    (hch0 : sC.chans[c0]? = some ch0)
    (hroom0 : ch0.readers.size < ch0.readers.maxSize)
    (hch1 : sC.chans[c1]? = some ch1)
    (hfull1 : ch1.readers.maxSize ≤ ch1.readers.size)
    (hne01 : c0 ≠ c1)
    (hfreshC : sC.nextP ∉ sC.resolved) :
    ((∀ k c ch, (k, c) ∈ mA → sA.chans[c]? = some ch →
      ∃ rid2, (selectOp sA mA).chans[c]? =
        some { ch with readers := { ch.readers with
          items := Reader.selectR sA.nextP k sA.nextSel rid2 :: ch.readers.items } } ∧
        sA.nextReg ≤ rid2) ∧
     (∀ j, (∀ k c, (k, c) ∈ mA → c ≠ j) →
      (selectOp sA mA).chans[j]? = sA.chans[j]?)) ∧
    (∀ (j : Nat) (chj : Chan α) (r : Reader),
      (putOp sB i v).chans[j]? = some chj → r ∈ chj.readers.items →
      r.selId? ≠ some selId) ∧
    (∀ (j : Nat) (chj : Chan α) (r : Reader),
      (closeOp sD iD).chans[j]? = some chj → r ∈ chj.readers.items →
      r.selId? ≠ some selD) ∧
    ((selectOp sC ((k0, c0) :: (k1, c1) :: restC)).events =
      sC.events ++ [Event.selectOverflow sC.nextP] ∧
     ∃ rid3, (selectOp sC ((k0, c0) :: (k1, c1) :: restC)).chans[c0]? =
      some { ch0 with readers := { ch0.readers with
        items := Reader.selectR sC.nextP k0 sC.nextSel rid3 :: ch0.readers.items } }) := by
  have heqA : selectOp sA mA =
      selectRegister { sA with nextP := sA.nextP + 1, nextSel := sA.nextSel + 1 }
        sA.nextP sA.nextSel mA := by
    simp only [selectOp, hscanA]
    rfl
  have heqC : selectOp sC ((k0, c0) :: (k1, c1) :: restC) =
      selectRegister { sC with nextP := sC.nextP + 1, nextSel := sC.nextSel + 1 }
        sC.nextP sC.nextSel ((k0, c0) :: (k1, c1) :: restC) := by
    simp only [selectOp, hscanC]
    rfl
  have hreg := selectRegister_mem sA.nextP sA.nextSel mA
    { sA with nextP := sA.nextP + 1, nextSel := sA.nextSel + 1 } hndA hokA
  have hovf := selectRegister_overflow sC.nextP sC.nextSel
    { sC with nextP := sC.nextP + 1, nextSel := sC.nextSel + 1 }
    k0 c0 k1 c1 restC ch0 ch1 hch0 hroom0 hch1 hfull1 hne01 hfreshC
  refine ⟨⟨?_, ?_⟩, ?_, ?_, ?_, ?_⟩
  · intro k c ch hm hch
    rw [heqA]
    exact hreg.1 k c ch hm hch
  · intro j hj
    rw [heqA]
    exact hreg.2 j hj
  · exact putOp_selectR_withdraw sB i chB v p key selId rid hchB hclB hpkB hiB hjB
  · exact closeOp_selectR_withdraw sD iD chD pD keyD selD ridD hchD hclD hpkD hiD hjD
  · rw [heqC]
    exact hovf.1
  · rw [heqC]
    exact ⟨sC.nextReg, hovf.2⟩

/-- C7 counterexample: on a system whose second channel's reader queue is
at the capacity bound, a select over both channels fails with the
overflow rejection, yet the registration already made on the first
channel is not withdrawn: the first channel retains a stale reader of the
failed select call, refuting the claim's assertion that an overflowing
select leaves no stale reader behind. -/
theorem claim_C7_counterexample :
    (selectOp cOvSys [(0, 0), (1, 1)]).events =
      cOvSys.events ++ [Event.selectOverflow 1] ∧
    ∃ ch, (selectOp cOvSys [(0, 0), (1, 1)]).chans[0]? = some ch ∧
      ch.readers.items = [Reader.selectR 1 0 1 1] := by
  have hscan : selectScan cOvSys [(0, 0), (1, 1)] none none false =
      .done none true := rfl
  have heq : selectOp cOvSys [(0, 0), (1, 1)] =
      selectRegister { cOvSys with nextP := cOvSys.nextP + 1, nextSel := cOvSys.nextSel + 1 }
        cOvSys.nextP cOvSys.nextSel [(0, 0), (1, 1)] := by
    simp only [selectOp, hscan, Bool.not_true, Bool.false_eq_true, if_false]
  have hovf := selectRegister_overflow cOvSys.nextP cOvSys.nextSel
    ({ cOvSys with nextP := cOvSys.nextP + 1, nextSel := cOvSys.nextSel + 1 } : Sys Nat)
    0 0 1 1 [] cOvChanA cOvChanB rfl
    (by norm_num [cOvChanA, Queue.size, MAX_SAFE_INTEGER])
    rfl
    (by simp [cOvChanB, Queue.size])
    (by decide)
    (by simp [cOvSys])
  refine ⟨?_, ?_⟩
  · rw [heq]
    exact hovf.1
  · rw [heq]
    exact ⟨_, hovf.2, rfl⟩

/-- C7 witness: the four scenarios of the amended statement at concrete
systems — registration over two fresh channels, a put firing the first of
two sibling registrations, a close firing that same registration, and the
overflow scenario of the counterexample system. -/
theorem claim_C7_witness :
    ((∀ k c ch, (k, c) ∈ ([(0, 0), (1, 1)] : List (Nat × Nat)) →
      wRegSys.chans[c]? = some ch →
      ∃ rid2, (selectOp wRegSys [(0, 0), (1, 1)]).chans[c]? =
        some { ch with readers := { ch.readers with
          items := Reader.selectR wRegSys.nextP k wRegSys.nextSel rid2 ::
            ch.readers.items } } ∧
        wRegSys.nextReg ≤ rid2) ∧
     (∀ j, (∀ k c, (k, c) ∈ ([(0, 0), (1, 1)] : List (Nat × Nat)) → c ≠ j) →
      (selectOp wRegSys [(0, 0), (1, 1)]).chans[j]? = wRegSys.chans[j]?)) ∧
    (∀ (j : Nat) (chj : Chan Nat) (r : Reader),
      (putOp wFireSys 0 42).chans[j]? = some chj → r ∈ chj.readers.items →
      r.selId? ≠ some 1) ∧
    (∀ (j : Nat) (chj : Chan Nat) (r : Reader),
      (closeOp wFireSys 0).chans[j]? = some chj → r ∈ chj.readers.items →
      r.selId? ≠ some 1) ∧
    ((selectOp cOvSys ((0, 0) :: (1, 1) :: [])).events =
      cOvSys.events ++ [Event.selectOverflow cOvSys.nextP] ∧
     ∃ rid3, (selectOp cOvSys ((0, 0) :: (1, 1) :: [])).chans[0]? =
      some { cOvChanA with readers := { cOvChanA.readers with
        items := Reader.selectR cOvSys.nextP 0 cOvSys.nextSel rid3 ::
          cOvChanA.readers.items } }) :=
  claim_C7 Nat wRegSys [(0, 0), (1, 1)] rfl (by decide)
    (by
      intro k c ch hm hch
      simp only [List.mem_cons, List.not_mem_nil, or_false, Prod.mk.injEq] at hm
      rcases hm with ⟨hk, hc⟩ | ⟨hk, hc⟩ <;> subst hc <;>
        (injection hch with he
         rw [← he]
         norm_num [wRegSys, wRegChan, Queue.size, MAX_SAFE_INTEGER]))
    wFireSys 0 wFireChanA 42 3 0 1 0 rfl rfl rfl
    (by
      intro r hr
      simp [wFireChanA] at hr)
    (by
      intro j chj r hj hch hr
      have hlt : j < 2 := by simpa [wFireSys] using getElem?_lt_length hch
      interval_cases j
      · exact absurd rfl hj
      · injection hch with he
        rw [← he] at hr
        simp [wFireSys, wFireChanB] at hr
        rw [hr]
        decide)
    wFireSys 0 wFireChanA 3 0 1 0 rfl rfl rfl
    (by
      intro r hr
      simp [wFireChanA] at hr)
    (by
      intro j chj r hj hch hr
      have hlt : j < 2 := by simpa [wFireSys] using getElem?_lt_length hch
      interval_cases j
      · exact absurd rfl hj
      · injection hch with he
        rw [← he] at hr
        simp [wFireSys, wFireChanB] at hr
        rw [hr]
        decide)
    cOvSys 0 0 1 1 [] cOvChanA cOvChanB rfl rfl
    (by norm_num [cOvChanA, Queue.size, MAX_SAFE_INTEGER])
    rfl
    (by simp [cOvChanB, Queue.size])
    (by decide)
    (by simp [cOvSys])

/-- C9 (amended): the rewrite implementation is observationally
equivalent to the core for every sequence of `put`, `take` and `read`
operations of length at most `MAX_SAFE_INTEGER` starting from freshly
created channels: both implementations produce exactly the same resolved
values, closed signals and error events in the same order.  (The
equivalence does not extend to `close` — the rewrite throws a `TypeError`
instead of a `ChannelClosedError` on double close and never settles
pending deferred puts, because it does not drain the message queue — nor
to `select`, where the rewrite settles on the first mapped channel with a
queued message instead of the channel holding the globally oldest
envelope; see the counterexample.) -/
theorem claim_C9 (α : Type) (caps : List Nat) (ops : List (Op α))
    (hops : ∀ op ∈ ops, isPTRop op = true)
    (hlen : ops.length ≤ MAX_SAFE_INTEGER) :
    (runOps (mkSys α caps) ops).events = (rrunOps (rmkSys α caps) ops).events := by
  have h := couple_run ops (mkSys α caps) (rmkSys α caps) MAX_SAFE_INTEGER
    (RInv_mk caps) (Bounded_mk caps MAX_SAFE_INTEGER (le_refl _)) hlen hops
  exact h.2.2.1.symm

/-- C9 counterexample: the same three-operation run — two buffered puts
and one select — produces different observable histories on the two
implementations: the core's select resolves key 1 with the globally
oldest message (20), while the rewrite resolves key 0 with channel 0's
message (10), because its select loop takes the first mapped channel with
a non-empty queue instead of comparing sequence numbers. -/
theorem claim_C9_counterexample :
    ¬ ((runOps (mkSys Nat [1, 1])
        [Op.putO 1 20, Op.putO 0 10, Op.selectO [(0, 0), (1, 1)]]).events =
      (rrunOps (rmkSys Nat [1, 1])
        [Op.putO 1 20, Op.putO 0 10, Op.selectO [(0, 0), (1, 1)]]).events) := by
  decide

/-- C9 witness: a put, a take and a read on a fresh buffered channel
produce identical event histories on both implementations. -/
theorem claim_C9_witness :
    (runOps (mkSys Nat [1]) [Op.putO 0 5, Op.takeO 0, Op.readO 0]).events =
    (rrunOps (rmkSys Nat [1]) [Op.putO 0 5, Op.takeO 0, Op.readO 0]).events :=
  claim_C9 Nat [1] [Op.putO 0 5, Op.takeO 0, Op.readO 0]
    (by
      intro op hop
      simp only [List.mem_cons, List.not_mem_nil, or_false] at hop
      rcases hop with h | h | h <;> subst h <;> rfl)
    (by norm_num [MAX_SAFE_INTEGER])

/-- C8: `channel` rejects a negative or non-integer capacity with a
synchronous argument error; an omitted or zero capacity yields an
unbuffered channel; `select` over an empty mapping throws a synchronous
argument error, leaving the system untouched (in particular registering
no reader). -/
theorem claim_C8 (α : Type) (q : ℚ) (hq : q < 0 ∨ q.den ≠ 1) (s : Sys α) :
    channelFn α (some q) = .argError ∧
    channelFn α none = .ok { bufferSize := 0 } ∧
    channelFn α (some 0) = .ok { bufferSize := 0 } ∧
    selectOp s [] = { s with events := s.events ++ [.threwType] } := by
  refine ⟨?_, rfl, rfl, rfl⟩
  have hq0 : q ≠ 0 := by
    rcases hq with h | h
    · exact ne_of_lt h
    · intro hc
      rw [hc] at h
      simp at h
  show (if q ≠ 0 then
      if (toInt32 q : ℚ) ≠ q then CtorResult.argError
      else if q < 1 then CtorResult.argError
      else CtorResult.ok { bufferSize := q.num.toNat }
    else CtorResult.ok { bufferSize := 0 }) = CtorResult.argError
  rw [if_pos hq0]
  by_cases hcast : (toInt32 q : ℚ) ≠ q
  · rw [if_pos hcast]
  · rw [if_neg hcast]
    push_neg at hcast
    rcases hq with h | h
    · rw [if_pos (lt_trans h one_pos)]
    · exfalso
      apply h
      rw [← hcast]
      exact Rat.den_intCast (toInt32 q)

/-- Witness for C8 at capacity `-1` on the empty system. -/
theorem claim_C8_witness :
    channelFn Nat (some (-1)) = .argError ∧
    channelFn Nat none = .ok { bufferSize := 0 } ∧
    channelFn Nat (some 0) = .ok { bufferSize := 0 } ∧
    selectOp (mkSys Nat []) [] =
      { mkSys Nat [] with events := (mkSys Nat []).events ++ [.threwType] } :=
  claim_C8 Nat (-1) (Or.inl (by norm_num)) (mkSys Nat [])

end Channels
